import Mathlib

/-!
# Verification of the tasuki task-aggregator core

This file gives a shallow embedding, in Lean 4, of the core of the `tasuki`
repository (a Rust task aggregator over plain-text files) and proves or refutes
a fixed list of specification claims about it.

Modelling conventions:

* Rust `&str` values are modelled as `List Char`.  Rust string slicing in the
  code under scrutiny happens at byte indices; on the lines the parsers accept
  these indices fall on ASCII prefixes, where byte index = char index, so the
  char-level model is faithful there.  The one place where a byte index can
  fall inside a multi-byte character (`parse_date_prefix`'s `&s[..10]`, which
  panics in Rust) is modelled separately at byte level (`parseDatePrefixB`).
* `chrono::NaiveDate` is modelled as a year/month/day record with full
  calendar validity (leap years included) and 4-digit non-negative years,
  which covers every date the codecs emit or the claims mention.
* The emoji metadata glyphs of the markdown codec appear in the repository's
  two source files through two different legacy-codec renderings of the same
  UTF-8 bytes (windows-1254 in `parser.rs`, MacRoman in `mod.rs`); decoding
  both back yields the same emoji (⏫ 🔺 🔼 🔽 ⏬ 📅 🗓️ 🗓 ✅ ➕ ⏳ 🛫 🆔 ⛔ 🏁 🔁),
  which are therefore used here for both the tokenizer and the line writers.
* File-system access is factored out: each backend operation is modelled as a
  pure function from the relevant file's current content (plus the operation's
  arguments) to an error-or-result value, exactly mirroring the read /
  transform / write structure of the Rust methods.
* The fetch fan-out of `BackendManager::all_tasks` awaits all backends and
  collects their results in backend order (`join_all`); it is modelled as a
  function of that list of per-backend results.
-/

namespace Tasuki

/-! ## Character-list utilities (mirroring the Rust `str` operations used) -/

/-- Whitespace test for the characters that occur in the modelled lines
(Rust `char::is_whitespace` restricted to ASCII whitespace). -/
def isWs (c : Char) : Bool := c = ' ' || c = '\t' || c = '\n' || c = '\r'

/-- Rust `str::trim_start`. -/
def trimStart (l : List Char) : List Char := l.dropWhile isWs

/-- Rust `str::trim_end`. -/
def trimEnd (l : List Char) : List Char := (l.reverse.dropWhile isWs).reverse

/-- Rust `str::trim`. -/
def trim (l : List Char) : List Char := trimEnd (trimStart l)

theorem length_dropWhile_le {α : Type} (p : α → Bool) (l : List α) :
    (l.dropWhile p).length ≤ l.length := by
  induction l with
  | nil => simp
  | cons c cs ih =>
    by_cases h : p c
    · simp only [List.dropWhile_cons, h, if_true, List.length_cons]; omega
    · simp [List.dropWhile_cons, h]

/-- Helper for `splitWs`: `acc` holds the reversed current word. -/
def splitWsAux : List Char → List Char → List (List Char)
  | [], acc => if acc = [] then [] else [acc.reverse]
  | c :: cs, acc =>
    if isWs c then (if acc = [] then splitWsAux cs [] else acc.reverse :: splitWsAux cs [])
    else splitWsAux cs (c :: acc)

/-- Rust `str::split_whitespace` (producing the non-empty words). -/
def splitWs (l : List Char) : List (List Char) := splitWsAux l []

/-- Single space character as a separator list. -/
def sp : List Char := [' ']

/-- Join words with single spaces (Rust `Vec::join(" ")`). -/
def joinSp : List (List Char) → List Char
  | [] => []
  | [w] => w
  | w :: ws => w ++ ' ' :: joinSp ws

/-! ## Calendar dates (model of `chrono::NaiveDate` as used by the code) -/

/-- A calendar date.  `chrono::NaiveDate` modelled as year/month/day. -/
structure Date where
  y : Nat
  m : Nat
  d : Nat
deriving DecidableEq, Repr

/-- Gregorian leap-year rule. -/
def isLeapYear (y : Nat) : Bool := (y % 4 = 0 && y % 100 ≠ 0) || y % 400 = 0

/-- Days in a month of a given year. -/
def daysInMonth (y m : Nat) : Nat :=
  if m = 2 then (if isLeapYear y then 29 else 28)
  else if m = 4 || m = 6 || m = 9 || m = 11 then 30 else 31

/-- Calendar validity (4-digit non-negative years, real month/day ranges). -/
def validDate (dt : Date) : Bool :=
  dt.y ≤ 9999 && 1 ≤ dt.m && dt.m ≤ 12 && 1 ≤ dt.d && dt.d ≤ daysInMonth dt.y dt.m

/-- Numeric value of a digit character. -/
def digVal (c : Char) : Nat := c.toNat - 48

/-- The digit character of a value below 10. -/
def digitChar : Nat → Char
  | 0 => '0' | 1 => '1' | 2 => '2' | 3 => '3' | 4 => '4'
  | 5 => '5' | 6 => '6' | 7 => '7' | 8 => '8' | 9 => '9'
  | _ => '0'

/-- `NaiveDate::parse_from_str(s, "%Y-%m-%d")`: exactly `YYYY-MM-DD` with a
calendar-validity check, as `chrono` performs. -/
def dateParse (s : List Char) : Option Date :=
  match s with
  | [y1, y2, y3, y4, h1, m1, m2, h2, d1, d2] =>
    if y1.isDigit && y2.isDigit && y3.isDigit && y4.isDigit && h1 = '-' &&
       m1.isDigit && m2.isDigit && h2 = '-' && d1.isDigit && d2.isDigit then
      let dt : Date := ⟨digVal y1 * 1000 + digVal y2 * 100 + digVal y3 * 10 + digVal y4,
                        digVal m1 * 10 + digVal m2, digVal d1 * 10 + digVal d2⟩
      if validDate dt then some dt else none
    else none
  | _ => none

/-- Two-digit zero-padded rendering (`%m`, `%d`). -/
def pad2 (n : Nat) : List Char := [digitChar (n / 10), digitChar (n % 10)]

/-- Four-digit zero-padded rendering (`%Y` for years up to 9999). -/
def pad4 (n : Nat) : List Char :=
  [digitChar (n / 1000), digitChar (n / 100 % 10), digitChar (n / 10 % 10), digitChar (n % 10)]

/-- `NaiveDate`'s `%Y-%m-%d` rendering (`Display`/`to_string`/`format`). -/
def dateToString (dt : Date) : List Char :=
  pad4 dt.y ++ '-' :: (pad2 dt.m ++ '-' :: pad2 dt.d)

theorem digitChar_isDigit {n : Nat} (h : n < 10) : (digitChar n).isDigit = true := by
  interval_cases n <;> rfl

theorem digVal_digitChar {n : Nat} (h : n < 10) : digVal (digitChar n) = n := by
  interval_cases n <;> rfl

theorem digitChar_ne_dash {n : Nat} (h : n < 10) : digitChar n ≠ '-' := by
  interval_cases n <;> decide

theorem dateToString_length (dt : Date) : (dateToString dt).length = 10 := by
  simp [dateToString, pad4, pad2]

/-- Format-then-parse round trip for valid dates. -/
theorem dateParse_dateToString {dt : Date} (h : validDate dt = true) :
    dateParse (dateToString dt) = some dt := by
  obtain ⟨y, m, d⟩ := dt
  have hb : y ≤ 9999 ∧ 1 ≤ m ∧ m ≤ 12 ∧ 1 ≤ d ∧ d ≤ daysInMonth y m := by
    simpa [validDate, Bool.and_eq_true, decide_eq_true_eq, and_assoc] using h
  obtain ⟨hy, hm1, hm2, hd1, hd2⟩ := hb
  have hdm : daysInMonth y m ≤ 31 := by
    unfold daysInMonth; split_ifs <;> omega
  have hy1 : y / 1000 < 10 := by omega
  have hy2 : y / 100 % 10 < 10 := by omega
  have hy3 : y / 10 % 10 < 10 := by omega
  have hy4 : y % 10 < 10 := by omega
  have hma : m / 10 < 10 := by omega
  have hmb : m % 10 < 10 := by omega
  have hda : d / 10 < 10 := by omega
  have hdb : d % 10 < 10 := by omega
  have e1 : y / 100 / 10 = y / 1000 := by rw [Nat.div_div_eq_div_mul]
  have e2 : y / 10 / 10 = y / 100 := by rw [Nat.div_div_eq_div_mul]
  have ey : digVal (digitChar (y / 1000)) * 1000 + digVal (digitChar (y / 100 % 10)) * 100 +
      digVal (digitChar (y / 10 % 10)) * 10 + digVal (digitChar (y % 10)) = y := by
    rw [digVal_digitChar hy1, digVal_digitChar hy2, digVal_digitChar hy3,
      digVal_digitChar hy4]; omega
  have em : digVal (digitChar (m / 10)) * 10 + digVal (digitChar (m % 10)) = m := by
    rw [digVal_digitChar hma, digVal_digitChar hmb]; omega
  have ed : digVal (digitChar (d / 10)) * 10 + digVal (digitChar (d % 10)) = d := by
    rw [digVal_digitChar hda, digVal_digitChar hdb]; omega
  simp [dateToString, pad4, pad2, dateParse,
    digitChar_isDigit hy1, digitChar_isDigit hy2, digitChar_isDigit hy3, digitChar_isDigit hy4,
    digitChar_isDigit hma, digitChar_isDigit hmb, digitChar_isDigit hda, digitChar_isDigit hdb,
    ey, em, ed, h]

/-! ## Shared model types (`src/model.rs`, `src/error.rs`) -/

/-- `TaskStatus` from `model.rs`. -/
inductive TaskStatus
  | Pending
  | Done
deriving DecidableEq, Repr

/-- `Priority` from `model.rs` (`None = 0 < Low < Medium < High`). -/
inductive Priority
  | none
  | low
  | medium
  | high
deriving DecidableEq, Repr

/-- Discriminant of `Priority`, as in the Rust `enum` (drives `derive(Ord)`). -/
def Priority.rank : Priority → Nat
  | .none => 0
  | .low => 1
  | .medium => 2
  | .high => 3

/-- `Task` from `model.rs`.  `source`/`source_path` are omitted (they play no
role in the claims); `created_at`/`completed_at` are kept at the date
precision the code actually uses (`date.and_hms_opt(0,0,0)`). -/
structure Task where
  id : List Char
  title : List Char
  status : TaskStatus
  priority : Priority
  due : Option Date
  tags : List (List Char)
  sourceLine : Option Nat
  createdAt : Option Date
  completedAt : Option Date
deriving DecidableEq, Repr

/-- `TaskUpdate` from `model.rs` (double-optional `due`). -/
structure TaskUpdate where
  title : Option (List Char)
  status : Option TaskStatus
  priority : Option Priority
  due : Option (Option Date)
  tags : Option (List (List Char))
deriving DecidableEq, Repr

/-- `TasukiError` from `error.rs` (the variants the modelled code produces). -/
inductive Err
  | config (msg : List Char)
  | backend (backend msg : List Char)
  | io (msg : List Char)
  | parse (msg : List Char)
deriving DecidableEq, Repr

deriving instance DecidableEq for Except

/-- Decimal rendering of a number (Rust `Display` for `usize`). -/
def natStr (n : Nat) : List Char := (Nat.repr n).data

/-- Rust `usize::from_str`: optional leading `+`, at least one digit,
value below `2^64`. -/
def parseUsize (s : List Char) : Option Nat :=
  let t := match s with
    | '+' :: r => r
    | r => r
  if t ≠ [] ∧ t.all Char.isDigit then
    let n := t.foldl (fun a c => a * 10 + digVal c) 0
    if n < 2 ^ 64 then some n else none
  else none

/-- Rust `str::lines`: raw split of a character list at newlines. -/
def splitNl (l : List Char) : List (List Char) :=
  match l with
  | [] => [[]]
  | '\n' :: rest => [] :: splitNl rest
  | c :: rest =>
    match splitNl rest with
    | [] => [[c]]
    | w :: ws => (c :: w) :: ws

/-- Rust `str::lines` strips one trailing `'\r'` of each line. -/
def stripCr (l : List Char) : List Char :=
  if l.getLast? = some '\r' then l.dropLast else l

/-- Rust `str::lines`: newline-separated lines, final empty segment dropped
when the content ends with `'\n'`, each line stripped of a trailing `'\r'`. -/
def linesOf (content : List Char) : List (List Char) :=
  if content = [] then []
  else
    let parts := splitNl content
    let parts := if content.getLast? = some '\n' then parts.dropLast else parts
    parts.map stripCr

/-- Rust `Vec<String>::join("\n")`. -/
def joinNl : List (List Char) → List Char
  | [] => []
  | [l] => l
  | l :: ls => l ++ '\n' :: joinNl ls

/-! ## Flat-file codec (`src/backends/localfile.rs`) -/

/-- `LocalFileBackend::parse_date_prefix` (char-level model of the 10-byte
prefix extraction; the byte-level panic behaviour is modelled separately
below as `parseDatePrefixB`). -/
def parseDatePrefix (s : List Char) : Option (Date × List Char) :=
  let t := trimStart s
  if t.length ≥ 10 then
    match dateParse (t.take 10) with
    | some dd => some (dd, trimStart (t.drop 10))
    | none => none
  else none

/-- Word-loop state of `parse_line` (tags / due / title accumulation). -/
structure WordAcc where
  tags : List (List Char)
  due : Option Date
  titleParts : List (List Char)
deriving DecidableEq, Repr

/-- One iteration of the `parse_line` word loop: `#tag`, `due:DATE`
(note: an invalid date after `due:` resets `due` to `None`, mirroring
`due = NaiveDate::parse_from_str(..).ok()`), otherwise a title word. -/
def wordStep (acc : WordAcc) (w : List Char) : WordAcc :=
  if w.head? = some '#' then { acc with tags := acc.tags ++ [w.drop 1] }
  else if ("due:".data).isPrefixOf w then { acc with due := dateParse (w.drop 4) }
  else { acc with titleParts := acc.titleParts ++ [w] }

/-- `LocalFileBackend::parse_line`. -/
def parseLine (lineNum : Nat) (line0 : List Char) : Option Task :=
  let line := trim line0
  if line = [] ∨ line.head? = some '#' then none
  else
    let sr : TaskStatus × List Char :=
      if ("x ".data).isPrefixOf line then (TaskStatus.Done, line.drop 2)
      else (TaskStatus.Pending, line)
    let status := sr.1
    let rest1 := trimStart sr.2
    let pr : Priority × List Char :=
      if ("(p1)".data).isPrefixOf rest1 then (Priority.high, trimStart (rest1.drop 4))
      else if ("(p2)".data).isPrefixOf rest1 then (Priority.medium, trimStart (rest1.drop 4))
      else if ("(p3)".data).isPrefixOf rest1 then (Priority.low, trimStart (rest1.drop 4))
      else (Priority.none, rest1)
    let priority := pr.1
    let cr : Option Date × List Char :=
      if status = TaskStatus.Done then
        match parseDatePrefix pr.2 with
        | some (dd, rem) => (some dd, rem)
        | none => (none, pr.2)
      else (none, pr.2)
    let completedAt := cr.1
    let kr : Option Date × List Char :=
      match parseDatePrefix cr.2 with
      | some (dd, rem) => (some dd, rem)
      | none => (none, cr.2)
    let createdAt := kr.1
    let acc := (splitWs kr.2).foldl wordStep ⟨[], none, []⟩
    let title := joinSp acc.titleParts
    if title = [] then none
    else some {
      id := ("local:".data) ++ natStr lineNum
      title := title
      status := status
      priority := priority
      due := acc.due
      tags := acc.tags
      sourceLine := some lineNum
      createdAt := createdAt
      completedAt := completedAt }

/-- The line `LocalFileBackend::create_task` appends (without the trailing
newline): canonical order priority, today's date, title, tags, due. -/
def localCreateLine (today : Date) (title : List Char) (priority : Priority)
    (due : Option Date) (tags : List (List Char)) : List Char :=
  let parts : List (List Char) :=
    (match priority with
     | .high => ["(p1)".data]
     | .medium => ["(p2)".data]
     | .low => ["(p3)".data]
     | .none => [])
    ++ [dateToString today] ++ [title]
    ++ tags.map (fun t => '#' :: t)
    ++ (match due with
        | some dd => [("due:".data) ++ dateToString dd]
        | none => [])
  joinSp parts

/-- Field patching in `LocalFileBackend::update_task` (absent = unchanged,
`due` double-optional). -/
def applyUpdateLocal (t : Task) (u : TaskUpdate) : Task :=
  { t with
    title := u.title.getD t.title
    status := u.status.getD t.status
    priority := u.priority.getD t.priority
    due := match u.due with
      | some dd => dd
      | none => t.due
    tags := u.tags.getD t.tags }

/-- The replacement line `LocalFileBackend::update_task` writes: status
prefix with completion date (today when absent), priority, creation date,
title, tags, due. -/
def localFormatTask (today : Date) (t : Task) : List Char :=
  let parts : List (List Char) :=
    (if t.status = TaskStatus.Done then
       ["x".data,
        match t.completedAt with
        | some c => dateToString c
        | none => dateToString today]
     else [])
    ++ (match t.priority with
        | .high => ["(p1)".data]
        | .medium => ["(p2)".data]
        | .low => ["(p3)".data]
        | .none => [])
    ++ (match t.createdAt with
        | some c => [dateToString c]
        | none => [])
    ++ [t.title]
    ++ t.tags.map (fun tg => '#' :: tg)
    ++ (match t.due with
        | some dd => [("due:".data) ++ dateToString dd]
        | none => [])
  joinSp parts

/-- `LocalFileBackend::update_task`, as a function of the current file
content: decode `local:<n>`, bounds-check, re-parse the addressed line,
patch, format, rewrite (the flat-file writer always appends a final
newline: `lines.join("\n") + "\n"`).  Returns the new content and the task. -/
def localUpdateTask (today : Date) (content : List Char) (id : List Char)
    (u : TaskUpdate) : Except Err (List Char × Task) :=
  match ("local:".data).isPrefixOf id, parseUsize (id.drop 6) with
  | true, some lineNum =>
    let lines := linesOf content
    if lineNum = 0 ∨ lineNum > lines.length then
      .error (.parse (("Line ".data) ++ natStr lineNum ++ (" not found".data)))
    else
      match parseLine lineNum (lines.getD (lineNum - 1) []) with
      | none =>
        .error (.parse (("Could not parse line ".data) ++ natStr lineNum))
      | some t =>
        let t' := applyUpdateLocal t u
        let newLines := lines.set (lineNum - 1) (localFormatTask today t')
        .ok (joinNl newLines ++ ['\n'], t')
  | _, _ => .error (.parse (("Invalid task ID: ".data) ++ id))

/-- The priority marker the flat-file writer places in front of a line
(the fragment of `localCreateLine` / `localFormatTask` before the dates). -/
def prioMark : Priority → List Char
  | .none => []
  | .high => "(p1) ".data
  | .medium => "(p2) ".data
  | .low => "(p3) ".data

/-- The `TaskUpdate` used by `LocalFileBackend::complete_task`. -/
def updDone : TaskUpdate := ⟨none, some TaskStatus.Done, none, none, none⟩

/-- The `TaskUpdate` used by `LocalFileBackend::uncomplete_task`. -/
def updPending : TaskUpdate := ⟨none, some TaskStatus.Pending, none, none, none⟩

/-- `LocalFileBackend::complete_task` (returns the rewritten file content). -/
def localCompleteTask (today : Date) (content : List Char) (id : List Char) :
    Except Err (List Char) :=
  (localUpdateTask today content id updDone).map Prod.fst

/-! ## Markdown-checklist codec (`src/backends/obsidian/parser.rs`) -/

/-- `ParsedTask` from `parser.rs`. -/
structure ParsedTask where
  title : List Char
  status : TaskStatus
  priority : Priority
  due : Option Date
  completedAt : Option Date
  createdAt : Option Date
  tags : List (List Char)
deriving DecidableEq, Repr

/-- High-priority glyph ⏫. -/
def hiTok : List Char := "⏫".data

/-- High-priority glyph 🔺. -/
def hiTok2 : List Char := "🔺".data

/-- Medium-priority glyph 🔼. -/
def medTok : List Char := "🔼".data

/-- Low-priority glyph 🔽. -/
def lowTok : List Char := "🔽".data

/-- Low-priority glyph ⏬. -/
def lowTok2 : List Char := "⏬".data

/-- Due-date glyph 📅. -/
def dueTok : List Char := "📅".data

/-- Due-date glyph 🗓️ (with variation selector). -/
def dueTok2 : List Char := "🗓️".data

/-- Due-date glyph 🗓. -/
def dueTok3 : List Char := "🗓".data

/-- Completion-date glyph ✅. -/
def doneTok : List Char := "✅".data

/-- Creation-date glyph ➕. -/
def createdTok : List Char := "➕".data

/-- `SKIP_WITH_VALUE`: ⏳ 🛫 🆔 ⛔ 🏁. -/
def skipToks : List (List Char) := ["⏳".data, "🛫".data, "🆔".data, "⛔".data, "🏁".data]

/-- Recurrence glyph 🔁. -/
def recTok : List Char := "🔁".data

/-- `is_metadata_token` from `parser.rs`. -/
def isMetadataToken (t : List Char) : Bool :=
  t = dueTok || t = dueTok2 || t = dueTok3 || t = doneTok || t = createdTok ||
  t = "⏳".data || t = "🛫".data || t = hiTok || t = hiTok2 || t = medTok ||
  t = lowTok || t = lowTok2 || t = recTok || t = "🆔".data || t = "⛔".data ||
  t = "🏁".data || t.head? = some '#' || ("due:".data).isPrefixOf t ||
  t = "(p1)".data || t = "(p2)".data || t = "(p3)".data

/-- `try_parse_next_date`: parse the immediately following token as a date. -/
def nextDate (ts : List (List Char)) : Option Date :=
  match ts with
  | [] => none
  | d :: _ => dateParse d

/-- Token-scanner state of `parse_checkbox_line`. -/
structure ScanAcc where
  titleParts : List (List Char)
  priority : Priority
  due : Option Date
  completedAt : Option Date
  createdAt : Option Date
  tags : List (List Char)
deriving DecidableEq, Repr

/-- The token scan loop of `parse_checkbox_line`, with the source's fixed
per-token precedence (priority glyphs; date glyphs with a valid following
date; skip-with-value glyphs; recurrence; inline `(pN)`; `#tag`;
`due:DATE`; otherwise a title word).  Every iteration consumes at least one
token, so the loop is rendered with a fuel argument bounded below by the
token count (`scanF_fuel` shows the fuel is irrelevant beyond that). -/
def scanF : Nat → List (List Char) → ScanAcc → ScanAcc
  | 0, _, s => s
  | _ + 1, [], s => s
  | fuel + 1, t :: ts, s =>
    if t = hiTok ∨ t = hiTok2 then scanF fuel ts { s with priority := .high }
    else if t = medTok then scanF fuel ts { s with priority := .medium }
    else if t = lowTok ∨ t = lowTok2 then scanF fuel ts { s with priority := .low }
    else if (t = dueTok ∨ t = dueTok2 ∨ t = dueTok3) ∧ (nextDate ts).isSome then
      scanF fuel ts.tail { s with due := nextDate ts }
    else if t = doneTok ∧ (nextDate ts).isSome then
      scanF fuel ts.tail { s with completedAt := nextDate ts }
    else if t = createdTok ∧ (nextDate ts).isSome then
      scanF fuel ts.tail { s with createdAt := nextDate ts }
    else if t ∈ skipToks then scanF fuel ts.tail s
    else if t = recTok then scanF fuel (ts.dropWhile (fun x => !isMetadataToken x)) s
    else if t = ("(p1)".data) then scanF fuel ts { s with priority := .high }
    else if t = ("(p2)".data) then scanF fuel ts { s with priority := .medium }
    else if t = ("(p3)".data) then scanF fuel ts { s with priority := .low }
    else if t.head? = some '#' then
      scanF fuel ts (if t.drop 1 = [] then s else { s with tags := s.tags ++ [t.drop 1] })
    else if ("due:".data).isPrefixOf t ∧ (dateParse (t.drop 4)).isSome then
      scanF fuel ts { s with due := dateParse (t.drop 4) }
    else scanF fuel ts { s with titleParts := s.titleParts ++ [t] }

/-- The token scan of `parse_checkbox_line` (fuel instantiated). -/
def scan (toks : List (List Char)) (s : ScanAcc) : ScanAcc := scanF toks.length toks s

/-- The empty scanner state. -/
def scanInit : ScanAcc := ⟨[], .none, none, none, none, []⟩

/-- `parse_checkbox_line` from `parser.rs`. -/
def parseCheckboxLine (line : List Char) : Option ParsedTask :=
  let trimmed := trimStart line
  if ¬ ("- [".data).isPrefixOf trimmed then none
  else
    let afterBracket := trimmed.drop 3
    match afterBracket.head? with
    | none => none
    | some statusChar =>
      if ¬ (afterBracket.head? = some ']' ∨ afterBracket.get? 1 = some ']') then none
      else
        match (match statusChar with
               | ' ' => some TaskStatus.Pending
               | 'x' => some TaskStatus.Done
               | 'X' => some TaskStatus.Done
               | _ => none) with
        | none => none
        | some status =>
          let rest := trimStart (trimmed.drop 5)
          if rest = [] then none
          else
            let s := scan (splitWs rest) scanInit
            let title := joinSp s.titleParts
            if title = [] then none
            else some ⟨title, status, s.priority, s.due, s.completedAt, s.createdAt, s.tags⟩

/-- The fence test of `parse_file`: the trimmed line starts with three
backticks. -/
def isFence (l : List Char) : Bool := ("```".data).isPrefixOf (trim l)

/-- The line loop of `parse_file`: 1-based line numbers, fence toggling on
fence lines, skipping lines inside a fence. -/
def parseFileAux : List (List Char) → Nat → Bool → List (Nat × ParsedTask)
  | [], _, _ => []
  | line :: restLines, idx, inCode =>
    if isFence line then parseFileAux restLines (idx + 1) (!inCode)
    else if inCode then parseFileAux restLines (idx + 1) inCode
    else
      match parseCheckboxLine line with
      | some t => (idx + 1, t) :: parseFileAux restLines (idx + 1) inCode
      | none => parseFileAux restLines (idx + 1) inCode

/-- `parse_file` from `parser.rs`. -/
def parseFile (content : List Char) : List (Nat × ParsedTask) :=
  parseFileAux (linesOf content) 0 false

/-! ## Markdown backend operations (`src/backends/obsidian/mod.rs`) -/

/-- Rust `str::replacen(pat, rep, 1)`: replace the first occurrence of
`pat` (non-empty here) by `rep`. -/
def replaceOnce (pat rep : List Char) : List Char → List Char
  | [] => []
  | c :: cs =>
    if pat.isPrefixOf (c :: cs) then rep ++ (c :: cs).drop pat.length
    else c :: replaceOnce pat rep cs

/-- Whether `pat` occurs as a contiguous sublist. -/
def hasOcc (pat : List Char) : List Char → Bool
  | [] => pat.isPrefixOf []
  | c :: cs => pat.isPrefixOf (c :: cs) || hasOcc pat cs

/-- Number of positions at which `pat` occurs (the patterns used here cannot
overlap themselves, so this is also the non-overlapping count). -/
def occCount (pat : List Char) : List Char → Nat
  | [] => 0
  | c :: cs => (if pat.isPrefixOf (c :: cs) then 1 else 0) + occCount pat cs

/-- The pending checkbox glyph. -/
def cbPending : List Char := "- [ ]".data

/-- The done checkbox glyph (lowercase). -/
def cbDone : List Char := "- [x]".data

/-- The done checkbox glyph (uppercase). -/
def cbDoneCap : List Char := "- [X]".data

/-- The line transform of `ObsidianBackend::complete_task`:
`line.replacen("- [ ]", "- [x]", 1)`. -/
def completeLineT (l : List Char) : List Char := replaceOnce cbPending cbDone l

/-- The line transform of `ObsidianBackend::uncomplete_task`:
`line.replacen("- [x]", "- [ ]", 1).replacen("- [X]", "- [ ]", 1)`. -/
def uncompleteLineT (l : List Char) : List Char :=
  replaceOnce cbDoneCap cbPending (replaceOnce cbDone cbPending l)

/-- `ObsidianBackend::modify_line` as a function of the file's content:
split into lines, bounds-check the 1-indexed line, transform exactly that
line, rejoin, preserving a trailing newline of the original content. -/
def modifyLine (content : List Char) (lineNum : Nat) (f : List Char → List Char) :
    Except Err (List Char) :=
  let lines := linesOf content
  if lineNum = 0 then
    .error (.backend ("obsidian".data) (("Invalid line number: ".data) ++ natStr lineNum))
  else if lines.length ≤ lineNum - 1 then
    .error (.backend ("obsidian".data)
      (("Line ".data) ++ natStr lineNum ++ (" out of range (file has ".data) ++
        natStr lines.length ++ (" lines)".data)))
  else
    let newLines := lines.set (lineNum - 1) (f (lines.getD (lineNum - 1) []))
    let out := joinNl newLines
    .ok (if content.getLast? = some '\n' then out ++ ['\n'] else out)

/-- `ObsidianBackend::parse_task_id`: strip the `obsidian:` prefix, split at
the last `:` (`rfind`), parse the line number as a `usize`. -/
def parseTaskId (id : List Char) : Except Err (List Char × Nat) :=
  if ("obsidian:".data).isPrefixOf id then
    let rest := id.drop 9
    match rest.reverse.findIdx? (fun c => c = ':') with
    | none => .error (.parse (("Invalid Obsidian task ID format: ".data) ++ id))
    | some j =>
      let lastColon := rest.length - 1 - j
      match parseUsize (rest.drop (lastColon + 1)) with
      | some n => .ok (rest.take lastColon, n)
      | none => .error (.parse (("Invalid line number in task ID: ".data) ++ id))
  else .error (.parse (("Invalid Obsidian task ID: ".data) ++ id))

/-- `ObsidianBackend::complete_task`, as a function of the addressed file's
content (the decoded vault-relative path selects that file; resolution and
the file-system read/write are factored out). -/
def obsCompleteTask (content : List Char) (id : List Char) : Except Err (List Char) :=
  match parseTaskId id with
  | .error e => .error e
  | .ok pr => modifyLine content pr.2 completeLineT

/-- `ObsidianBackend::uncomplete_task`, analogously. -/
def obsUncompleteTask (content : List Char) (id : List Char) : Except Err (List Char) :=
  match parseTaskId id with
  | .error e => .error e
  | .ok pr => modifyLine content pr.2 uncompleteLineT

/-- The reconstructed line written by `ObsidianBackend::update_task` (and,
with `Pending` status, appended by `create_task`): checkbox, title,
priority glyph, due glyph + date, tags. -/
def obsFormatLine (status : TaskStatus) (title : List Char) (priority : Priority)
    (due : Option Date) (tags : List (List Char)) : List Char :=
  (match status with
   | .Pending => "- [ ] ".data
   | .Done => "- [x] ".data) ++ title
  ++ (match priority with
      | .high => sp ++ hiTok
      | .medium => sp ++ medTok
      | .low => sp ++ lowTok
      | .none => [])
  ++ (match due with
      | some dd => sp ++ dueTok ++ sp ++ dateToString dd
      | none => [])
  ++ (tags.map (fun t => sp ++ '#' :: t)).flatten

/-- `ObsidianBackend::update_task`, as a function of the addressed file's
content: decode the id, bounds-check, the addressed line must parse as a
checkbox (else a Backend error naming the line), patch the fields, rebuild
the line canonically and rewrite it via `modify_line`. -/
def obsUpdateTask (content : List Char) (id : List Char) (u : TaskUpdate) :
    Except Err (List Char × Task) :=
  match parseTaskId id with
  | .error e => .error e
  | .ok pr =>
    let lineNum := pr.2
    let lines := linesOf content
    if lineNum = 0 then
      .error (.backend ("obsidian".data) (("Invalid line number: ".data) ++ natStr lineNum))
    else if lines.length ≤ lineNum - 1 then
      .error (.backend ("obsidian".data) (("Line ".data) ++ natStr lineNum ++ (" out of range".data)))
    else
      match parseCheckboxLine (lines.getD (lineNum - 1) []) with
      | none =>
        .error (.backend ("obsidian".data)
          (("Line ".data) ++ natStr lineNum ++ (" is not a checkbox".data)))
      | some cur =>
        let title := u.title.getD cur.title
        let status := u.status.getD cur.status
        let priority := u.priority.getD cur.priority
        let due := match u.due with
          | some dd => dd
          | none => cur.due
        let tags := u.tags.getD cur.tags
        let newLine := obsFormatLine status title priority due tags
        match modifyLine content lineNum (fun _ => newLine) with
        | .error e => .error e
        | .ok newContent =>
          .ok (newContent,
            { id := id, title := title, status := status, priority := priority,
              due := due, tags := tags, sourceLine := some lineNum,
              createdAt := none, completedAt := none })

/-! ## Backend aggregator (`src/backends/mod.rs`) -/

/-- Rust `Ord::cmp` on `usize`. -/
def natCmp (a b : Nat) : Ordering := if a < b then .lt else if b < a then .gt else .eq

/-- `Ord` on `chrono::NaiveDate` (calendar order = lexicographic y/m/d). -/
def dateCmp (a b : Date) : Ordering := (natCmp a.y b.y).then ((natCmp a.m b.m).then (natCmp a.d b.d))

/-- `<` on `chrono::NaiveDate`. -/
def dateLt (a b : Date) : Bool := dateCmp a b = .lt

/-- `Ord::cmp` on `char` (= Rust byte-lexicographic `str` order restricted
to single code points; UTF-8 byte order coincides with code-point order). -/
def charCmp (a b : Char) : Ordering := natCmp a.toNat b.toNat

/-- Rust `Ord::cmp` on `String`: lexicographic. -/
def listCmp : List Char → List Char → Ordering
  | [], [] => .eq
  | [], _ :: _ => .lt
  | _ :: _, [] => .gt
  | a :: xs, b :: ys => (charCmp a b).then (listCmp xs ys)

/-- The due-date bucket of the `all_tasks` comparator: overdue 0,
due today 1, future 2, no due date 3 (against `today`). -/
def dueScore (today : Date) (due : Option Date) : Nat :=
  match due with
  | some d => if dateLt d today then 0 else if d = today then 1 else 2
  | none => 3

/-- The `date_cmp` step of the comparator (`Some` before `None`). -/
def optDueCmp : Option Date → Option Date → Ordering
  | some da, some db => dateCmp da db
  | some _, none => .lt
  | none, some _ => .gt
  | none, none => .eq

/-- The `sort_by` comparator of `BackendManager::all_tasks`: bucket score,
then due date, then descending priority (`b.priority.cmp(&a.priority)`),
then ascending title. -/
def taskCmp (today : Date) (a b : Task) : Ordering :=
  (natCmp (dueScore today a.due) (dueScore today b.due)).then
    ((optDueCmp a.due b.due).then
      ((natCmp b.priority.rank a.priority.rank).then
        (listCmp a.title b.title)))

/-- "Not after": the order relation a stable comparator sort establishes
between consecutive elements. -/
def taskLe (today : Date) (a b : Task) : Prop := taskCmp today a b ≠ .gt

instance (today : Date) : DecidableRel (taskLe today) := fun a b => by
  unfold taskLe; infer_instance

/-- Comparator-based insertion (keeps equal elements in input order, as
Rust's stable `sort_by` does). -/
def insertSorted (today : Date) (a : Task) : List Task → List Task
  | [] => [a]
  | b :: l => if taskCmp today a b = .lt then a :: b :: l else b :: insertSorted today a l

/-- The sort applied by `all_tasks` (stable sort by `taskCmp`). -/
def sortTasks (today : Date) : List Task → List Task
  | [] => []
  | a :: l => insertSorted today a (sortTasks today l)

/-- `Display` rendering of the error variants (`thiserror` attributes). -/
def errDisplay : Err → List Char
  | .config m => ("Config error: ".data) ++ m
  | .backend b m => ("Backend '".data) ++ b ++ ("' error: ".data) ++ m
  | .io m => ("IO error: ".data) ++ m
  | .parse m => ("Parse error: ".data) ++ m

/-- The tasks of the successful backends, in backend order (the `extend`
loop of `all_tasks`). -/
def unionTasks (results : List (List Char × Except Err (List Task))) : List Task :=
  (results.filterMap (fun r =>
    match r.2 with
    | .ok ts => some ts
    | .error _ => none)).flatten

/-- The `(name, error)` pairs of the failed backends, in backend order. -/
def errList (results : List (List Char × Except Err (List Task))) :
    List (List Char × Err) :=
  results.filterMap (fun r =>
    match r.2 with
    | .error e => some (r.1, e)
    | .ok _ => none)

/-- `BackendManager::all_tasks`, as a function of the per-backend fetch
results (collected in backend order by `join_all`): merge the successful
results; fail with the first failed backend's error only when there is a
failure and the merged set is empty; otherwise sort and return. -/
def allTasks (today : Date) (results : List (List Char × Except Err (List Task))) :
    Except Err (List Task) :=
  match errList results, unionTasks results with
  | (n, e) :: _, [] => .error (.backend n (errDisplay e))
  | _, oks => .ok (sortTasks today oks)

/-! ## Byte-level model of `parse_date_prefix`'s 10-byte slice (for the
panic analysis; bytes as `Nat` values below 256) -/

/-- Rust `str::is_char_boundary` on a UTF-8 byte sequence: index 0, the end
of the sequence, or a non-continuation byte. -/
def isUtf8Boundary (bytes : List Nat) (i : Nat) : Bool :=
  if i = 0 then true
  else
    match bytes.get? i with
    | none => i = bytes.length
    | some b => b < 128 || 192 ≤ b

/-- Byte-level `LocalFileBackend::parse_date_prefix`: `&s[..10]` (and
`&s[10..]`) panic when byte index 10 of the trimmed remainder is not a
character boundary; `.error ()` models that panic.  On the boundary case it
agrees with the char-level `parseDatePrefix`. -/
def parseDatePrefixB (s : List Nat) : Except Unit (Option (Date × List Nat)) :=
  let t := s.dropWhile (fun b => b = 32 || b = 9 || b = 10 || b = 13)
  if 10 ≤ t.length then
    if isUtf8Boundary t 10 then
      match dateParse ((t.take 10).map (fun b => Char.ofNat b)) with
      | some dd => .ok (some (dd, t.drop 10))
      | none => .ok none
    else .error ()
  else .ok none

/-! ## Helper lemmas: words, whitespace, prefixes -/

theorem isWs_of_digit {c : Char} (h : c.isDigit = true) : isWs c = false := by
  rcases Bool.eq_false_or_eq_true (isWs c) with ht | hf
  · exfalso
    have hd : c = ' ' ∨ c = '\t' ∨ c = '\n' ∨ c = '\r' := by
      simpa [isWs, or_assoc] using ht
    rcases hd with rfl | rfl | rfl | rfl <;> simp [Char.isDigit] at h
  · exact hf

theorem digitChar_isDigit_any (n : Nat) : (digitChar n).isDigit = true := by
  unfold digitChar
  split <;> rfl

theorem isPrefixOf_append_self (p l : List Char) : p.isPrefixOf (p ++ l) = true := by
  induction p with
  | nil => simp [List.isPrefixOf]
  | cons c cs ih => simp [List.isPrefixOf, ih]

theorem joinSp_cons_of_ne {w : List Char} {ws : List (List Char)} (h : ws ≠ []) :
    joinSp (w :: ws) = w ++ ' ' :: joinSp ws := by
  cases ws with
  | nil => exact absurd rfl h
  | cons w2 ws2 => rfl

theorem joinSp_append {ws₁ ws₂ : List (List Char)} (h₁ : ws₁ ≠ []) (h₂ : ws₂ ≠ []) :
    joinSp (ws₁ ++ ws₂) = joinSp ws₁ ++ ' ' :: joinSp ws₂ := by
  induction ws₁ with
  | nil => exact absurd rfl h₁
  | cons w ws ih =>
    cases ws with
    | nil =>
      rw [List.cons_append, List.nil_append, joinSp_cons_of_ne h₂]
      rfl
    | cons w2 ws2 =>
      rw [List.cons_append, joinSp_cons_of_ne (by simp), ih (by simp)]
      conv_rhs => rw [joinSp_cons_of_ne (by simp)]
      simp [List.append_assoc]

theorem splitWsAux_space (rest acc : List Char) :
    splitWsAux (' ' :: rest) acc =
      if acc = [] then splitWsAux rest [] else acc.reverse :: splitWsAux rest [] := by
  simp [splitWsAux, isWs]

theorem splitWsAux_word {w : List Char} (hw : ∀ c ∈ w, isWs c = false) :
    ∀ rest acc, splitWsAux (w ++ rest) acc = splitWsAux rest (w.reverse ++ acc) := by
  induction w with
  | nil => intro rest acc; rfl
  | cons c cs ih =>
    intro rest acc
    have hc : isWs c = false := hw c (by simp)
    have step : splitWsAux ((c :: cs) ++ rest) acc = splitWsAux (cs ++ rest) (c :: acc) := by
      simp [splitWsAux, hc]
    rw [step, ih (fun x hx => hw x (by simp [hx])) rest (c :: acc)]
    simp [List.append_assoc]

theorem splitWs_word_space {w rest : List Char} (h0 : w ≠ [])
    (hw : ∀ c ∈ w, isWs c = false) :
    splitWs (w ++ ' ' :: rest) = w :: splitWs rest := by
  unfold splitWs
  rw [splitWsAux_word hw, splitWsAux_space]
  rw [if_neg (by simp [h0])]
  simp

theorem splitWs_word {w : List Char} (h0 : w ≠ []) (hw : ∀ c ∈ w, isWs c = false) :
    splitWs w = [w] := by
  have h2 : splitWs (w ++ []) = [w] := by
    unfold splitWs
    rw [splitWsAux_word hw]
    simp [splitWsAux, h0]
  simpa using h2

/-- A list of non-empty whitespace-free words splits back from its
single-space join. -/
theorem splitWs_joinSp {ws : List (List Char)}
    (h : ∀ w ∈ ws, w ≠ [] ∧ ∀ c ∈ w, isWs c = false) :
    splitWs (joinSp ws) = ws := by
  induction ws with
  | nil => rfl
  | cons w rest ih =>
    cases rest with
    | nil =>
      have := h w (by simp)
      simpa [joinSp] using splitWs_word this.1 this.2
    | cons w2 rest2 =>
      rw [joinSp_cons_of_ne (by simp)]
      have hww := h w (by simp)
      rw [splitWs_word_space hww.1 hww.2]
      rw [ih (fun x hx => h x (by simp [hx]))]

theorem trimStart_eq_self {l : List Char} (h : ∀ c, l.head? = some c → isWs c = false) :
    trimStart l = l := by
  cases l with
  | nil => rfl
  | cons c cs => simp [trimStart, List.dropWhile_cons, h c rfl]

theorem trimStart_cons_space (l : List Char) : trimStart (' ' :: l) = trimStart l := by
  simp [trimStart, List.dropWhile_cons, isWs]

theorem trimEnd_eq_self {l : List Char} (h : ∀ c, l.getLast? = some c → isWs c = false) :
    trimEnd l = l := by
  unfold trimEnd
  have hdw : l.reverse.dropWhile isWs = l.reverse := by
    cases hr : l.reverse with
    | nil => rfl
    | cons c cs =>
      have hc : l.getLast? = some c := by
        rw [← List.head?_reverse, hr]; rfl
      simp [List.dropWhile_cons, h c hc]
  rw [hdw, List.reverse_reverse]

theorem trim_eq_self {l : List Char}
    (hh : ∀ c, l.head? = some c → isWs c = false)
    (hg : ∀ c, l.getLast? = some c → isWs c = false) :
    trim l = l := by
  unfold trim
  rw [trimStart_eq_self hh, trimEnd_eq_self hg]

/-! ## Helper lemmas: shape of parsed and rendered dates -/

theorem dateParse_shape {s : List Char} {d : Date} (h : dateParse s = some d) :
    s.length = 10 ∧ (∀ c ∈ s, c.isDigit = true ∨ c = '-') ∧
      (∃ c cs, s = c :: cs ∧ c.isDigit = true) := by
  rcases s with _|⟨y1,_|⟨y2,_|⟨y3,_|⟨y4,_|⟨h1,_|⟨m1,_|⟨m2,_|⟨h2,_|⟨d1,_|⟨d2,_|⟨e,rest⟩⟩⟩⟩⟩⟩⟩⟩⟩⟩⟩
  all_goals try (refine absurd h ?_; simp [dateParse]; done)
  simp only [dateParse] at h
  split at h
  case isTrue hg =>
    have hb : y1.isDigit = true ∧ y2.isDigit = true ∧ y3.isDigit = true ∧
        y4.isDigit = true ∧ h1 = '-' ∧ m1.isDigit = true ∧ m2.isDigit = true ∧
        h2 = '-' ∧ d1.isDigit = true ∧ d2.isDigit = true := by
      simpa [Bool.and_eq_true, decide_eq_true_eq, and_assoc] using hg
    obtain ⟨g1, g2, g3, g4, g5, g6, g7, g8, g9, g10⟩ := hb
    refine ⟨rfl, fun c hc => ?_, ⟨y1, _, rfl, g1⟩⟩
    simp only [List.mem_cons, List.not_mem_nil, or_false] at hc
    rcases hc with rfl | rfl | rfl | rfl | rfl | rfl | rfl | rfl | rfl | rfl
    · exact Or.inl g1
    · exact Or.inl g2
    · exact Or.inl g3
    · exact Or.inl g4
    · exact Or.inr g5
    · exact Or.inl g6
    · exact Or.inl g7
    · exact Or.inr g8
    · exact Or.inl g9
    · exact Or.inl g10
  case isFalse => simp at h

theorem dateToString_mem {dt : Date} {c : Char} (h : c ∈ dateToString dt) :
    c.isDigit = true ∨ c = '-' := by
  simp only [dateToString, pad4, pad2, List.cons_append, List.nil_append,
    List.mem_cons, List.not_mem_nil, or_false] at h
  rcases h with rfl | rfl | rfl | rfl | rfl | rfl | rfl | rfl | rfl | rfl
  all_goals first
    | exact Or.inl (digitChar_isDigit_any _)
    | exact Or.inr rfl

theorem dateToString_head (dt : Date) :
    ∃ c cs, dateToString dt = c :: cs ∧ c.isDigit = true := by
  exact ⟨_, _, rfl, digitChar_isDigit_any _⟩

theorem date_chars_not_ws {c : Char} (h : c.isDigit = true ∨ c = '-') : isWs c = false := by
  rcases h with h | rfl
  · exact isWs_of_digit h
  · rfl

/-! ## Claim C10 -/

/-- C10: the claim asserts the flat-file line parser is total — in
particular that the 10-byte date-prefix extraction is well-defined even
when the 10th byte of the remainder is not a UTF-8 character boundary.
The code is wrong: `parse_date_prefix` evaluates `&s[..10]`, which panics
on such inputs.  This theorem evaluates the byte-level model at the bytes
of the line `"123456789é"` (nine ASCII digits followed by U+00E9 = `0xC3
0xA9`): byte 10 is the continuation byte `0xA9`, no character boundary,
and the code reaches the panic (modelled as `.error ()`). -/
theorem parseDatePrefix_panics_midchar :
    parseDatePrefixB [49, 50, 51, 52, 53, 54, 55, 56, 57, 195, 169] = .error () := by
  decide

/-! ## Claim C1 -/

/-- C1, counterexample: with one backend succeeding (with an empty task
list) and one failing, not every backend failed, yet `all_tasks` returns
an error — refuting "the call fails only if every backend failed". -/
theorem allTasks_counterexample :
    (allTasks ⟨2025, 10, 12⟩
        [("local".data, .ok []), ("Obsidian".data, .error (.io ("disk".data)))]).isOk = false
    ∧ (errList [(("local".data : List Char), (.ok [] : Except Err (List Task))),
        ("Obsidian".data, .error (.io ("disk".data)))]).length <
      ([(("local".data : List Char), (.ok [] : Except Err (List Task))),
        ("Obsidian".data, .error (.io ("disk".data)))]).length := by
  constructor
  · decide
  · decide

/-- C1, amended: `all_tasks` returns the sorted union of the successful
backends' tasks whenever that union is non-empty (failed backends dropped
silently); it fails exactly when the union is empty and at least one
backend failed, surfacing the first encountered backend's error (so a
failure can also surface when some backends succeeded but produced no
tasks). -/
theorem allTasks_partial_failure (today : Date)
    (results : List (List Char × Except Err (List Task))) :
    (unionTasks results ≠ [] →
      allTasks today results = .ok (sortTasks today (unionTasks results)))
    ∧ (∀ e, allTasks today results = .error e ↔
        unionTasks results = [] ∧
          ∃ nm er rest, errList results = (nm, er) :: rest ∧
            e = .backend nm (errDisplay er)) := by
  constructor
  · intro hne
    unfold allTasks
    cases herr : errList results with
    | nil => rfl
    | cons p tl =>
      obtain ⟨nm0, er0⟩ := p
      cases hok : unionTasks results with
      | nil => exact absurd hok hne
      | cons t ts => rfl
  · intro e
    unfold allTasks
    cases herr : errList results with
    | nil =>
      cases hok : unionTasks results with
      | nil =>
        constructor
        · intro he; exact absurd he (by simp)
        · rintro ⟨-, nm, er, rest, heq, rfl⟩
          exact absurd heq (by simp)
      | cons t ts =>
        constructor
        · intro he; exact absurd he (by simp)
        · rintro ⟨-, nm, er, rest, heq, rfl⟩
          exact absurd heq (by simp)
    | cons p tl =>
      obtain ⟨nm0, er0⟩ := p
      cases hok : unionTasks results with
      | nil =>
        constructor
        · intro he
          injection he with hb
          exact ⟨rfl, nm0, er0, tl, rfl, hb.symm⟩
        · rintro ⟨-, nm, er, rest, heq, rfl⟩
          injection heq with hh ht
          injection hh with ha hb
          rw [ha, hb]
      | cons t ts =>
        constructor
        · intro he; exact absurd he (by simp)
        · rintro ⟨h1, -⟩
          exact absurd h1 (by simp)

/-- C1 witness. -/
theorem allTasks_partial_failure_witness :
    unionTasks [(("local".data : List Char),
        (.ok [⟨"local:1".data, "A".data, .Pending, .none, none, [], some 1, none, none⟩]
          : Except Err (List Task))),
      ("Obsidian".data, .error (.io ("disk".data)))] ≠ [] ∧
    allTasks ⟨2025, 10, 12⟩
      [("local".data,
        .ok [⟨"local:1".data, "A".data, .Pending, .none, none, [], some 1, none, none⟩]),
       ("Obsidian".data, .error (.io ("disk".data)))] =
      .ok [⟨"local:1".data, "A".data, .Pending, .none, none, [], some 1, none, none⟩] :=
  ⟨by decide,
   by
    have h := (allTasks_partial_failure ⟨2025, 10, 12⟩
      [("local".data,
        .ok [⟨"local:1".data, "A".data, .Pending, .none, none, [], some 1, none, none⟩]),
       ("Obsidian".data, .error (.io ("disk".data)))]).1 (by decide)
    rw [h]; decide⟩

/-! ## Claim C3 -/

/-- C3, counterexample: on an in-range line that is not a checkbox,
`update` fails with the Backend error naming the line, but `complete`
succeeds (the claim asserts every mutation fails there) — and a
non-checkbox line containing the glyph elsewhere is even modified. -/
theorem obsidian_non_checkbox_counterexample :
    obsUpdateTask ("plain text\n".data) ("obsidian:f.md:1".data) ⟨none, none, none, none, none⟩
      = .error (.backend ("obsidian".data) ("Line 1 is not a checkbox".data))
    ∧ obsCompleteTask ("plain text\n".data) ("obsidian:f.md:1".data) = .ok ("plain text\n".data)
    ∧ obsCompleteTask ("note: - [ ] inline\n".data) ("obsidian:f.md:1".data)
        = .ok ("note: - [x] inline\n".data)
    ∧ parseCheckboxLine ("note: - [ ] inline".data) = none := by
  refine ⟨by decide, by decide, by decide, by decide⟩

/-- C3, amended: on an in-range line that is not a checkbox, only `update`
fails (with a Backend error naming the line); `complete` and `uncomplete`
do not validate the line and succeed. -/
theorem obsidian_mutation_non_checkbox (content id path : List Char) (n : Nat)
    (u : TaskUpdate)
    (hid : parseTaskId id = .ok (path, n))
    (h1 : 1 ≤ n) (h2 : n ≤ (linesOf content).length)
    (hcb : parseCheckboxLine ((linesOf content).getD (n - 1) []) = none) :
    obsUpdateTask content id u =
      .error (.backend ("obsidian".data)
        (("Line ".data) ++ natStr n ++ (" is not a checkbox".data)))
    ∧ (obsCompleteTask content id).isOk = true
    ∧ (obsUncompleteTask content id).isOk = true := by
  refine ⟨?_, ?_, ?_⟩
  · unfold obsUpdateTask
    rw [hid]
    simp only
    rw [if_neg (by omega), if_neg (by omega), hcb]
  · unfold obsCompleteTask
    rw [hid]
    simp only [modifyLine]
    rw [if_neg (by omega), if_neg (by omega)]
    rfl
  · unfold obsUncompleteTask
    rw [hid]
    simp only [modifyLine]
    rw [if_neg (by omega), if_neg (by omega)]
    rfl

/-- C3 witness. -/
theorem obsidian_mutation_non_checkbox_witness :
    parseTaskId ("obsidian:f.md:1".data) = .ok ("f.md".data, 1) ∧
    obsUpdateTask ("plain text\n".data) ("obsidian:f.md:1".data) ⟨none, none, none, none, none⟩
      = .error (.backend ("obsidian".data)
        (("Line ".data) ++ natStr 1 ++ (" is not a checkbox".data))) :=
  ⟨by decide,
   (obsidian_mutation_non_checkbox ("plain text\n".data) ("obsidian:f.md:1".data)
      ("f.md".data) 1 ⟨none, none, none, none, none⟩ (by decide) (by decide) (by decide)
      (by decide)).1⟩

/-! ## Claims C5, C7, C8: counterexamples -/

/-- C5, counterexample: a constructed title consisting of the word
`#work` does not survive format-then-parse in either codec — both writers
emit it verbatim, and both parsers re-read it as a tag, leaving an empty
title, so the re-parse produces no task at all. -/
theorem roundtrip_counterexample :
    parseLine 1 (localCreateLine ⟨2025, 10, 12⟩ ("#work".data) .none none []) = none
    ∧ parseCheckboxLine (obsFormatLine .Pending ("#work".data) .none none []) = none := by
  refine ⟨by decide, by decide⟩

/-- C7, counterexample: `complete` is not idempotent.  Markdown backend: a
checkbox line containing a second pending glyph is changed again by a
second `complete` (only the first remaining occurrence is replaced per
call).  Flat-file backend: a second successful `complete` can split a
title word whose first ten bytes parse as a date, rewriting different
content. -/
theorem complete_idem_counterexample :
    obsCompleteTask ("- [ ] a - [ ] b\n".data) ("obsidian:f.md:1".data)
        = .ok ("- [x] a - [ ] b\n".data)
    ∧ obsCompleteTask ("- [x] a - [ ] b\n".data) ("obsidian:f.md:1".data)
        = .ok ("- [x] a - [x] b\n".data)
    ∧ ("- [x] a - [x] b\n".data ≠ "- [x] a - [ ] b\n".data)
    ∧ localCompleteTask ⟨2025, 10, 12⟩ ("x 2020-01-01 #t 2025-01-012\n".data)
        ("local:1".data) = .ok ("x 2020-01-01 2025-01-012 #t\n".data)
    ∧ localCompleteTask ⟨2025, 10, 13⟩ ("x 2020-01-01 2025-01-012 #t\n".data)
        ("local:1".data) = .ok ("x 2020-01-01 2025-01-01 2 #t\n".data)
    ∧ ("x 2020-01-01 2025-01-01 2 #t\n".data ≠ "x 2020-01-01 2025-01-012 #t\n".data) := by
  refine ⟨by decide, by decide, by decide, by decide, by decide, by decide⟩

/-- C8, counterexample: with CRLF line endings, `complete` does not leave
"every other character" intact — `str::lines` strips the `'\r'` and the
rewrite joins with `'\n'`, so the carriage return disappears. -/
theorem frame_crlf_counterexample :
    obsCompleteTask ("- [ ] a\r\n".data) ("obsidian:f.md:1".data) = .ok ("- [x] a\n".data)
    ∧ ("- [x] a\n".data ≠ "- [x] a\r\n".data) := by
  refine ⟨by decide, by decide⟩

/-! ## Claim C2 -/


theorem trimStart_cons {c : Char} {l : List Char} (hc : isWs c = false) :
    trimStart (c :: l) = c :: l := by
  simp [trimStart, List.dropWhile_cons, hc]

theorem isPrefixOf_cons_false {p0 c0 : Char} {ps l : List Char} (hne : p0 ≠ c0) :
    (p0 :: ps).isPrefixOf (c0 :: l) = false := by
  simp [List.isPrefixOf, hne]

theorem getLast?_cons_of_ne {α : Type} {c : α} {l : List α} (h : l ≠ []) :
    (c :: l).getLast? = l.getLast? := by
  cases l with
  | nil => exact absurd rfl h
  | cons b bs => exact List.getLast?_cons_cons

theorem getLast?_ws_of_append {pre w : List Char} (hw0 : w ≠ [])
    (hww : ∀ c ∈ w, isWs c = false) :
    ∀ c0, (pre ++ w).getLast? = some c0 → isWs c0 = false := by
  intro c0 hc0
  rw [List.getLast?_append] at hc0
  cases hgw : w.getLast? with
  | none => exact absurd (List.getLast?_eq_none_iff.mp hgw) hw0
  | some g =>
    rw [hgw] at hc0
    have hgc : g = c0 := by
      have h2 : Option.or (some g) pre.getLast? = some g := rfl
      rw [h2] at hc0
      injection hc0
    rw [← hgc]
    exact hww g (List.mem_of_mem_getLast? hgw)

/-- The word loop sends one plain word to the title accumulator. -/
theorem tail_word_fold {w : List Char} (hwh : w.head? ≠ some '#')
    (hwd : ("due:".data).isPrefixOf w = false) :
    wordStep ⟨[], none, []⟩ w = ⟨[], none, [w]⟩ := by
  unfold wordStep
  rw [if_neg hwh, if_neg (by simp [hwd])]
  simp

theorem isDigit_ne {c c' : Char} (h : c.isDigit = true) (h' : c'.isDigit = false) :
    c ≠ c' := by
  intro he
  rw [he, h'] at h
  exact Bool.noConfusion h

/-- On input starting with a full rendered date, `parse_date_prefix`
consumes exactly it and trims the remainder. -/
theorem parseDatePrefix_of_prefix {s r : List Char} {d : Date}
    (hd : dateParse s = some d) :
    parseDatePrefix (s ++ r) = some (d, trimStart r) := by
  obtain ⟨hlen, hmem, c, cs, hcons, hcdig⟩ := dateParse_shape hd
  unfold parseDatePrefix
  have hts : trimStart (s ++ r) = s ++ r := by
    apply trimStart_eq_self
    intro c0 hc0
    rw [hcons] at hc0
    simp only [List.cons_append, List.head?_cons, Option.some.injEq] at hc0
    rw [← hc0]
    exact isWs_of_digit hcdig
  rw [hts]
  have hlen2 : 10 ≤ (s ++ r).length := by
    simp [List.length_append, hlen]
  rw [if_pos hlen2]
  have htake : (s ++ r).take 10 = s := by
    rw [← hlen]; exact List.take_left _ _
  have hdrop : (s ++ r).drop 10 = r := by
    rw [← hlen]; exact List.drop_left _ _
  rw [htake, hdrop, hd]

/-- C2, counterexample: on `"x (p1) 2025-03-01 Pay rent"` the claim's
grammar order (completion date before the priority marker, creation date
after it) requires `created_at = 2025-03-01` and `completed_at = None`;
the code consumes the priority marker first and then reads `2025-03-01`
as the *completion* date. -/
theorem flatfile_date_order_counterexample :
    (parseLine 1 ("x (p1) 2025-03-01 Pay rent".data)).map
        (fun t => (t.completedAt, t.createdAt, t.priority))
      = some (some ⟨2025, 3, 1⟩, none, Priority.high) := by
  decide

/-- C2, amended: the flat-file parser consumes the priority marker first,
immediately after stripping a leading `"x "`; the first valid ISO date
after the marker becomes the completion date on completed lines, a second
one the creation date; on pending lines the first date is the creation
date. -/
theorem flatfile_date_consumption_order (n : Nat) (p : Priority)
    (s1 s2 w : List Char) (d1 d2 : Date)
    (h1 : dateParse s1 = some d1) (h2 : dateParse s2 = some d2)
    (hw0 : w ≠ []) (hww : ∀ c ∈ w, isWs c = false)
    (hwh : w.head? ≠ some '#') (hwd : ("due:".data).isPrefixOf w = false) :
    parseLine n (("x ".data) ++ prioMark p ++ s1 ++ ' ' :: s2 ++ ' ' :: w) =
      some { id := ("local:".data) ++ natStr n, title := w, status := .Done,
             priority := p, due := none, tags := [], sourceLine := some n,
             createdAt := some d2, completedAt := some d1 }
    ∧ parseLine n (prioMark p ++ s1 ++ ' ' :: w) =
      some { id := ("local:".data) ++ natStr n, title := w, status := .Pending,
             priority := p, due := none, tags := [], sourceLine := some n,
             createdAt := some d1, completedAt := none } := by
  obtain ⟨hlen1, hmem1, c1, cs1, hcons1, hdig1⟩ := dateParse_shape h1
  obtain ⟨hlen2, hmem2, c2, cs2, hcons2, hdig2⟩ := dateParse_shape h2
  have hc1ws : isWs c1 = false := isWs_of_digit hdig1
  have hc2ws : isWs c2 = false := isWs_of_digit hdig2
  obtain ⟨wh, wt, hwc⟩ : ∃ wh wt, w = wh :: wt := by
    cases w with
    | nil => exact absurd rfl hw0
    | cons wh wt => exact ⟨wh, wt, rfl⟩
  have htsw : trimStart w = w := by
    rw [hwc]; exact trimStart_cons (hww wh (by rw [hwc]; simp))
  have hts2 : trimStart (s2 ++ ' ' :: w) = s2 ++ ' ' :: w := by
    rw [hcons2, List.cons_append]; exact trimStart_cons hc2ws
  have hpd2 : parseDatePrefix (s2 ++ ' ' :: w) = some (d2, w) := by
    rw [ parseDatePrefix_of_prefix h2, trimStart_cons_space, htsw]
  have hts1a : trimStart (s1 ++ ' ' :: (s2 ++ ' ' :: w)) = s1 ++ ' ' :: (s2 ++ ' ' :: w) := by
    rw [hcons1, List.cons_append]; exact trimStart_cons hc1ws
  have hts1b : trimStart (s1 ++ ' ' :: w) = s1 ++ ' ' :: w := by
    rw [hcons1, List.cons_append]; exact trimStart_cons hc1ws
  have hpd1 : parseDatePrefix (s1 ++ ' ' :: (s2 ++ ' ' :: w)) = some (d1, s2 ++ ' ' :: w) := by
    rw [ parseDatePrefix_of_prefix h1, trimStart_cons_space, hts2]
  have hpd1w : parseDatePrefix (s1 ++ ' ' :: w) = some (d1, w) := by
    rw [ parseDatePrefix_of_prefix h1, trimStart_cons_space, htsw]
  have hsw : splitWs w = [w] := splitWs_word hw0 hww
  have hfold := tail_word_fold hwh hwd
  have hxpb : (("x ".data).isPrefixOf (s1 ++ ' ' :: w)) = false := by
    rw [hcons1, List.cons_append]
    exact isPrefixOf_cons_false (Ne.symm (isDigit_ne hdig1 (by decide)))
  have hp1fa : (("(p1)".data).isPrefixOf (s1 ++ ' ' :: (s2 ++ ' ' :: w))) = false := by
    rw [hcons1, List.cons_append]
    exact isPrefixOf_cons_false (Ne.symm (isDigit_ne hdig1 (by decide)))
  have hp2fa : (("(p2)".data).isPrefixOf (s1 ++ ' ' :: (s2 ++ ' ' :: w))) = false := by
    rw [hcons1, List.cons_append]
    exact isPrefixOf_cons_false (Ne.symm (isDigit_ne hdig1 (by decide)))
  have hp3fa : (("(p3)".data).isPrefixOf (s1 ++ ' ' :: (s2 ++ ' ' :: w))) = false := by
    rw [hcons1, List.cons_append]
    exact isPrefixOf_cons_false (Ne.symm (isDigit_ne hdig1 (by decide)))
  have hp1fb : (("(p1)".data).isPrefixOf (s1 ++ ' ' :: w)) = false := by
    rw [hcons1, List.cons_append]
    exact isPrefixOf_cons_false (Ne.symm (isDigit_ne hdig1 (by decide)))
  have hp2fb : (("(p2)".data).isPrefixOf (s1 ++ ' ' :: w)) = false := by
    rw [hcons1, List.cons_append]
    exact isPrefixOf_cons_false (Ne.symm (isDigit_ne hdig1 (by decide)))
  have hp3fb : (("(p3)".data).isPrefixOf (s1 ++ ' ' :: w)) = false := by
    rw [hcons1, List.cons_append]
    exact isPrefixOf_cons_false (Ne.symm (isDigit_ne hdig1 (by decide)))
  constructor
  · cases p with
    | none =>
      have hln : ("x ".data) ++ prioMark .none ++ s1 ++ ' ' :: s2 ++ ' ' :: w
          = 'x' :: ' ' :: (s1 ++ ' ' :: (s2 ++ ' ' :: w)) := by
        rw [show ("x ".data : List Char) = ['x', ' '] from rfl,
          show (prioMark .none : List Char) = [] from rfl]
        simp
      rw [hln]
      have htrim : trim ('x' :: ' ' :: (s1 ++ ' ' :: (s2 ++ ' ' :: w)))
          = 'x' :: ' ' :: (s1 ++ ' ' :: (s2 ++ ' ' :: w)) := by
        apply trim_eq_self
        · intro c0 hc0
          simp only [List.head?_cons, Option.some.injEq] at hc0
          rw [← hc0]; rfl
        · intro c0 hc0
          rw [show ('x' :: ' ' :: (s1 ++ ' ' :: (s2 ++ ' ' :: w)))
              = ('x' :: ' ' :: (s1 ++ ' ' :: (s2 ++ [' ']))) ++ w from by simp] at hc0
          exact getLast?_ws_of_append hw0 hww c0 hc0
      unfold parseLine
      rw [htrim]
      rw [if_neg (by simp)]
      simp only [show (("x ".data).isPrefixOf
          ('x' :: ' ' :: (s1 ++ ' ' :: (s2 ++ ' ' :: w)))) = true
          from by simp [List.isPrefixOf], if_true, List.drop_succ_cons, List.drop_zero]
      simp only [hts1a, hp1fa, hp2fa, hp3fa, Bool.false_eq_true, if_false]
      simp [hpd1, hpd2, hsw, hfold, joinSp, hw0]
    | low =>
      have hln : ("x ".data) ++ prioMark .low ++ s1 ++ ' ' :: s2 ++ ' ' :: w
          = 'x' :: ' ' :: '(' :: 'p' :: '3' :: ')' :: ' ' :: (s1 ++ ' ' :: (s2 ++ ' ' :: w)) := by
        rw [show ("x ".data : List Char) = ['x', ' '] from rfl,
          show (prioMark .low : List Char) = ['(', 'p', '3', ')', ' '] from rfl]
        simp
      rw [hln]
      have htrim : trim ('x' :: ' ' :: '(' :: 'p' :: '3' :: ')' :: ' ' :: (s1 ++ ' ' :: (s2 ++ ' ' :: w)))
          = 'x' :: ' ' :: '(' :: 'p' :: '3' :: ')' :: ' ' :: (s1 ++ ' ' :: (s2 ++ ' ' :: w)) := by
        apply trim_eq_self
        · intro c0 hc0
          simp only [List.head?_cons, Option.some.injEq] at hc0
          rw [← hc0]; rfl
        · intro c0 hc0
          rw [show ('x' :: ' ' :: '(' :: 'p' :: '3' :: ')' :: ' ' :: (s1 ++ ' ' :: (s2 ++ ' ' :: w)))
              = ('x' :: ' ' :: '(' :: 'p' :: '3' :: ')' :: ' ' :: (s1 ++ ' ' :: (s2 ++ [' ']))) ++ w
              from by simp] at hc0
          exact getLast?_ws_of_append hw0 hww c0 hc0
      unfold parseLine
      rw [htrim]
      rw [if_neg (by simp)]
      simp only [show (("x ".data).isPrefixOf
          ('x' :: ' ' :: '(' :: 'p' :: '3' :: ')' :: ' ' :: (s1 ++ ' ' :: (s2 ++ ' ' :: w)))) = true
          from by simp [List.isPrefixOf], if_true, List.drop_succ_cons, List.drop_zero]
      simp only [show trimStart ('(' :: 'p' :: '3' :: ')' :: ' ' :: (s1 ++ ' ' :: (s2 ++ ' ' :: w)))
          = '(' :: 'p' :: '3' :: ')' :: ' ' :: (s1 ++ ' ' :: (s2 ++ ' ' :: w)) from trimStart_cons rfl]
      simp only [show (("(p3)".data).isPrefixOf
          ('(' :: 'p' :: '3' :: ')' :: ' ' :: (s1 ++ ' ' :: (s2 ++ ' ' :: w)))) = true
          from by simp [List.isPrefixOf], if_true, List.drop_succ_cons, List.drop_zero,
        trimStart_cons_space, hts1a]
      simp [List.isPrefixOf, hpd1, hpd2, hsw, hfold, joinSp, hw0]
    | medium =>
      have hln : ("x ".data) ++ prioMark .medium ++ s1 ++ ' ' :: s2 ++ ' ' :: w
          = 'x' :: ' ' :: '(' :: 'p' :: '2' :: ')' :: ' ' :: (s1 ++ ' ' :: (s2 ++ ' ' :: w)) := by
        rw [show ("x ".data : List Char) = ['x', ' '] from rfl,
          show (prioMark .medium : List Char) = ['(', 'p', '2', ')', ' '] from rfl]
        simp
      rw [hln]
      have htrim : trim ('x' :: ' ' :: '(' :: 'p' :: '2' :: ')' :: ' ' :: (s1 ++ ' ' :: (s2 ++ ' ' :: w)))
          = 'x' :: ' ' :: '(' :: 'p' :: '2' :: ')' :: ' ' :: (s1 ++ ' ' :: (s2 ++ ' ' :: w)) := by
        apply trim_eq_self
        · intro c0 hc0
          simp only [List.head?_cons, Option.some.injEq] at hc0
          rw [← hc0]; rfl
        · intro c0 hc0
          rw [show ('x' :: ' ' :: '(' :: 'p' :: '2' :: ')' :: ' ' :: (s1 ++ ' ' :: (s2 ++ ' ' :: w)))
              = ('x' :: ' ' :: '(' :: 'p' :: '2' :: ')' :: ' ' :: (s1 ++ ' ' :: (s2 ++ [' ']))) ++ w
              from by simp] at hc0
          exact getLast?_ws_of_append hw0 hww c0 hc0
      unfold parseLine
      rw [htrim]
      rw [if_neg (by simp)]
      simp only [show (("x ".data).isPrefixOf
          ('x' :: ' ' :: '(' :: 'p' :: '2' :: ')' :: ' ' :: (s1 ++ ' ' :: (s2 ++ ' ' :: w)))) = true
          from by simp [List.isPrefixOf], if_true, List.drop_succ_cons, List.drop_zero]
      simp only [show trimStart ('(' :: 'p' :: '2' :: ')' :: ' ' :: (s1 ++ ' ' :: (s2 ++ ' ' :: w)))
          = '(' :: 'p' :: '2' :: ')' :: ' ' :: (s1 ++ ' ' :: (s2 ++ ' ' :: w)) from trimStart_cons rfl]
      simp only [show (("(p2)".data).isPrefixOf
          ('(' :: 'p' :: '2' :: ')' :: ' ' :: (s1 ++ ' ' :: (s2 ++ ' ' :: w)))) = true
          from by simp [List.isPrefixOf], if_true, List.drop_succ_cons, List.drop_zero,
        trimStart_cons_space, hts1a]
      simp [List.isPrefixOf, hpd1, hpd2, hsw, hfold, joinSp, hw0]
    | high =>
      have hln : ("x ".data) ++ prioMark .high ++ s1 ++ ' ' :: s2 ++ ' ' :: w
          = 'x' :: ' ' :: '(' :: 'p' :: '1' :: ')' :: ' ' :: (s1 ++ ' ' :: (s2 ++ ' ' :: w)) := by
        rw [show ("x ".data : List Char) = ['x', ' '] from rfl,
          show (prioMark .high : List Char) = ['(', 'p', '1', ')', ' '] from rfl]
        simp
      rw [hln]
      have htrim : trim ('x' :: ' ' :: '(' :: 'p' :: '1' :: ')' :: ' ' :: (s1 ++ ' ' :: (s2 ++ ' ' :: w)))
          = 'x' :: ' ' :: '(' :: 'p' :: '1' :: ')' :: ' ' :: (s1 ++ ' ' :: (s2 ++ ' ' :: w)) := by
        apply trim_eq_self
        · intro c0 hc0
          simp only [List.head?_cons, Option.some.injEq] at hc0
          rw [← hc0]; rfl
        · intro c0 hc0
          rw [show ('x' :: ' ' :: '(' :: 'p' :: '1' :: ')' :: ' ' :: (s1 ++ ' ' :: (s2 ++ ' ' :: w)))
              = ('x' :: ' ' :: '(' :: 'p' :: '1' :: ')' :: ' ' :: (s1 ++ ' ' :: (s2 ++ [' ']))) ++ w
              from by simp] at hc0
          exact getLast?_ws_of_append hw0 hww c0 hc0
      unfold parseLine
      rw [htrim]
      rw [if_neg (by simp)]
      simp only [show (("x ".data).isPrefixOf
          ('x' :: ' ' :: '(' :: 'p' :: '1' :: ')' :: ' ' :: (s1 ++ ' ' :: (s2 ++ ' ' :: w)))) = true
          from by simp [List.isPrefixOf], if_true, List.drop_succ_cons, List.drop_zero]
      simp only [show trimStart ('(' :: 'p' :: '1' :: ')' :: ' ' :: (s1 ++ ' ' :: (s2 ++ ' ' :: w)))
          = '(' :: 'p' :: '1' :: ')' :: ' ' :: (s1 ++ ' ' :: (s2 ++ ' ' :: w)) from trimStart_cons rfl]
      simp only [show (("(p1)".data).isPrefixOf
          ('(' :: 'p' :: '1' :: ')' :: ' ' :: (s1 ++ ' ' :: (s2 ++ ' ' :: w)))) = true
          from by simp [List.isPrefixOf], if_true, List.drop_succ_cons, List.drop_zero,
        trimStart_cons_space, hts1a]
      simp [List.isPrefixOf, hpd1, hpd2, hsw, hfold, joinSp, hw0]
  · cases p with
    | none =>
      have hln : prioMark .none ++ s1 ++ ' ' :: w = s1 ++ ' ' :: w := by
        rw [show (prioMark .none : List Char) = [] from rfl]
        simp
      rw [hln]
      have htrim : trim (s1 ++ ' ' :: w) = s1 ++ ' ' :: w := by
        apply trim_eq_self
        · intro c0 hc0
          rw [hcons1, List.cons_append, List.head?_cons, Option.some.injEq] at hc0
          rw [← hc0]; exact hc1ws
        · intro c0 hc0
          rw [show s1 ++ ' ' :: w = (s1 ++ [' ']) ++ w from by simp] at hc0
          exact getLast?_ws_of_append hw0 hww c0 hc0
      unfold parseLine
      rw [htrim]
      rw [if_neg (by
        rw [hcons1, List.cons_append]
        simp only [List.head?_cons, Option.some.injEq]
        push_neg
        exact ⟨by simp, (isDigit_ne hdig1 (by decide)).symm ∘ Eq.symm⟩)]
      simp only [hxpb, Bool.false_eq_true, if_false, hts1b, hp1fb, hp2fb, hp3fb]
      simp [hpd1w, hsw, hfold, joinSp, hw0]
    | low =>
      have hln : prioMark .low ++ s1 ++ ' ' :: w = '(' :: 'p' :: '3' :: ')' :: ' ' :: (s1 ++ ' ' :: w) := by
        rw [show (prioMark .low : List Char) = ['(', 'p', '3', ')', ' '] from rfl]
        simp
      rw [hln]
      have htrim : trim ('(' :: 'p' :: '3' :: ')' :: ' ' :: (s1 ++ ' ' :: w)) = '(' :: 'p' :: '3' :: ')' :: ' ' :: (s1 ++ ' ' :: w) := by
        apply trim_eq_self
        · intro c0 hc0
          simp only [List.head?_cons, Option.some.injEq] at hc0
          rw [← hc0]; rfl
        · intro c0 hc0
          rw [show ('(' :: 'p' :: '3' :: ')' :: ' ' :: (s1 ++ ' ' :: w)) = ('(' :: 'p' :: '3' :: ')' :: ' ' :: (s1 ++ [' '])) ++ w from by simp] at hc0
          exact getLast?_ws_of_append hw0 hww c0 hc0
      unfold parseLine
      rw [htrim]
      rw [if_neg (by simp)]
      simp only [show (("x ".data).isPrefixOf ('(' :: 'p' :: '3' :: ')' :: ' ' :: (s1 ++ ' ' :: w))) = false
          from by simp [List.isPrefixOf], Bool.false_eq_true, if_false]
      simp only [show trimStart ('(' :: 'p' :: '3' :: ')' :: ' ' :: (s1 ++ ' ' :: w)) = '(' :: 'p' :: '3' :: ')' :: ' ' :: (s1 ++ ' ' :: w)
          from trimStart_cons rfl]
      simp only [show (("(p3)".data).isPrefixOf ('(' :: 'p' :: '3' :: ')' :: ' ' :: (s1 ++ ' ' :: w))) = true
          from by simp [List.isPrefixOf], if_true, List.drop_succ_cons, List.drop_zero,
        trimStart_cons_space, hts1b]
      simp [List.isPrefixOf, hpd1w, hsw, hfold, joinSp, hw0]
    | medium =>
      have hln : prioMark .medium ++ s1 ++ ' ' :: w = '(' :: 'p' :: '2' :: ')' :: ' ' :: (s1 ++ ' ' :: w) := by
        rw [show (prioMark .medium : List Char) = ['(', 'p', '2', ')', ' '] from rfl]
        simp
      rw [hln]
      have htrim : trim ('(' :: 'p' :: '2' :: ')' :: ' ' :: (s1 ++ ' ' :: w)) = '(' :: 'p' :: '2' :: ')' :: ' ' :: (s1 ++ ' ' :: w) := by
        apply trim_eq_self
        · intro c0 hc0
          simp only [List.head?_cons, Option.some.injEq] at hc0
          rw [← hc0]; rfl
        · intro c0 hc0
          rw [show ('(' :: 'p' :: '2' :: ')' :: ' ' :: (s1 ++ ' ' :: w)) = ('(' :: 'p' :: '2' :: ')' :: ' ' :: (s1 ++ [' '])) ++ w from by simp] at hc0
          exact getLast?_ws_of_append hw0 hww c0 hc0
      unfold parseLine
      rw [htrim]
      rw [if_neg (by simp)]
      simp only [show (("x ".data).isPrefixOf ('(' :: 'p' :: '2' :: ')' :: ' ' :: (s1 ++ ' ' :: w))) = false
          from by simp [List.isPrefixOf], Bool.false_eq_true, if_false]
      simp only [show trimStart ('(' :: 'p' :: '2' :: ')' :: ' ' :: (s1 ++ ' ' :: w)) = '(' :: 'p' :: '2' :: ')' :: ' ' :: (s1 ++ ' ' :: w)
          from trimStart_cons rfl]
      simp only [show (("(p2)".data).isPrefixOf ('(' :: 'p' :: '2' :: ')' :: ' ' :: (s1 ++ ' ' :: w))) = true
          from by simp [List.isPrefixOf], if_true, List.drop_succ_cons, List.drop_zero,
        trimStart_cons_space, hts1b]
      simp [List.isPrefixOf, hpd1w, hsw, hfold, joinSp, hw0]
    | high =>
      have hln : prioMark .high ++ s1 ++ ' ' :: w = '(' :: 'p' :: '1' :: ')' :: ' ' :: (s1 ++ ' ' :: w) := by
        rw [show (prioMark .high : List Char) = ['(', 'p', '1', ')', ' '] from rfl]
        simp
      rw [hln]
      have htrim : trim ('(' :: 'p' :: '1' :: ')' :: ' ' :: (s1 ++ ' ' :: w)) = '(' :: 'p' :: '1' :: ')' :: ' ' :: (s1 ++ ' ' :: w) := by
        apply trim_eq_self
        · intro c0 hc0
          simp only [List.head?_cons, Option.some.injEq] at hc0
          rw [← hc0]; rfl
        · intro c0 hc0
          rw [show ('(' :: 'p' :: '1' :: ')' :: ' ' :: (s1 ++ ' ' :: w)) = ('(' :: 'p' :: '1' :: ')' :: ' ' :: (s1 ++ [' '])) ++ w from by simp] at hc0
          exact getLast?_ws_of_append hw0 hww c0 hc0
      unfold parseLine
      rw [htrim]
      rw [if_neg (by simp)]
      simp only [show (("x ".data).isPrefixOf ('(' :: 'p' :: '1' :: ')' :: ' ' :: (s1 ++ ' ' :: w))) = false
          from by simp [List.isPrefixOf], Bool.false_eq_true, if_false]
      simp only [show trimStart ('(' :: 'p' :: '1' :: ')' :: ' ' :: (s1 ++ ' ' :: w)) = '(' :: 'p' :: '1' :: ')' :: ' ' :: (s1 ++ ' ' :: w)
          from trimStart_cons rfl]
      simp only [show (("(p1)".data).isPrefixOf ('(' :: 'p' :: '1' :: ')' :: ' ' :: (s1 ++ ' ' :: w))) = true
          from by simp [List.isPrefixOf], if_true, List.drop_succ_cons, List.drop_zero,
        trimStart_cons_space, hts1b]
      simp [List.isPrefixOf, hpd1w, hsw, hfold, joinSp, hw0]

/-- C2 witness. -/
theorem flatfile_date_consumption_order_witness :
    dateParse ("2025-03-01".data) = some ⟨2025, 3, 1⟩ ∧
    parseLine 1 (("x ".data) ++ prioMark .high ++ ("2025-03-01".data) ++ ' ' ::
        ("2025-03-02".data) ++ ' ' :: ("Pay".data)) =
      some { id := ("local:".data) ++ natStr 1, title := "Pay".data, status := .Done,
             priority := .high, due := none, tags := [], sourceLine := some 1,
             createdAt := some ⟨2025, 3, 2⟩, completedAt := some ⟨2025, 3, 1⟩ } :=
  ⟨by decide,
   (flatfile_date_consumption_order 1 .high ("2025-03-01".data) ("2025-03-02".data)
      ("Pay".data) ⟨2025, 3, 1⟩ ⟨2025, 3, 2⟩ (by decide) (by decide) (by decide)
      (by decide) (by decide) (by decide)).1⟩

/-! ## Claim C9 -/

theorem findIdx?_append_none {α : Type} (p : α → Bool) {l₁ : List α} (l₂ : List α)
    (h : ∀ x ∈ l₁, p x = false) :
    ∀ i, List.findIdx? p (l₁ ++ l₂) i = List.findIdx? p l₂ (i + l₁.length) := by
  induction l₁ with
  | nil => intro i; simp
  | cons a l ih =>
    intro i
    rw [List.cons_append, List.findIdx?_cons, if_neg (by simp [h a (by simp)]),
      ih (fun x hx => h x (by simp [hx])) (i + 1)]
    congr 1
    simp only [List.length_cons]
    omega

/-- C9: identifier decoding for the markdown backend.  The conjunction
covers: the concrete example; the missing-prefix error; the no-colon
error; splitting at the *last* colon (so the path may contain colons) for
a numeric line part; and the parse error for a non-numeric line part. -/
theorem obsidian_task_id_decode :
    parseTaskId ("obsidian:Daily Notes/2025-02-25.md:3".data)
      = .ok ("Daily Notes/2025-02-25.md".data, 3)
    ∧ (∀ id : List Char, ("obsidian:".data).isPrefixOf id = false →
        parseTaskId id = .error (.parse (("Invalid Obsidian task ID: ".data) ++ id)))
    ∧ (∀ rest : List Char, ':' ∉ rest →
        parseTaskId (("obsidian:".data) ++ rest)
          = .error (.parse (("Invalid Obsidian task ID format: ".data) ++
              (("obsidian:".data) ++ rest))))
    ∧ (∀ pre num : List Char, ∀ n : Nat, ':' ∉ num → parseUsize num = some n →
        parseTaskId (("obsidian:".data) ++ pre ++ ':' :: num) = .ok (pre, n))
    ∧ (∀ pre num : List Char, ':' ∉ num → parseUsize num = none →
        parseTaskId (("obsidian:".data) ++ pre ++ ':' :: num)
          = .error (.parse (("Invalid line number in task ID: ".data) ++
              (("obsidian:".data) ++ pre ++ ':' :: num)))) := by
  have hdrop : ∀ X : List Char, (("obsidian:".data) ++ X).drop 9 = X := by
    intro X
    have h9 : (("obsidian:".data : List Char)).length = 9 := rfl
    rw [← h9]
    exact List.drop_left _ _
  have hfind : ∀ pre num : List Char, ':' ∉ num →
      List.findIdx? (fun c => c = ':') ((pre ++ ':' :: num).reverse) 0
        = some num.length := by
    intro pre num hn
    rw [List.reverse_append]
    have h1 : (':' :: num).reverse = num.reverse ++ [':'] := by simp
    rw [h1, List.append_assoc, List.cons_append, List.nil_append]
    rw [findIdx?_append_none _ _ (fun x hx => by
      simp only [decide_eq_false_iff_not]
      intro he
      exact hn (by rw [← he]; exact List.mem_reverse.mp hx)) 0]
    rw [List.findIdx?_cons, if_pos (by simp)]
    simp
  have hlc : ∀ pre num : List Char,
      (pre ++ ':' :: num).length - 1 - num.length = pre.length := by
    intro pre num
    simp only [List.length_append, List.length_cons]
    omega
  have htake : ∀ pre num : List Char, (pre ++ ':' :: num).take pre.length = pre :=
    fun pre num => List.take_left _ _
  have hdrop2 : ∀ pre num : List Char, (pre ++ ':' :: num).drop (pre.length + 1) = num := by
    intro pre num
    have h1 : (pre ++ ':' :: num).drop pre.length = ':' :: num := List.drop_left _ _
    have h2 : (pre ++ ':' :: num).drop (pre.length + 1)
        = ((pre ++ ':' :: num).drop pre.length).drop 1 := by
      rw [List.drop_drop, Nat.add_comm]
    rw [h2, h1]
    rfl
  refine ⟨by decide, ?_, ?_, ?_, ?_⟩
  · intro id hid
    unfold parseTaskId
    simp [hid]
  · intro rest hrest
    unfold parseTaskId
    rw [if_pos (by simp [isPrefixOf_append_self])]
    rw [hdrop rest]
    dsimp only
    rw [List.findIdx?_eq_none_iff.mpr (fun x hx => by
      simp only [decide_eq_false_iff_not]
      intro he
      exact hrest (by rw [← he]; exact List.mem_reverse.mp hx))]
  · intro pre num n hn hus
    unfold parseTaskId
    have hassoc : ("obsidian:".data) ++ pre ++ ':' :: num
        = ("obsidian:".data) ++ (pre ++ ':' :: num) := by rw [List.append_assoc]
    rw [hassoc, if_pos (by simp [isPrefixOf_append_self])]
    rw [hdrop (pre ++ ':' :: num)]
    dsimp only
    rw [hfind pre num hn]
    dsimp only
    rw [hlc pre num, hdrop2 pre num, hus, htake pre num]
  · intro pre num hn hus
    unfold parseTaskId
    have hassoc : ("obsidian:".data) ++ pre ++ ':' :: num
        = ("obsidian:".data) ++ (pre ++ ':' :: num) := by rw [List.append_assoc]
    rw [hassoc, if_pos (by simp [isPrefixOf_append_self])]
    rw [hdrop (pre ++ ':' :: num)]
    dsimp only
    rw [hfind pre num hn]
    dsimp only
    rw [hlc pre num, hdrop2 pre num, hus, ← hassoc]

/-- C9 witness. -/
theorem obsidian_task_id_decode_witness :
    (':' ∉ ("7".data : List Char)) ∧ parseUsize ("7".data) = some 7 ∧
    parseTaskId (("obsidian:".data) ++ ("a:b c.md".data) ++ ':' :: ("7".data))
      = .ok ("a:b c.md".data, 7) :=
  ⟨by decide, by decide,
   obsidian_task_id_decode.2.2.2.1 ("a:b c.md".data) ("7".data) 7 (by decide) (by decide)⟩

/-! ## Claim C6 -/

/-- Every task reported by the line loop lies strictly beyond the start
index. -/
theorem parseFileAux_fst_lt :
    ∀ (lines : List (List Char)) (idx : Nat) (flag : Bool)
      (p : Nat × ParsedTask), p ∈ parseFileAux lines idx flag → idx + 1 ≤ p.1 := by
  intro lines
  induction lines with
  | nil => intro idx flag p hp; simp [parseFileAux] at hp
  | cons l rest ih =>
    intro idx flag p hp
    unfold parseFileAux at hp
    by_cases hf : isFence l
    · rw [if_pos hf] at hp
      have := ih (idx + 1) (!flag) p hp
      omega
    · rw [if_neg hf] at hp
      by_cases hc : flag
      · rw [if_pos hc] at hp
        have := ih (idx + 1) flag p hp
        omega
      · rw [if_neg hc] at hp
        cases hcb : parseCheckboxLine l with
        | some t =>
          rw [hcb] at hp
          rcases List.mem_cons.mp hp with rfl | hp2
          · simp
          · have := ih (idx + 1) flag p hp2
            omega
        | none =>
          rw [hcb] at hp
          have := ih (idx + 1) flag p hp
          omega

/-- Lines at odd fence parity (counting the in-fence flag) are never
reported by the line loop. -/
theorem parseFileAux_skip_odd :
    ∀ (lines : List (List Char)) (idx : Nat) (flag : Bool) (i : Nat),
      i < lines.length → isFence (lines.getD i []) = false →
      ((lines.take i).countP isFence + (if flag then 1 else 0)) % 2 = 1 →
      ∀ t, (idx + i + 1, t) ∉ parseFileAux lines idx flag := by
  intro lines
  induction lines with
  | nil => intro idx flag i hi; simp at hi
  | cons l rest ih =>
    intro idx flag i hi hnf hpar t hmem
    unfold parseFileAux at hmem
    cases i with
    | zero =>
      have hflag : flag = true := by
        rcases Bool.eq_false_or_eq_true flag with hf | hf
        · exact hf
        · rw [hf] at hpar; simp at hpar
      have hnf0 : isFence l = false := by simpa using hnf
      rw [if_neg (by simp [hnf0]), hflag, if_pos rfl] at hmem
      have := parseFileAux_fst_lt rest (idx + 1) true _ hmem
      simp at this
    | succ k =>
      have hk : k < rest.length := by simpa using hi
      have hnfk : isFence (rest.getD k []) = false := by simpa using hnf
      have hcp : ((l :: rest).take (k + 1)).countP isFence
          = (if isFence l then 1 else 0) + (rest.take k).countP isFence := by
        rw [List.take_succ_cons, List.countP_cons]
        omega
      rw [hcp] at hpar
      by_cases hf : isFence l
      · rw [if_pos hf] at hmem
        have hpar2 : ((rest.take k).countP isFence + (if !flag then 1 else 0)) % 2 = 1 := by
          rcases Bool.eq_false_or_eq_true flag with hfl | hfl <;>
            (subst hfl; simp [hf] at hpar ⊢; omega)
        have := ih (idx + 1) (!flag) k hk hnfk hpar2 t
        exact this (by
          have harith : idx + 1 + k + 1 = idx + (k + 1) + 1 := by omega
          rw [harith]
          exact hmem)
      · rw [if_neg hf] at hmem
        have hpar2 : ((rest.take k).countP isFence + (if flag then 1 else 0)) % 2 = 1 := by
          simp [hf] at hpar
          omega
        by_cases hc : flag
        · rw [if_pos hc] at hmem
          have := ih (idx + 1) flag k hk hnfk hpar2 t
          exact this (by
            have harith : idx + 1 + k + 1 = idx + (k + 1) + 1 := by omega
            rw [harith]
            exact hmem)
        · rw [if_neg hc] at hmem
          cases hcb : parseCheckboxLine l with
          | some t2 =>
            rw [hcb] at hmem
            rcases List.mem_cons.mp hmem with heq | hmem2
            · have : idx + (k + 1) + 1 = idx + 1 := congrArg Prod.fst heq
              omega
            · have := ih (idx + 1) flag k hk hnfk hpar2 t
              exact this (by
                have harith : idx + 1 + k + 1 = idx + (k + 1) + 1 := by omega
                rw [harith]
                exact hmem2)
          | none =>
            rw [hcb] at hmem
            have := ih (idx + 1) flag k hk hnfk hpar2 t
            exact this (by
              have harith : idx + 1 + k + 1 = idx + (k + 1) + 1 := by omega
              rw [harith]
              exact hmem)

/-- C6: no line strictly inside a fenced code block (odd number of fence
lines before it, itself not a fence, a closing fence after it) ever
produces a task, whatever its content. -/
theorem fenced_lines_produce_no_task (content : List Char) (i : Nat)
    (hi : i < (linesOf content).length)
    (hopen : (((linesOf content).take i).countP isFence) % 2 = 1)
    (hnf : isFence ((linesOf content).getD i []) = false)
    (_hclose : ∃ j, i < j ∧ j < (linesOf content).length ∧
        isFence ((linesOf content).getD j []) = true) :
    ∀ t, (i + 1, t) ∉ parseFile content := by
  intro t hmem
  have h := parseFileAux_skip_odd (linesOf content) 0 false i hi hnf
    (by simpa using hopen) t
  exact h (by simpa using hmem)

/-- C6 witness. -/
theorem fenced_lines_produce_no_task_witness :
    (1 < (linesOf ("```lang\n- [ ] X\n```\n".data)).length) ∧
    ((2, (⟨"X".data, .Pending, .none, none, none, none, []⟩ : ParsedTask)) ∉
      parseFile ("```lang\n- [ ] X\n```\n".data)) :=
  ⟨by decide,
   fenced_lines_produce_no_task ("```lang\n- [ ] X\n```\n".data) 1 (by decide)
     (by decide) (by decide) ⟨2, by decide, by decide, by decide⟩
     ⟨"X".data, .Pending, .none, none, none, none, []⟩⟩

/-! ## Lemmas on `replacen`-style substring replacement -/

theorem isPrefixOf_nil_false {pat : List Char} (hp : pat ≠ []) :
    pat.isPrefixOf ([] : List Char) = false := by
  cases pat with
  | nil => exact absurd rfl hp
  | cons c cs => rfl

theorem isPrefixOf_cons_cons (a : Char) (as bs : List Char) :
    ((a :: as).isPrefixOf (a :: bs)) = as.isPrefixOf bs := by
  simp [List.isPrefixOf]

theorem isPrefixOf_append_ext {p a : List Char} (b : List Char)
    (h : p.isPrefixOf a = true) : p.isPrefixOf (a ++ b) = true := by
  induction p generalizing a with
  | nil => simp [List.isPrefixOf]
  | cons q qs ih =>
    cases a with
    | nil => simp [List.isPrefixOf] at h
    | cons c cs =>
      simp only [List.isPrefixOf, Bool.and_eq_true, beq_iff_eq] at h ⊢
      exact ⟨h.1, ih h.2⟩

theorem isPrefixOf_append_long {p a b : List Char} (hlen : p.length ≤ a.length)
    (h : p.isPrefixOf (a ++ b) = true) : p.isPrefixOf a = true := by
  induction p generalizing a with
  | nil => simp [List.isPrefixOf]
  | cons q qs ih =>
    cases a with
    | nil => simp at hlen
    | cons c cs =>
      rw [List.cons_append] at h
      simp only [List.isPrefixOf, Bool.and_eq_true, beq_iff_eq] at h ⊢
      exact ⟨h.1, ih (by simpa using hlen) h.2⟩

theorem isPrefixOf_append_span {p a b : List Char} (hlen : a.length < p.length)
    (h : p.isPrefixOf (a ++ b) = true) :
    (p.drop a.length).isPrefixOf b = true := by
  induction a generalizing p with
  | nil => simpa using h
  | cons c cs ih =>
    cases p with
    | nil => simp at hlen
    | cons q qs =>
      rw [List.cons_append] at h
      simp only [List.isPrefixOf, Bool.and_eq_true, beq_iff_eq] at h
      have hh := ih (by simpa using hlen) h.2
      simpa using hh

theorem eq_append_drop_of_isPrefixOf {p l : List Char}
    (h : p.isPrefixOf l = true) : l = p ++ l.drop p.length := by
  obtain ⟨t, ht⟩ := List.isPrefixOf_iff_prefix.mp h
  rw [← ht, List.drop_left]

theorem replaceOnce_of_not_hasOcc {pat rep l : List Char}
    (h : hasOcc pat l = false) : replaceOnce pat rep l = l := by
  induction l with
  | nil => rfl
  | cons c cs ih =>
    rw [hasOcc, Bool.or_eq_false_iff] at h
    rw [replaceOnce, if_neg (by simp [h.1]), ih h.2]

theorem hasOcc_of_isPrefixOf {pat l : List Char} (h : pat.isPrefixOf l = true) :
    hasOcc pat l = true := by
  cases l with
  | nil => rw [hasOcc]; exact h
  | cons c cs => rw [hasOcc, h, Bool.true_or]

theorem hasOcc_append_right {pat post : List Char} (a : List Char)
    (h : hasOcc pat post = true) : hasOcc pat (a ++ post) = true := by
  induction a with
  | nil => simpa
  | cons c cs ih => rw [List.cons_append, hasOcc, ih, Bool.or_true]

theorem hasOcc_append_left {pat a : List Char} (b : List Char)
    (h : hasOcc pat a = true) : hasOcc pat (a ++ b) = true := by
  induction a with
  | nil =>
    rw [hasOcc] at h
    exact hasOcc_of_isPrefixOf (isPrefixOf_append_ext b h)
  | cons c cs ih =>
    rw [hasOcc] at h
    rw [List.cons_append, hasOcc]
    rcases Bool.or_eq_true_iff.mp h with h1 | h2
    · have h1' := isPrefixOf_append_ext b h1
      rw [List.cons_append] at h1'
      rw [h1', Bool.true_or]
    · rw [ih h2, Bool.or_true]

theorem occCount_zero_iff {pat l : List Char} (hp : pat ≠ []) :
    occCount pat l = 0 ↔ hasOcc pat l = false := by
  induction l with
  | nil => simp [occCount, hasOcc, isPrefixOf_nil_false hp]
  | cons c cs ih =>
    rw [occCount, hasOcc]
    cases hpre : pat.isPrefixOf (c :: cs) with
    | true => simp
    | false => simpa using ih

theorem count_pos_of_hasOcc {pat l : List Char} (hp : pat ≠ [])
    (h : hasOcc pat l = true) : 1 ≤ occCount pat l := by
  by_contra hlt
  push_neg at hlt
  have h0 : occCount pat l = 0 := by omega
  rw [occCount_zero_iff hp] at h0
  simp [h0] at h

theorem occCount_append_ge (pat a b : List Char) :
    occCount pat b ≤ occCount pat (a ++ b) := by
  induction a with
  | nil => simp
  | cons c cs ih => rw [List.cons_append, occCount]; omega

theorem occCount_ge_two_left {pat pre post : List Char} (hp : pat ≠ [])
    (h : hasOcc pat pre = true) : 2 ≤ occCount pat (pre ++ (pat ++ post)) := by
  induction pre with
  | nil =>
    rw [hasOcc, isPrefixOf_nil_false hp] at h
    cases h
  | cons c cs ih =>
    rw [hasOcc] at h
    rw [List.cons_append, occCount]
    rcases Bool.or_eq_true_iff.mp h with h1 | h2
    · have h1' := isPrefixOf_append_ext (pat ++ post) h1
      rw [List.cons_append] at h1'
      rw [if_pos h1']
      have hx : 1 ≤ occCount pat (pat ++ post) :=
        count_pos_of_hasOcc hp (hasOcc_of_isPrefixOf (isPrefixOf_append_self pat post))
      have hy := occCount_append_ge pat cs (pat ++ post)
      omega
    · have := ih h2
      omega

theorem occCount_ge_two_right {pat pre post : List Char} (hp : pat ≠ [])
    (h : hasOcc pat post = true) : 2 ≤ occCount pat (pre ++ (pat ++ post)) := by
  have h1 : 1 ≤ occCount pat post := count_pos_of_hasOcc hp h
  have h2 : 2 ≤ occCount pat (pat ++ post) := by
    cases pat with
    | nil => exact absurd rfl hp
    | cons q qs =>
      rw [List.cons_append, occCount]
      have hpre : ((q :: qs).isPrefixOf (q :: (qs ++ post))) = true := by
        have := isPrefixOf_append_self (q :: qs) post
        rwa [List.cons_append] at this
      rw [if_pos hpre]
      have h3 := occCount_append_ge (q :: qs) qs post
      omega
  have h4 := occCount_append_ge pat pre (pat ++ post)
  omega

theorem replaceOnce_parts {pat l : List Char} (rep : List Char) (hp : pat ≠ [])
    (h : hasOcc pat l = true) :
    ∃ pre post, l = pre ++ (pat ++ post) ∧
      replaceOnce pat rep l = pre ++ (rep ++ post) := by
  induction l with
  | nil =>
    rw [hasOcc, isPrefixOf_nil_false hp] at h
    cases h
  | cons c cs ih =>
    rw [hasOcc] at h
    by_cases hpre : pat.isPrefixOf (c :: cs) = true
    · refine ⟨[], (c :: cs).drop pat.length, ?_, ?_⟩
      · rw [List.nil_append]
        exact eq_append_drop_of_isPrefixOf hpre
      · rw [replaceOnce, if_pos hpre, List.nil_append]
    · have h2 : hasOcc pat cs = true := by
        rcases Bool.or_eq_true_iff.mp h with h1 | h2
        · exact absurd h1 hpre
        · exact h2
      obtain ⟨pre, post, hl, hr⟩ := ih h2
      refine ⟨c :: pre, post, ?_, ?_⟩
      · rw [List.cons_append, ← hl]
      · rw [replaceOnce, if_neg hpre, List.cons_append, ← hr]

theorem replaceOnce_chars {pat rep l : List Char} {c : Char}
    (h : c ∈ replaceOnce pat rep l) : c ∈ l ∨ c ∈ rep := by
  induction l with
  | nil => rw [replaceOnce] at h; simp at h
  | cons a as ih =>
    rw [replaceOnce] at h
    by_cases hpre : pat.isPrefixOf (a :: as) = true
    · rw [if_pos hpre] at h
      rcases List.mem_append.mp h with h1 | h2
      · exact Or.inr h1
      · exact Or.inl (List.mem_of_mem_drop h2)
    · rw [if_neg hpre] at h
      rcases List.mem_cons.mp h with h1 | h2
      · exact Or.inl (h1 ▸ List.mem_cons_self a as)
      · rcases ih h2 with h3 | h4
        · exact Or.inl (List.mem_cons_of_mem a h3)
        · exact Or.inr h4

theorem replaceOnce_ne_nil {pat rep l : List Char} (hr : rep ≠ []) (hl : l ≠ []) :
    replaceOnce pat rep l ≠ [] := by
  cases l with
  | nil => exact absurd rfl hl
  | cons c cs =>
    rw [replaceOnce]
    by_cases hpre : pat.isPrefixOf (c :: cs) = true
    · rw [if_pos hpre]; simp [hr]
    · rw [if_neg hpre]; simp

theorem hasOcc_drop_false {pat l : List Char} (h : hasOcc pat l = false) :
    ∀ n, hasOcc pat (l.drop n) = false := by
  induction l with
  | nil => intro n; simpa using h
  | cons c cs ih =>
    intro n
    cases n with
    | zero => simpa using h
    | succ m =>
      rw [hasOcc, Bool.or_eq_false_iff] at h
      rw [List.drop_succ_cons]
      exact ih h.2 m

theorem hasOcc_dash_head_skip {pt s post : List Char}
    (hs : '-' ∉ s) (hpost : hasOcc ('-' :: pt) post = false) :
    hasOcc ('-' :: pt) (s ++ post) = false := by
  induction s with
  | nil => simpa
  | cons c cs ih =>
    have hc : c ≠ '-' := fun hh => hs (hh ▸ List.mem_cons_self c cs)
    have hih : hasOcc ('-' :: pt) (cs ++ post) = false :=
      ih (fun hm => hs (List.mem_cons_of_mem c hm))
    rw [List.cons_append, hasOcc, hih, isPrefixOf_cons_false (Ne.symm hc)]
    rfl

theorem hasOcc_around_mid {p2t midt pre post : List Char}
    (hp2t : '-' ∉ p2t) (hmidt : '-' ∉ midt)
    (hpm : (('-' :: p2t).isPrefixOf (('-' :: midt) ++ post)) = false)
    (hpre : hasOcc ('-' :: p2t) pre = false)
    (hpost : hasOcc ('-' :: p2t) post = false) :
    hasOcc ('-' :: p2t) (pre ++ (('-' :: midt) ++ post)) = false := by
  induction pre with
  | nil =>
    rw [List.cons_append] at hpm
    rw [List.nil_append, List.cons_append, hasOcc, hpm,
      hasOcc_dash_head_skip hmidt hpost]
    rfl
  | cons c pre' ih =>
    rw [hasOcc, Bool.or_eq_false_iff] at hpre
    obtain ⟨hpre0, hpre'⟩ := hpre
    have hnp : (('-' :: p2t).isPrefixOf
        (c :: (pre' ++ (('-' :: midt) ++ post)))) = false := by
      by_contra hcon
      rw [Bool.not_eq_false] at hcon
      rcases Nat.lt_or_ge (c :: pre').length ('-' :: p2t).length with hlt | hge
      · have hsp := isPrefixOf_append_span hlt (by rw [List.cons_append]; exact hcon)
        simp only [List.length_cons, List.drop_succ_cons, List.cons_append] at hsp
        cases hq : p2t.drop pre'.length with
        | nil =>
          have hlen := congrArg List.length hq
          simp only [List.length_drop, List.length_nil] at hlen
          simp only [List.length_cons] at hlt
          omega
        | cons d ds =>
          rw [hq] at hsp
          simp only [List.isPrefixOf, Bool.and_eq_true, beq_iff_eq] at hsp
          have hd : d ∈ p2t.drop pre'.length := by
            rw [hq]; exact List.mem_cons_self d ds
          exact hp2t (hsp.1 ▸ List.mem_of_mem_drop hd)
      · have hlp := isPrefixOf_append_long hge (by rw [List.cons_append]; exact hcon)
        have hco : hasOcc ('-' :: p2t) (c :: pre') = false := by
          rw [hasOcc, hpre0, hpre']; rfl
        rw [hasOcc_of_isPrefixOf hlp] at hco
        cases hco
    rw [List.cons_append, hasOcc, hnp, ih hpre']
    rfl

theorem replaceOnce_drop_prefix {pat rep : List Char}
    (hkr : ∀ k X, 1 ≤ k → k < pat.length →
      ((pat.drop k).isPrefixOf (rep ++ X)) = false) :
    ∀ l k, occCount pat l ≤ 1 → 1 ≤ k → k < pat.length →
      (pat.drop k).isPrefixOf (replaceOnce pat rep l) = true →
      (pat.drop k).isPrefixOf l = true := by
  intro l
  induction l with
  | nil =>
    intro k h1 hk1 hk2 hpre
    rw [replaceOnce] at hpre
    cases hq : pat.drop k with
    | nil =>
      have hlen := congrArg List.length hq
      simp only [List.length_drop, List.length_nil] at hlen
      omega
    | cons d ds =>
      rw [hq] at hpre
      simp [List.isPrefixOf] at hpre
  | cons c cs ih =>
    intro k h1 hk1 hk2 hpre
    rw [replaceOnce] at hpre
    by_cases hp0 : pat.isPrefixOf (c :: cs) = true
    · rw [if_pos hp0] at hpre
      rw [hkr k _ hk1 hk2] at hpre
      cases hpre
    · rw [if_neg hp0] at hpre
      have hdk : pat.drop k = pat.get ⟨k, hk2⟩ :: pat.drop (k + 1) :=
        List.drop_eq_getElem_cons hk2
      rw [hdk] at hpre ⊢
      simp only [List.isPrefixOf, Bool.and_eq_true, beq_iff_eq] at hpre ⊢
      refine ⟨hpre.1, ?_⟩
      rcases Nat.lt_or_ge (k + 1) pat.length with hlt | hge
      · have h1' : occCount pat cs ≤ 1 := by rw [occCount] at h1; omega
        exact ih (k + 1) h1' (Nat.succ_le_succ (Nat.zero_le k)) hlt hpre.2
      · rw [List.drop_eq_nil_of_le hge]
        simp [List.isPrefixOf]

theorem replaceOnce_no_reocc {pt rt : List Char}
    (hpt : '-' ∉ pt) (hrt : '-' ∉ rt)
    (hpr : ∀ X, (('-' :: pt).isPrefixOf (('-' :: rt) ++ X)) = false)
    (hkr : ∀ k X, 1 ≤ k → k < ('-' :: pt).length →
      ((('-' :: pt).drop k).isPrefixOf (('-' :: rt) ++ X)) = false) :
    ∀ l, occCount ('-' :: pt) l ≤ 1 →
      hasOcc ('-' :: pt) (replaceOnce ('-' :: pt) ('-' :: rt) l) = false := by
  intro l
  induction l with
  | nil => intro _; rfl
  | cons c cs ih =>
    intro h1
    rw [replaceOnce]
    by_cases hp0 : ('-' :: pt).isPrefixOf (c :: cs) = true
    · rw [if_pos hp0]
      have hc0 : occCount ('-' :: pt) cs = 0 := by
        rw [occCount, if_pos hp0] at h1; omega
      have hcs : hasOcc ('-' :: pt) cs = false :=
        (occCount_zero_iff (by simp)).mp hc0
      have hdrop : (c :: cs).drop ('-' :: pt).length = cs.drop pt.length := by
        simp
      rw [hdrop]
      have hsub : hasOcc ('-' :: pt) (cs.drop pt.length) = false :=
        hasOcc_drop_false hcs pt.length
      have hmain := hasOcc_around_mid hpt hrt (hpr (cs.drop pt.length))
        (show hasOcc ('-' :: pt) [] = false from rfl) hsub
      simpa using hmain
    · rw [if_neg hp0]
      have h1' : occCount ('-' :: pt) cs ≤ 1 := by rw [occCount] at h1; omega
      have hrec := ih h1'
      have hnp : (('-' :: pt).isPrefixOf
          (c :: replaceOnce ('-' :: pt) ('-' :: rt) cs)) = false := by
        by_contra hcon
        rw [Bool.not_eq_false] at hcon
        simp only [List.isPrefixOf, Bool.and_eq_true, beq_iff_eq] at hcon
        obtain ⟨hc, hptR⟩ := hcon
        cases hpt0 : pt with
        | nil =>
          subst hpt0
          subst hc
          exact hp0 (by simp [List.isPrefixOf])
        | cons p0 ps =>
          have hlt : 1 < ('-' :: pt).length := by
            rw [hpt0]; simp
          have hthis := replaceOnce_drop_prefix hkr cs 1 h1' le_rfl hlt
            (show (('-' :: pt).drop 1).isPrefixOf
              (replaceOnce ('-' :: pt) ('-' :: rt) cs) = true from hptR)
          rw [show ('-' :: pt).drop 1 = pt from rfl] at hthis
          refine hp0 ?_
          simp only [List.isPrefixOf, Bool.and_eq_true, beq_iff_eq]
          exact ⟨hc, hthis⟩
      rw [hasOcc, hnp, hrec]
      rfl

theorem completeLineT_no_reocc {l : List Char} (h : occCount cbPending l ≤ 1) :
    hasOcc cbPending (completeLineT l) = false := by
  have hpr : ∀ X, ((('-' :: (" [ ]".data)).isPrefixOf
      (('-' :: (" [x]".data)) ++ X))) = false := by
    intro X
    show ((cbPending).isPrefixOf ('-' :: ' ' :: '[' :: 'x' :: ']' :: X)) = false
    simp [List.isPrefixOf]
  have hkr : ∀ k X, 1 ≤ k → k < ('-' :: (" [ ]".data)).length →
      ((('-' :: (" [ ]".data)).drop k).isPrefixOf
        (('-' :: (" [x]".data)) ++ X)) = false := by
    intro k X hk1 hk2
    have hk5 : k < 5 := by simpa using hk2
    interval_cases k
    · show ((' ' :: '[' :: ' ' :: ']' :: []).isPrefixOf
        ('-' :: ' ' :: '[' :: 'x' :: ']' :: X)) = false
      simp [List.isPrefixOf]
    · show (('[' :: ' ' :: ']' :: []).isPrefixOf
        ('-' :: ' ' :: '[' :: 'x' :: ']' :: X)) = false
      simp [List.isPrefixOf]
    · show ((' ' :: ']' :: []).isPrefixOf
        ('-' :: ' ' :: '[' :: 'x' :: ']' :: X)) = false
      simp [List.isPrefixOf]
    · show ((']' :: []).isPrefixOf
        ('-' :: ' ' :: '[' :: 'x' :: ']' :: X)) = false
      simp [List.isPrefixOf]
  exact replaceOnce_no_reocc (by decide) (by decide) hpr hkr l h

theorem uncompleteLineT_fst_no_reocc {l : List Char} (h : occCount cbDone l ≤ 1) :
    hasOcc cbDone (replaceOnce cbDone cbPending l) = false := by
  have hpr : ∀ X, ((('-' :: (" [x]".data)).isPrefixOf
      (('-' :: (" [ ]".data)) ++ X))) = false := by
    intro X
    show ((cbDone).isPrefixOf ('-' :: ' ' :: '[' :: ' ' :: ']' :: X)) = false
    simp [List.isPrefixOf]
  have hkr : ∀ k X, 1 ≤ k → k < ('-' :: (" [x]".data)).length →
      ((('-' :: (" [x]".data)).drop k).isPrefixOf
        (('-' :: (" [ ]".data)) ++ X)) = false := by
    intro k X hk1 hk2
    have hk5 : k < 5 := by simpa using hk2
    interval_cases k
    · show ((' ' :: '[' :: 'x' :: ']' :: []).isPrefixOf
        ('-' :: ' ' :: '[' :: ' ' :: ']' :: X)) = false
      simp [List.isPrefixOf]
    · show (('[' :: 'x' :: ']' :: []).isPrefixOf
        ('-' :: ' ' :: '[' :: ' ' :: ']' :: X)) = false
      simp [List.isPrefixOf]
    · show (('x' :: ']' :: []).isPrefixOf
        ('-' :: ' ' :: '[' :: ' ' :: ']' :: X)) = false
      simp [List.isPrefixOf]
    · show ((']' :: []).isPrefixOf
        ('-' :: ' ' :: '[' :: ' ' :: ']' :: X)) = false
      simp [List.isPrefixOf]
  exact replaceOnce_no_reocc (by decide) (by decide) hpr hkr l h

theorem cbDoneCap_not_around_pending {pre post : List Char}
    (hpre : hasOcc cbDoneCap pre = false) (hpost : hasOcc cbDoneCap post = false) :
    hasOcc cbDoneCap (pre ++ (cbPending ++ post)) = false := by
  have hpm : ((('-' :: (" [X]".data)).isPrefixOf
      (('-' :: (" [ ]".data)) ++ post))) = false := by
    show ((cbDoneCap).isPrefixOf ('-' :: ' ' :: '[' :: ' ' :: ']' :: post)) = false
    simp [List.isPrefixOf]
  exact hasOcc_around_mid (by decide) (by decide) hpm hpre hpost

/-! ## Lemmas on line splitting and joining -/

theorem splitNl_cons_ne {c : Char} (cs : List Char) (hc : c ≠ '\n') :
    splitNl (c :: cs) = match splitNl cs with
      | [] => [[c]]
      | w :: ws => (c :: w) :: ws := by
  simp [splitNl, hc]

theorem splitNl_ne_nil (s : List Char) : splitNl s ≠ [] := by
  induction s with
  | nil => simp [splitNl]
  | cons c cs ih =>
    by_cases hc : c = '\n'
    · subst hc; simp [splitNl]
    · rw [splitNl_cons_ne cs hc]
      cases splitNl cs with
      | nil => simp
      | cons w ws => simp

theorem splitNl_append_newline {l : List Char} (rest : List Char)
    (h : '\n' ∉ l) : splitNl (l ++ '\n' :: rest) = l :: splitNl rest := by
  induction l with
  | nil => rfl
  | cons c cs ih =>
    have hc : c ≠ '\n' := fun hh => h (hh ▸ List.mem_cons_self c cs)
    have hcs : '\n' ∉ cs := fun hm => h (List.mem_cons_of_mem c hm)
    rw [List.cons_append, splitNl_cons_ne _ hc, ih hcs]

theorem splitNl_no_newline {l : List Char} (h : '\n' ∉ l) : splitNl l = [l] := by
  induction l with
  | nil => rfl
  | cons c cs ih =>
    have hc : c ≠ '\n' := fun hh => h (hh ▸ List.mem_cons_self c cs)
    have hcs : '\n' ∉ cs := fun hm => h (List.mem_cons_of_mem c hm)
    rw [splitNl_cons_ne _ hc, ih hcs]

theorem joinNl_cons_of_ne {l : List Char} {ls : List (List Char)} (h : ls ≠ []) :
    joinNl (l :: ls) = l ++ '\n' :: joinNl ls := by
  cases ls with
  | nil => exact absurd rfl h
  | cons w ws => rfl

theorem splitNl_joinNl {ls : List (List Char)} (h0 : ls ≠ [])
    (h : ∀ l ∈ ls, '\n' ∉ l) : splitNl (joinNl ls) = ls := by
  induction ls with
  | nil => exact absurd rfl h0
  | cons l ls' ih =>
    cases ls' with
    | nil => exact splitNl_no_newline (h l (List.mem_cons_self l []))
    | cons w ws =>
      rw [joinNl_cons_of_ne (by simp),
        splitNl_append_newline _ (h l (List.mem_cons_self _ _)),
        ih (by simp) (fun x hx => h x (List.mem_cons_of_mem l hx))]

theorem splitNl_joinNl_newline {ls : List (List Char)} (h0 : ls ≠ [])
    (h : ∀ l ∈ ls, '\n' ∉ l) :
    splitNl (joinNl ls ++ '\n' :: []) = ls ++ [[]] := by
  induction ls with
  | nil => exact absurd rfl h0
  | cons l ls' ih =>
    cases ls' with
    | nil =>
      show splitNl (l ++ '\n' :: []) = [l, []]
      rw [splitNl_append_newline _ (h l (List.mem_cons_self _ _))]
      rfl
    | cons w ws =>
      rw [joinNl_cons_of_ne (by simp), List.append_assoc, List.cons_append,
        splitNl_append_newline _ (h l (List.mem_cons_self _ _)),
        ih (by simp) (fun x hx => h x (List.mem_cons_of_mem l hx))]
      rfl

theorem joinNl_getLast {ls : List (List Char)} {ll : List Char}
    (h : ls.getLast? = some ll) (hll : ll ≠ []) :
    (joinNl ls).getLast? = ll.getLast? := by
  induction ls with
  | nil => simp at h
  | cons l ls' ih =>
    cases ls' with
    | nil =>
      simp at h
      subst h
      rfl
    | cons w ws =>
      have h' : (w :: ws).getLast? = some ll := by
        rwa [List.getLast?_cons_cons] at h
      have hJ := ih h'
      show (l ++ '\n' :: joinNl (w :: ws)).getLast? = ll.getLast?
      rw [List.getLast?_append]
      have hJne : joinNl (w :: ws) ≠ [] := by
        intro hnil
        rw [hnil] at hJ
        cases hgl : ll.getLast? with
        | none => exact hll (List.getLast?_eq_none_iff.mp hgl)
        | some g => rw [hgl] at hJ; simp at hJ
      rw [getLast?_cons_of_ne hJne, hJ]
      cases hgl : ll.getLast? with
      | none => exact absurd (List.getLast?_eq_none_iff.mp hgl) hll
      | some g => rfl

theorem splitNl_chars {s : List Char} :
    ∀ l ∈ splitNl s, ∀ c ∈ l, c ∈ s := by
  induction s with
  | nil =>
    intro l hl c hc
    simp [splitNl] at hl
    subst hl
    simp at hc
  | cons a as ih =>
    intro l hl c hc
    by_cases ha : a = '\n'
    · subst ha
      rw [show splitNl ('\n' :: as) = [] :: splitNl as from rfl] at hl
      rcases List.mem_cons.mp hl with h1 | h2
      · subst h1; simp at hc
      · exact List.mem_cons_of_mem _ (ih l h2 c hc)
    · cases hs : splitNl as with
      | nil => exact absurd hs (splitNl_ne_nil as)
      | cons w ws =>
        simp only [splitNl_cons_ne as ha, hs] at hl
        rcases List.mem_cons.mp hl with h1 | h2
        · subst h1
          rcases List.mem_cons.mp hc with h3 | h4
          · subst h3; exact List.mem_cons_self c as
          · have hw : w ∈ splitNl as := by rw [hs]; exact List.mem_cons_self w ws
            exact List.mem_cons_of_mem a (ih w hw c h4)
        · have hw : l ∈ splitNl as := by rw [hs]; exact List.mem_cons_of_mem w h2
          exact List.mem_cons_of_mem a (ih l hw c hc)

theorem splitNl_no_nl {s : List Char} : ∀ l ∈ splitNl s, '\n' ∉ l := by
  induction s with
  | nil =>
    intro l hl
    simp [splitNl] at hl
    subst hl
    simp
  | cons a as ih =>
    intro l hl
    by_cases ha : a = '\n'
    · subst ha
      rw [show splitNl ('\n' :: as) = [] :: splitNl as from rfl] at hl
      rcases List.mem_cons.mp hl with h1 | h2
      · subst h1; simp
      · exact ih l h2
    · cases hs : splitNl as with
      | nil => exact absurd hs (splitNl_ne_nil as)
      | cons w ws =>
        simp only [splitNl_cons_ne as ha, hs] at hl
        rcases List.mem_cons.mp hl with h1 | h2
        · subst h1
          intro hmem
          rcases List.mem_cons.mp hmem with h3 | h4
          · exact ha h3.symm
          · have hw : w ∈ splitNl as := by rw [hs]; exact List.mem_cons_self w ws
            exact ih w hw h4
        · have hw : l ∈ splitNl as := by rw [hs]; exact List.mem_cons_of_mem w h2
          exact ih l hw

theorem stripCr_sub {l : List Char} {c : Char} (h : c ∈ stripCr l) : c ∈ l := by
  unfold stripCr at h
  split at h
  · exact List.dropLast_subset l h
  · exact h

theorem stripCr_eq_self {l : List Char} (h : l.getLast? ≠ some '\r') :
    stripCr l = l := by
  unfold stripCr
  rw [if_neg h]

theorem linesOf_from_splitNl {content l : List Char} (hl : l ∈ linesOf content) :
    ∃ l0 ∈ splitNl content, l = stripCr l0 := by
  unfold linesOf at hl
  by_cases h0 : content = []
  · rw [if_pos h0] at hl
    simp at hl
  · rw [if_neg h0] at hl
    dsimp only at hl
    rcases List.mem_map.mp hl with ⟨l0, hl0, hstrip⟩
    refine ⟨l0, ?_, hstrip.symm⟩
    by_cases hfl : content.getLast? = some '\n'
    · rw [if_pos hfl] at hl0
      exact List.dropLast_subset _ hl0
    · rw [if_neg hfl] at hl0
      exact hl0

theorem linesOf_chars {content l : List Char} {c : Char}
    (hl : l ∈ linesOf content) (hc : c ∈ l) : c ∈ content := by
  obtain ⟨l0, hl0, heq⟩ := linesOf_from_splitNl hl
  exact splitNl_chars l0 hl0 c (stripCr_sub (heq ▸ hc))

theorem linesOf_no_nl {content : List Char} :
    ∀ l ∈ linesOf content, '\n' ∉ l := by
  intro l hl hmem
  obtain ⟨l0, hl0, heq⟩ := linesOf_from_splitNl hl
  exact splitNl_no_nl l0 hl0 (stripCr_sub (heq ▸ hmem))

theorem linesOf_joinNl_newline {ls : List (List Char)} (h0 : ls ≠ [])
    (hnl : ∀ l ∈ ls, '\n' ∉ l) (hcr : ∀ l ∈ ls, l.getLast? ≠ some '\r') :
    linesOf (joinNl ls ++ ['\n']) = ls := by
  have hne : joinNl ls ++ ['\n'] ≠ [] := by simp
  unfold linesOf
  rw [if_neg hne]
  dsimp only
  have hlast : (joinNl ls ++ ['\n']).getLast? = some '\n' := by
    simp [List.getLast?_concat]
  rw [if_pos hlast,
    show (joinNl ls ++ ['\n']) = joinNl ls ++ '\n' :: [] from rfl,
    splitNl_joinNl_newline h0 hnl, List.dropLast_concat,
    show ls.map stripCr = ls.map id from
      List.map_congr_left (fun l hl => by rw [stripCr_eq_self (hcr l hl)]; rfl),
    List.map_id]

theorem linesOf_joinNl {ls : List (List Char)} (h0 : ls ≠ [])
    (hnl : ∀ l ∈ ls, '\n' ∉ l) (hcr : ∀ l ∈ ls, l.getLast? ≠ some '\r')
    {ll : List Char} (hlast : ls.getLast? = some ll) (hll : ll ≠ []) :
    linesOf (joinNl ls) = ls := by
  have hJlast : (joinNl ls).getLast? = ll.getLast? := joinNl_getLast hlast hll
  have hJne : joinNl ls ≠ [] := by
    intro hnil
    rw [hnil] at hJlast
    cases hgl : ll.getLast? with
    | none => exact hll (List.getLast?_eq_none_iff.mp hgl)
    | some g => rw [hgl] at hJlast; simp at hJlast
  have hJnl : (joinNl ls).getLast? ≠ some '\n' := by
    rw [hJlast]
    intro hcontra
    exact hnl ll (List.mem_of_mem_getLast? hlast)
      (List.mem_of_mem_getLast? hcontra)
  unfold linesOf
  rw [if_neg hJne]
  dsimp only
  rw [if_neg hJnl, splitNl_joinNl h0 hnl,
    show ls.map stripCr = ls.map id from
      List.map_congr_left (fun l hl => by rw [stripCr_eq_self (hcr l hl)]; rfl),
    List.map_id]

theorem splitNl_last_ne_nil {s : List Char} (h0 : s ≠ [])
    (hlast : s.getLast? ≠ some '\n') :
    ∃ p, (splitNl s).getLast? = some p ∧ p ≠ [] := by
  induction s with
  | nil => exact absurd rfl h0
  | cons c cs ih =>
    cases cs with
    | nil =>
      have hc : c ≠ '\n' := by
        intro hh; exact hlast (by rw [hh]; rfl)
      refine ⟨[c], ?_, by simp⟩
      rw [splitNl_cons_ne [] hc]
      rfl
    | cons d ds =>
      have hlast' : (d :: ds).getLast? ≠ some '\n' := by
        rwa [getLast?_cons_of_ne (by simp)] at hlast
      obtain ⟨p, hp, hpne⟩ := ih (by simp) hlast'
      by_cases hc : c = '\n'
      · subst hc
        refine ⟨p, ?_, hpne⟩
        rw [show splitNl ('\n' :: d :: ds) = [] :: splitNl (d :: ds) from rfl,
          getLast?_cons_of_ne (splitNl_ne_nil _)]
        exact hp
      · cases hs : splitNl (d :: ds) with
        | nil => exact absurd hs (splitNl_ne_nil _)
        | cons w ws =>
          have hred : splitNl (c :: d :: ds) = (c :: w) :: ws := by
            rw [splitNl_cons_ne _ hc, hs]
          cases ws with
          | nil =>
            refine ⟨c :: w, ?_, by simp⟩
            rw [hred]
            rfl
          | cons w2 ws2 =>
            refine ⟨p, ?_, hpne⟩
            rw [hred, getLast?_cons_of_ne (by simp)]
            rw [hs] at hp
            rwa [getLast?_cons_of_ne (by simp)] at hp

theorem modifyLine_frame {content : List Char} (n : Nat) (f : List Char → List Char)
    (hcr : ∀ c ∈ content, c ≠ '\r')
    (h1 : 1 ≤ n) (h2 : n ≤ (linesOf content).length)
    (hf_nl : '\n' ∉ f ((linesOf content).getD (n - 1) []))
    (hf_cr : (f ((linesOf content).getD (n - 1) [])).getLast? ≠ some '\r')
    (hf_ne : (linesOf content).getD (n - 1) [] ≠ [] →
      f ((linesOf content).getD (n - 1) []) ≠ []) :
    ∃ c', modifyLine content n f = .ok c' ∧
      linesOf c' =
        (linesOf content).set (n - 1) (f ((linesOf content).getD (n - 1) [])) ∧
      (c'.getLast? = some '\n' ↔ content.getLast? = some '\n') ∧
      c' = (if content.getLast? = some '\n'
        then joinNl ((linesOf content).set (n - 1)
          (f ((linesOf content).getD (n - 1) []))) ++ ['\n']
        else joinNl ((linesOf content).set (n - 1)
          (f ((linesOf content).getD (n - 1) [])))) := by
  have hlen : n - 1 < (linesOf content).length := by omega
  have hne0 : content ≠ [] := by
    intro hc0
    rw [hc0] at h2
    simp [linesOf] at h2
    omega
  have hmem' : ∀ l ∈ (linesOf content).set (n - 1)
      (f ((linesOf content).getD (n - 1) [])), '\n' ∉ l := by
    intro l hl
    rcases List.mem_or_eq_of_mem_set hl with hin | heq
    · exact linesOf_no_nl l hin
    · rw [heq]; exact hf_nl
  have hcr' : ∀ l ∈ (linesOf content).set (n - 1)
      (f ((linesOf content).getD (n - 1) [])), l.getLast? ≠ some '\r' := by
    intro l hl hcontra
    rcases List.mem_or_eq_of_mem_set hl with hin | heq
    · exact hcr '\r' (linesOf_chars hin (List.mem_of_mem_getLast? hcontra)) rfl
    · rw [heq] at hcontra; exact hf_cr hcontra
  have hL'len : ((linesOf content).set (n - 1)
      (f ((linesOf content).getD (n - 1) []))).length = (linesOf content).length :=
    List.length_set _ _ _
  have hL'ne : (linesOf content).set (n - 1)
      (f ((linesOf content).getD (n - 1) [])) ≠ [] := by
    apply List.ne_nil_of_length_pos
    rw [hL'len]; omega
  unfold modifyLine
  dsimp only
  rw [if_neg (by omega : ¬ n = 0),
    if_neg (by omega : ¬ (linesOf content).length ≤ n - 1)]
  by_cases hflag : content.getLast? = some '\n'
  · rw [if_pos hflag]
    refine ⟨_, rfl, ?_, ?_, ?_⟩
    · exact linesOf_joinNl_newline hL'ne hmem' hcr'
    · constructor
      · intro _; exact hflag
      · intro _; simp
    · rfl
  · obtain ⟨p, hp, hpne⟩ := splitNl_last_ne_nil hne0 hflag
    have hLeq : linesOf content = (splitNl content).map stripCr := by
      unfold linesOf
      rw [if_neg hne0]
      dsimp only
      rw [if_neg hflag]
    have hpmem : p ∈ splitNl content := List.mem_of_mem_getLast? hp
    have hpcr : stripCr p = p := by
      apply stripCr_eq_self
      intro hcontra
      exact hcr '\r'
        (splitNl_chars p hpmem '\r' (List.mem_of_mem_getLast? hcontra)) rfl
    have hLlast : (linesOf content).getLast? = some p := by
      rw [hLeq, List.getLast?_map, hp]
      simp [hpcr]
    rw [if_neg hflag]
    by_cases hidx : n - 1 = (linesOf content).length - 1
    · have hlnp : (linesOf content).getD (n - 1) [] = p := by
        have h5 : (linesOf content)[n - 1]? = some p := by
          rw [show (n - 1) = (linesOf content).length - 1 from hidx,
            ← List.getLast?_eq_getElem?]
          exact hLlast
        rw [List.getElem?_eq_getElem hlen, Option.some.injEq] at h5
        rw [List.getD_eq_getElem _ _ hlen, h5]
      have hfln_ne : f ((linesOf content).getD (n - 1) []) ≠ [] :=
        hf_ne (by rw [hlnp]; exact hpne)
      have hL'last : ((linesOf content).set (n - 1)
          (f ((linesOf content).getD (n - 1) []))).getLast?
          = some (f ((linesOf content).getD (n - 1) [])) := by
        rw [List.getLast?_eq_getElem?, hL'len, ← hidx, List.getElem?_set_self hlen]
      refine ⟨_, rfl, ?_, ?_, ?_⟩
      · exact linesOf_joinNl hL'ne hmem' hcr' hL'last hfln_ne
      · have hcne : (joinNl ((linesOf content).set (n - 1)
            (f ((linesOf content).getD (n - 1) [])))).getLast? ≠ some '\n' := by
          rw [joinNl_getLast hL'last hfln_ne]
          intro hcontra
          exact hf_nl (List.mem_of_mem_getLast? hcontra)
        constructor
        · intro h; exact absurd h hcne
        · intro h; exact absurd h hflag
      · rfl
    · have hL'last : ((linesOf content).set (n - 1)
          (f ((linesOf content).getD (n - 1) []))).getLast? = some p := by
        rw [List.getLast?_eq_getElem?, hL'len, List.getElem?_set_ne hidx,
          ← List.getLast?_eq_getElem?]
        exact hLlast
      refine ⟨_, rfl, ?_, ?_, ?_⟩
      · exact linesOf_joinNl hL'ne hmem' hcr' hL'last hpne
      · have hcne : (joinNl ((linesOf content).set (n - 1)
            (f ((linesOf content).getD (n - 1) [])))).getLast? ≠ some '\n' := by
          rw [joinNl_getLast hL'last hpne]
          intro hcontra
          exact splitNl_no_nl p hpmem (List.mem_of_mem_getLast? hcontra)
        constructor
        · intro h; exact absurd h hcne
        · intro h; exact absurd h hflag
      · rfl

theorem completeLineT_chars {l : List Char} {c : Char}
    (h : c ∈ completeLineT l) : c ∈ l ∨ c ∈ cbDone :=
  replaceOnce_chars h

theorem uncompleteLineT_chars {l : List Char} {c : Char}
    (h : c ∈ uncompleteLineT l) : c ∈ l ∨ c ∈ cbPending := by
  unfold uncompleteLineT at h
  rcases replaceOnce_chars h with h1 | h2
  · rcases replaceOnce_chars h1 with h3 | h4
    · exact Or.inl h3
    · exact Or.inr h4
  · exact Or.inr h2

theorem completeLineT_cases (ln : List Char) :
    (hasOcc cbPending ln = true →
      ∃ pre post, ln = pre ++ (cbPending ++ post) ∧
        completeLineT ln = pre ++ (cbDone ++ post)) ∧
    (hasOcc cbPending ln = false → completeLineT ln = ln) := by
  constructor
  · intro hp
    exact replaceOnce_parts cbDone (by decide) hp
  · intro hp
    exact replaceOnce_of_not_hasOcc hp

theorem uncompleteLineT_cases (ln : List Char)
    (hocc : occCount cbDone ln + occCount cbDoneCap ln ≤ 1) :
    (hasOcc cbDone ln = true →
      ∃ pre post, ln = pre ++ (cbDone ++ post) ∧
        uncompleteLineT ln = pre ++ (cbPending ++ post)) ∧
    (hasOcc cbDone ln = false → hasOcc cbDoneCap ln = true →
      ∃ pre post, ln = pre ++ (cbDoneCap ++ post) ∧
        uncompleteLineT ln = pre ++ (cbPending ++ post)) ∧
    (hasOcc cbDone ln = false → hasOcc cbDoneCap ln = false →
      uncompleteLineT ln = ln) := by
  refine ⟨?_, ?_, ?_⟩
  · intro hd
    have hcnt : 1 ≤ occCount cbDone ln := count_pos_of_hasOcc (by decide) hd
    have hcap0 : occCount cbDoneCap ln = 0 := by omega
    have hcapF : hasOcc cbDoneCap ln = false :=
      (occCount_zero_iff (by decide)).mp hcap0
    obtain ⟨pre, post, hln, hrep⟩ := replaceOnce_parts cbPending (by decide) hd
    refine ⟨pre, post, hln, ?_⟩
    show replaceOnce cbDoneCap cbPending (replaceOnce cbDone cbPending ln)
      = pre ++ (cbPending ++ post)
    rw [hrep]
    apply replaceOnce_of_not_hasOcc
    apply cbDoneCap_not_around_pending
    · by_contra hcon
      rw [Bool.not_eq_false] at hcon
      have h5 := hasOcc_append_left (cbDone ++ post) hcon
      rw [← hln] at h5
      rw [h5] at hcapF
      cases hcapF
    · by_contra hcon
      rw [Bool.not_eq_false] at hcon
      have h5 := hasOcc_append_right cbDone hcon
      have h6 := hasOcc_append_right pre h5
      rw [← hln] at h6
      rw [h6] at hcapF
      cases hcapF
  · intro hdF hcap
    have hfst : replaceOnce cbDone cbPending ln = ln :=
      replaceOnce_of_not_hasOcc hdF
    obtain ⟨pre, post, hln, hrep⟩ := replaceOnce_parts cbPending (by decide) hcap
    refine ⟨pre, post, hln, ?_⟩
    show replaceOnce cbDoneCap cbPending (replaceOnce cbDone cbPending ln)
      = pre ++ (cbPending ++ post)
    rw [hfst, hrep]
  · intro hdF hcapF
    show replaceOnce cbDoneCap cbPending (replaceOnce cbDone cbPending ln) = ln
    rw [replaceOnce_of_not_hasOcc hdF, replaceOnce_of_not_hasOcc hcapF]

/-- C8, amended: on LF-only content, for a `complete` or `uncomplete` whose
identifier decodes to an in-range line carrying at most one checkbox glyph
occurrence in total, only the checkbox glyph substring on the targeted line
changes (`- [ ]` to `- [x]` for complete, `- [x]` or `- [X]` to `- [ ]` for
uncomplete, identity when the glyph is absent); every other character of
that line, every other line of the file, and the presence or absence of a
trailing newline are preserved. -/
theorem obsidian_glyph_frame (content id path : List Char) (n : Nat)
    (hid : parseTaskId id = .ok (path, n))
    (hcr : ∀ c ∈ content, c ≠ '\r')
    (h1 : 1 ≤ n) (h2 : n ≤ (linesOf content).length)
    (hocc : occCount cbPending ((linesOf content).getD (n - 1) []) +
        occCount cbDone ((linesOf content).getD (n - 1) []) +
        occCount cbDoneCap ((linesOf content).getD (n - 1) []) ≤ 1) :
    (∃ c₁, obsCompleteTask content id = .ok c₁ ∧
      linesOf c₁ = (linesOf content).set (n - 1)
        (completeLineT ((linesOf content).getD (n - 1) [])) ∧
      (c₁.getLast? = some '\n' ↔ content.getLast? = some '\n')) ∧
    (∃ c₂, obsUncompleteTask content id = .ok c₂ ∧
      linesOf c₂ = (linesOf content).set (n - 1)
        (uncompleteLineT ((linesOf content).getD (n - 1) [])) ∧
      (c₂.getLast? = some '\n' ↔ content.getLast? = some '\n')) ∧
    (hasOcc cbPending ((linesOf content).getD (n - 1) []) = true →
      ∃ pre post, (linesOf content).getD (n - 1) [] = pre ++ (cbPending ++ post) ∧
        completeLineT ((linesOf content).getD (n - 1) [])
          = pre ++ (cbDone ++ post)) ∧
    (hasOcc cbPending ((linesOf content).getD (n - 1) []) = false →
      completeLineT ((linesOf content).getD (n - 1) [])
        = (linesOf content).getD (n - 1) []) ∧
    (hasOcc cbDone ((linesOf content).getD (n - 1) []) = true →
      ∃ pre post, (linesOf content).getD (n - 1) [] = pre ++ (cbDone ++ post) ∧
        uncompleteLineT ((linesOf content).getD (n - 1) [])
          = pre ++ (cbPending ++ post)) ∧
    (hasOcc cbDone ((linesOf content).getD (n - 1) []) = false →
      hasOcc cbDoneCap ((linesOf content).getD (n - 1) []) = true →
      ∃ pre post, (linesOf content).getD (n - 1) [] = pre ++ (cbDoneCap ++ post) ∧
        uncompleteLineT ((linesOf content).getD (n - 1) [])
          = pre ++ (cbPending ++ post)) ∧
    (hasOcc cbDone ((linesOf content).getD (n - 1) []) = false →
      hasOcc cbDoneCap ((linesOf content).getD (n - 1) []) = false →
      uncompleteLineT ((linesOf content).getD (n - 1) [])
        = (linesOf content).getD (n - 1) []) := by
  have hlen : n - 1 < (linesOf content).length := by omega
  have hln_mem : (linesOf content).getD (n - 1) [] ∈ linesOf content := by
    rw [List.getD_eq_getElem _ _ hlen]
    exact List.getElem_mem hlen
  have hln_nl : '\n' ∉ (linesOf content).getD (n - 1) [] :=
    linesOf_no_nl _ hln_mem
  have hln_cr : ∀ c ∈ (linesOf content).getD (n - 1) [], c ≠ '\r' :=
    fun c hc => hcr c (linesOf_chars hln_mem hc)
  have hcc := completeLineT_cases ((linesOf content).getD (n - 1) [])
  have huc := uncompleteLineT_cases ((linesOf content).getD (n - 1) []) (by omega)
  refine ⟨?_, ?_, hcc.1, hcc.2, huc.1, huc.2.1, huc.2.2⟩
  · have hnl1 : '\n' ∉ completeLineT ((linesOf content).getD (n - 1) []) := by
      intro hmem
      rcases completeLineT_chars hmem with h | h
      · exact hln_nl h
      · exact (by decide : '\n' ∉ cbDone) h
    have hcr1 : (completeLineT ((linesOf content).getD (n - 1) [])).getLast?
        ≠ some '\r' := by
      intro hcontra
      rcases completeLineT_chars (List.mem_of_mem_getLast? hcontra) with h | h
      · exact hln_cr '\r' h rfl
      · exact (by decide : '\r' ∉ cbDone) h
    have hne1 : (linesOf content).getD (n - 1) [] ≠ [] →
        completeLineT ((linesOf content).getD (n - 1) []) ≠ [] :=
      fun h => replaceOnce_ne_nil (by decide) h
    obtain ⟨c₁, hc1, hfr, htr, _⟩ :=
      modifyLine_frame n completeLineT hcr h1 h2 hnl1 hcr1 hne1
    refine ⟨c₁, ?_, hfr, htr⟩
    unfold obsCompleteTask
    rw [hid]
    exact hc1
  · have hnl2 : '\n' ∉ uncompleteLineT ((linesOf content).getD (n - 1) []) := by
      intro hmem
      rcases uncompleteLineT_chars hmem with h | h
      · exact hln_nl h
      · exact (by decide : '\n' ∉ cbPending) h
    have hcr2 : (uncompleteLineT ((linesOf content).getD (n - 1) [])).getLast?
        ≠ some '\r' := by
      intro hcontra
      rcases uncompleteLineT_chars (List.mem_of_mem_getLast? hcontra) with h | h
      · exact hln_cr '\r' h rfl
      · exact (by decide : '\r' ∉ cbPending) h
    have hne2 : (linesOf content).getD (n - 1) [] ≠ [] →
        uncompleteLineT ((linesOf content).getD (n - 1) []) ≠ [] :=
      fun h => replaceOnce_ne_nil (by decide) (replaceOnce_ne_nil (by decide) h)
    obtain ⟨c₂, hc2, hfr, htr, _⟩ :=
      modifyLine_frame n uncompleteLineT hcr h1 h2 hnl2 hcr2 hne2
    refine ⟨c₂, ?_, hfr, htr⟩
    unfold obsUncompleteTask
    rw [hid]
    exact hc2

/-- C8, witness: the amended frame theorem applied to the one-line file
`"- [ ] a\n"` and the identifier `obsidian:f:1`. -/
theorem obsidian_glyph_frame_witness :
    (∃ c₁, obsCompleteTask ("- [ ] a\n".data) ("obsidian:f:1".data) = .ok c₁ ∧
      linesOf c₁ = (linesOf ("- [ ] a\n".data)).set 0
        (completeLineT ((linesOf ("- [ ] a\n".data)).getD 0 [])) ∧
      (c₁.getLast? = some '\n' ↔ ("- [ ] a\n".data).getLast? = some '\n')) ∧
    (∃ c₂, obsUncompleteTask ("- [ ] a\n".data) ("obsidian:f:1".data) = .ok c₂ ∧
      linesOf c₂ = (linesOf ("- [ ] a\n".data)).set 0
        (uncompleteLineT ((linesOf ("- [ ] a\n".data)).getD 0 [])) ∧
      (c₂.getLast? = some '\n' ↔ ("- [ ] a\n".data).getLast? = some '\n')) := by
  have h := obsidian_glyph_frame ("- [ ] a\n".data) ("obsidian:f:1".data)
    ("f".data) 1 (by decide) (by decide) (by decide) (by decide) (by decide)
  exact ⟨h.1, h.2.1⟩

theorem joinNl_chars {ls : List (List Char)} {c : Char} (h : c ∈ joinNl ls) :
    (∃ l ∈ ls, c ∈ l) ∨ c = '\n' := by
  induction ls with
  | nil => simp [joinNl] at h
  | cons l ls' ih =>
    cases ls' with
    | nil => exact Or.inl ⟨l, List.mem_cons_self l [], h⟩
    | cons w ws =>
      rw [joinNl_cons_of_ne (by simp)] at h
      rcases List.mem_append.mp h with h1 | h2
      · exact Or.inl ⟨l, List.mem_cons_self _ _, h1⟩
      · rcases List.mem_cons.mp h2 with h3 | h4
        · exact Or.inr h3
        · rcases ih h4 with ⟨l2, hl2, hc2⟩ | h5
          · exact Or.inl ⟨l2, List.mem_cons_of_mem _ hl2, hc2⟩
          · exact Or.inr h5

theorem joinSp_x_date (d : Date) (ps : List (List Char)) (hps : ps ≠ []) :
    joinSp (("x".data) :: dateToString d :: ps)
      = ("x ".data) ++ (dateToString d ++ ' ' :: joinSp ps) := by
  rw [joinSp_cons_of_ne (by simp), joinSp_cons_of_ne hps]
  rfl

theorem localFormatTask_done_shape (today : Date) (t : Task)
    (hdone : t.status = TaskStatus.Done) :
    ∃ rest, localFormatTask today t
        = ("x ".data) ++ (dateToString (t.completedAt.getD today) ++ ' ' :: rest) ∧
      (("x ".data).isPrefixOf
        (dateToString (t.completedAt.getD today) ++ ' ' :: rest)) = false := by
  have hC : (match t.completedAt with
      | some c => dateToString c
      | none => dateToString today) = dateToString (t.completedAt.getD today) := by
    cases t.completedAt <;> rfl
  have hps : ((match t.priority with
      | Priority.high => [("(p1)".data)]
      | Priority.medium => [("(p2)".data)]
      | Priority.low => [("(p3)".data)]
      | Priority.none => ([] : List (List Char)))
      ++ (match t.createdAt with
          | some c => [dateToString c]
          | none => [])
      ++ [t.title]
      ++ t.tags.map (fun tg => '#' :: tg)
      ++ (match t.due with
          | some dd => [("due:".data) ++ dateToString dd]
          | none => [])) ≠ [] :=
    @List.ne_nil_of_mem _ t.title _ (by simp)
  unfold localFormatTask
  dsimp only
  rw [if_pos hdone, hC]
  simp only [List.cons_append, List.nil_append]
  refine ⟨joinSp ((match t.priority with
      | Priority.high => [("(p1)".data)]
      | Priority.medium => [("(p2)".data)]
      | Priority.low => [("(p3)".data)]
      | Priority.none => ([] : List (List Char)))
      ++ (match t.createdAt with
          | some c => [dateToString c]
          | none => [])
      ++ [t.title]
      ++ t.tags.map (fun tg => '#' :: tg)
      ++ (match t.due with
          | some dd => [("due:".data) ++ dateToString dd]
          | none => [])), ?_, ?_⟩
  · exact joinSp_x_date (t.completedAt.getD today) _ hps
  · obtain ⟨c0, cs0, hds, hdig⟩ := dateToString_head (t.completedAt.getD today)
    rw [hds, List.cons_append]
    exact isPrefixOf_cons_false (Ne.symm (isDigit_ne hdig (by decide)))

/-- C7, amended: on the markdown backend, for LF-only content whose targeted
line contains at most one pending checkbox glyph occurrence, a second
`complete` with the same identifier succeeds and returns the file content of
the first application unchanged; on the flat-file backend the line written
for a completed task always consists of a single `"x "` status prefix
followed immediately by the completion date (today's date when the task
carries none) and never starts with a second `"x "` — repeated completes
never stack status prefixes, although the remainder of a flat-file line is
re-canonicalised (see the counterexample). -/
theorem complete_idempotent (content id path : List Char) (n : Nat)
    (hid : parseTaskId id = .ok (path, n))
    (hcr : ∀ c ∈ content, c ≠ '\r')
    (h1 : 1 ≤ n) (h2 : n ≤ (linesOf content).length)
    (hocc : occCount cbPending ((linesOf content).getD (n - 1) []) ≤ 1) :
    (∃ c₁, obsCompleteTask content id = .ok c₁ ∧
      obsCompleteTask c₁ id = .ok c₁) ∧
    (∀ today t, t.status = TaskStatus.Done →
      ∃ rest, localFormatTask today t
          = ("x ".data) ++ (dateToString (t.completedAt.getD today) ++ ' ' :: rest) ∧
        (("x ".data).isPrefixOf
          (dateToString (t.completedAt.getD today) ++ ' ' :: rest)) = false) := by
  have hlen : n - 1 < (linesOf content).length := by omega
  have hln_mem : (linesOf content).getD (n - 1) [] ∈ linesOf content := by
    rw [List.getD_eq_getElem _ _ hlen]
    exact List.getElem_mem hlen
  have hln_nl : '\n' ∉ (linesOf content).getD (n - 1) [] :=
    linesOf_no_nl _ hln_mem
  have hln_cr : ∀ c ∈ (linesOf content).getD (n - 1) [], c ≠ '\r' :=
    fun c hc => hcr c (linesOf_chars hln_mem hc)
  have hnl1 : '\n' ∉ completeLineT ((linesOf content).getD (n - 1) []) := by
    intro hmem
    rcases completeLineT_chars hmem with h | h
    · exact hln_nl h
    · exact (by decide : '\n' ∉ cbDone) h
  have hcr1 : (completeLineT ((linesOf content).getD (n - 1) [])).getLast?
      ≠ some '\r' := by
    intro hcontra
    rcases completeLineT_chars (List.mem_of_mem_getLast? hcontra) with h | h
    · exact hln_cr '\r' h rfl
    · exact (by decide : '\r' ∉ cbDone) h
  have hne1 : (linesOf content).getD (n - 1) [] ≠ [] →
      completeLineT ((linesOf content).getD (n - 1) []) ≠ [] :=
    fun h => replaceOnce_ne_nil (by decide) h
  obtain ⟨c₁, hc1, hfr, htr, hform⟩ :=
    modifyLine_frame n completeLineT hcr h1 h2 hnl1 hcr1 hne1
  have hcr_c1 : ∀ c ∈ c₁, c ≠ '\r' := by
    intro c hc hceq
    subst hceq
    rw [hform] at hc
    have hc' : '\r' ∈ joinNl ((linesOf content).set (n - 1)
        (completeLineT ((linesOf content).getD (n - 1) []))) := by
      by_cases hflag : content.getLast? = some '\n'
      · rw [if_pos hflag] at hc
        rcases List.mem_append.mp hc with h | h
        · exact h
        · simp at h
      · rw [if_neg hflag] at hc
        exact hc
    rcases joinNl_chars hc' with ⟨l, hl, hcl⟩ | hnl
    · rcases List.mem_or_eq_of_mem_set hl with hin | heq
      · exact hcr '\r' (linesOf_chars hin hcl) rfl
      · rw [heq] at hcl
        rcases completeLineT_chars hcl with h | h
        · exact hln_cr '\r' h rfl
        · exact (by decide : '\r' ∉ cbDone) h
    · exact (by decide : ('\r' : Char) ≠ '\n') hnl
  have h2' : n ≤ (linesOf c₁).length := by rw [hfr, List.length_set]; exact h2
  have hlen' : n - 1 < (linesOf c₁).length := by
    rw [hfr, List.length_set]; exact hlen
  have hln2 : (linesOf c₁).getD (n - 1) []
      = completeLineT ((linesOf content).getD (n - 1) []) := by
    have h5 : (linesOf c₁)[n - 1]?
        = some (completeLineT ((linesOf content).getD (n - 1) [])) := by
      rw [hfr]
      exact List.getElem?_set_self hlen
    rw [List.getElem?_eq_getElem hlen', Option.some.injEq] at h5
    rw [List.getD_eq_getElem _ _ hlen', h5]
  have hnoocc : hasOcc cbPending ((linesOf c₁).getD (n - 1) []) = false := by
    rw [hln2]
    exact completeLineT_no_reocc hocc
  have hid2 : completeLineT ((linesOf c₁).getD (n - 1) [])
      = (linesOf c₁).getD (n - 1) [] :=
    replaceOnce_of_not_hasOcc hnoocc
  have hnl2 : '\n' ∉ completeLineT ((linesOf c₁).getD (n - 1) []) := by
    rw [hid2, hln2]; exact hnl1
  have hcr2 : (completeLineT ((linesOf c₁).getD (n - 1) [])).getLast?
      ≠ some '\r' := by
    rw [hid2, hln2]; exact hcr1
  have hne2 : (linesOf c₁).getD (n - 1) [] ≠ [] →
      completeLineT ((linesOf c₁).getD (n - 1) []) ≠ [] :=
    fun h => replaceOnce_ne_nil (by decide) h
  obtain ⟨c₂, hc2, hfr2, htr2, hform2⟩ :=
    modifyLine_frame n completeLineT hcr_c1 h1 h2' hnl2 hcr2 hne2
  have hsetset : (linesOf c₁).set (n - 1)
      (completeLineT ((linesOf c₁).getD (n - 1) [])) = linesOf c₁ := by
    rw [hid2, hln2, hfr, List.set_set]
  have hctwo : c₂ = c₁ := by
    rw [hform2, hsetset, hfr]
    by_cases hflag : content.getLast? = some '\n'
    · rw [if_pos (htr.mpr hflag), hform, if_pos hflag]
    · rw [if_neg (fun hcon => hflag (htr.mp hcon)), hform, if_neg hflag]
  constructor
  · refine ⟨c₁, ?_, ?_⟩
    · unfold obsCompleteTask
      rw [hid]
      exact hc1
    · unfold obsCompleteTask
      rw [hid]
      rw [hctwo] at hc2
      exact hc2
  · intro today t hdone
    exact localFormatTask_done_shape today t hdone

/-- C7, witness: the amended idempotence theorem applied to the one-line
file `"- [ ] a\n"` with identifier `obsidian:f:1`, and to a completed task
carrying completion date 2025-01-01 formatted on 2025-01-02. -/
theorem complete_idempotent_witness :
    (∃ c₁, obsCompleteTask ("- [ ] a\n".data) ("obsidian:f:1".data) = .ok c₁ ∧
      obsCompleteTask c₁ ("obsidian:f:1".data) = .ok c₁) ∧
    (∃ rest, localFormatTask ⟨2025, 1, 2⟩
        ⟨[], ("T".data), TaskStatus.Done, Priority.none, none, [], none, none,
          some ⟨2025, 1, 1⟩⟩
        = ("x ".data) ++ (dateToString ((some (⟨2025, 1, 1⟩ : Date)).getD
            ⟨2025, 1, 2⟩) ++ ' ' :: rest) ∧
      (("x ".data).isPrefixOf (dateToString ((some (⟨2025, 1, 1⟩ : Date)).getD
          ⟨2025, 1, 2⟩) ++ ' ' :: rest)) = false) := by
  have h := complete_idempotent ("- [ ] a\n".data) ("obsidian:f:1".data)
    ("f".data) 1 (by decide) (by decide) (by decide) (by decide) (by decide)
  exact ⟨h.1, h.2 ⟨2025, 1, 2⟩ _ rfl⟩

/-! ## Lemmas on the `all_tasks` comparator -/

theorem ordering_then_swap (o1 o2 : Ordering) :
    (o1.then o2).swap = o1.swap.then o2.swap := by
  cases o1 <;> cases o2 <;> rfl

theorem ordering_then_eq (o1 o2 : Ordering) :
    o1.then o2 = .eq ↔ o1 = .eq ∧ o2 = .eq := by
  cases o1 <;> simp [Ordering.then]

theorem ordering_then_lt (o1 o2 : Ordering) :
    o1.then o2 = .lt ↔ o1 = .lt ∨ (o1 = .eq ∧ o2 = .lt) := by
  cases o1 <;> simp [Ordering.then]

theorem ordering_then_ne_gt (o1 o2 : Ordering) :
    o1.then o2 ≠ .gt ↔ o1 = .lt ∨ (o1 = .eq ∧ o2 ≠ .gt) := by
  cases o1 <;> simp [Ordering.then]

theorem ordering_ne_gt_iff (o : Ordering) : o ≠ .gt ↔ o = .lt ∨ o = .eq := by
  cases o <;> simp

theorem ordering_swap_inj (o1 o2 : Ordering) (h : o1.swap = o2.swap) : o1 = o2 := by
  cases o1 <;> cases o2 <;> first | rfl | (simp [Ordering.swap] at h)

theorem natCmp_lt_iff (a b : Nat) : natCmp a b = .lt ↔ a < b := by
  unfold natCmp
  by_cases h1 : a < b
  · simp [h1]
  · by_cases h2 : b < a <;> simp [h1, h2]

theorem natCmp_gt_iff (a b : Nat) : natCmp a b = .gt ↔ b < a := by
  unfold natCmp
  by_cases h1 : a < b
  · simp [h1]; omega
  · by_cases h2 : b < a <;> simp [h1, h2]

theorem natCmp_eq_iff (a b : Nat) : natCmp a b = .eq ↔ a = b := by
  unfold natCmp
  by_cases h1 : a < b
  · simp [h1]; omega
  · by_cases h2 : b < a <;> simp [h1, h2] <;> omega

theorem natCmp_swap (a b : Nat) : natCmp b a = (natCmp a b).swap := by
  rcases Nat.lt_trichotomy a b with h | h | h
  · rw [(natCmp_lt_iff a b).mpr h, (natCmp_gt_iff b a).mpr h]; rfl
  · subst h
    rw [(natCmp_eq_iff a a).mpr rfl]; rfl
  · rw [(natCmp_gt_iff a b).mpr h, (natCmp_lt_iff b a).mpr h]; rfl

theorem listCmp_swap (a b : List Char) : listCmp b a = (listCmp a b).swap := by
  induction a generalizing b with
  | nil => cases b <;> rfl
  | cons x xs ih =>
    cases b with
    | nil => rfl
    | cons y ys =>
      show (charCmp y x).then (listCmp ys xs) = ((charCmp x y).then (listCmp xs ys)).swap
      rw [ordering_then_swap, show charCmp y x = (charCmp x y).swap from natCmp_swap _ _,
        ih ys]

theorem listCmp_congr (a b : List Char) (h : listCmp a b = .eq) :
    ∀ c, listCmp a c = listCmp b c := by
  induction a generalizing b with
  | nil =>
    cases b with
    | nil => intro c; rfl
    | cons y ys => simp [listCmp] at h
  | cons x xs ih =>
    cases b with
    | nil => simp [listCmp] at h
    | cons y ys =>
      rw [show listCmp (x :: xs) (y :: ys)
          = (charCmp x y).then (listCmp xs ys) from rfl, ordering_then_eq] at h
      have hxy : x.toNat = y.toNat := (natCmp_eq_iff _ _).mp h.1
      intro c
      cases c with
      | nil => rfl
      | cons z zs =>
        show (charCmp x z).then (listCmp xs zs) = (charCmp y z).then (listCmp ys zs)
        rw [show charCmp x z = natCmp x.toNat z.toNat from rfl, hxy,
          ih ys h.2 zs]
        rfl

theorem listCmp_lt_le (a b c : List Char) (hab : listCmp a b = .lt)
    (hbc : listCmp b c ≠ .gt) : listCmp a c = .lt := by
  induction a generalizing b c with
  | nil =>
    cases b with
    | nil => simp [listCmp] at hab
    | cons y ys =>
      cases c with
      | nil => simp [listCmp] at hbc
      | cons z zs => rfl
  | cons x xs ih =>
    cases b with
    | nil => simp [listCmp] at hab
    | cons y ys =>
      cases c with
      | nil => simp [listCmp] at hbc
      | cons z zs =>
        rw [show listCmp (x :: xs) (y :: ys)
          = (charCmp x y).then (listCmp xs ys) from rfl, ordering_then_lt] at hab
        rw [show listCmp (y :: ys) (z :: zs)
          = (charCmp y z).then (listCmp ys zs) from rfl, ordering_then_ne_gt] at hbc
        rw [show listCmp (x :: xs) (z :: zs)
          = (charCmp x z).then (listCmp xs zs) from rfl, ordering_then_lt]
        have hxy := natCmp_lt_iff x.toNat y.toNat
        have hyz := natCmp_lt_iff y.toNat z.toNat
        have hxz := natCmp_lt_iff x.toNat z.toNat
        have hxye := natCmp_eq_iff x.toNat y.toNat
        have hyze := natCmp_eq_iff y.toNat z.toNat
        have hxze := natCmp_eq_iff x.toNat z.toNat
        rcases hab with hab | ⟨hab1, hab2⟩
        · rcases hbc with hbc | ⟨hbc1, hbc2⟩
          · left
            exact hxz.mpr (by
              have h1 := hxy.mp hab
              have h2 := hyz.mp hbc
              omega)
          · left
            exact hxz.mpr (by
              have h1 := hxy.mp hab
              have h2 := hyze.mp hbc1
              omega)
        · rcases hbc with hbc | ⟨hbc1, hbc2⟩
          · left
            exact hxz.mpr (by
              have h1 := hxye.mp hab1
              have h2 := hyz.mp hbc
              omega)
          · right
            refine ⟨hxze.mpr (by
              have h1 := hxye.mp hab1
              have h2 := hyze.mp hbc1
              omega), ?_⟩
            exact ih ys zs hab2 hbc2

theorem dateCmp_swap (a b : Date) : dateCmp b a = (dateCmp a b).swap := by
  unfold dateCmp
  rw [natCmp_swap a.y b.y, natCmp_swap a.m b.m, natCmp_swap a.d b.d,
    ← ordering_then_swap, ← ordering_then_swap]

theorem dateCmp_eq_fields {a b : Date} (h : dateCmp a b = .eq) : a = b := by
  unfold dateCmp at h
  rw [ordering_then_eq] at h
  obtain ⟨h1, h2⟩ := h
  rw [ordering_then_eq] at h2
  obtain ⟨h2, h3⟩ := h2
  have e1 := (natCmp_eq_iff _ _).mp h1
  have e2 := (natCmp_eq_iff _ _).mp h2
  have e3 := (natCmp_eq_iff _ _).mp h3
  cases a
  cases b
  simp_all

theorem dateCmp_lt_iff (a b : Date) : dateCmp a b = .lt ↔
    a.y < b.y ∨ (a.y = b.y ∧ (a.m < b.m ∨ (a.m = b.m ∧ a.d < b.d))) := by
  unfold dateCmp
  rw [ordering_then_lt, ordering_then_lt, natCmp_lt_iff, natCmp_eq_iff,
    natCmp_lt_iff, natCmp_eq_iff, natCmp_lt_iff]

theorem dateCmp_ne_gt_iff (a b : Date) : dateCmp a b ≠ .gt ↔
    a.y < b.y ∨ (a.y = b.y ∧ (a.m < b.m ∨ (a.m = b.m ∧ ¬ b.d < a.d))) := by
  unfold dateCmp
  rw [ordering_then_ne_gt, ordering_then_ne_gt, natCmp_lt_iff, natCmp_eq_iff,
    natCmp_lt_iff, natCmp_eq_iff]
  simp only [ne_eq, natCmp_gt_iff]

theorem dateCmp_lt_le (a b c : Date) (hab : dateCmp a b = .lt)
    (hbc : dateCmp b c ≠ .gt) : dateCmp a c = .lt := by
  rw [dateCmp_lt_iff] at hab ⊢
  rw [dateCmp_ne_gt_iff] at hbc
  omega

theorem optDueCmp_swap (a b : Option Date) :
    optDueCmp b a = (optDueCmp a b).swap := by
  cases a <;> cases b <;> first | rfl | (exact dateCmp_swap _ _)

theorem optDueCmp_congr (a b : Option Date) (h : optDueCmp a b = .eq) :
    ∀ c, optDueCmp a c = optDueCmp b c := by
  cases a with
  | none =>
    cases b with
    | none => intro c; rfl
    | some db => simp [optDueCmp] at h
  | some da =>
    cases b with
    | none => simp [optDueCmp] at h
    | some db =>
      have hdd : da = db := dateCmp_eq_fields h
      subst hdd
      intro c; rfl

theorem optDueCmp_lt_le (a b c : Option Date) (hab : optDueCmp a b = .lt)
    (hbc : optDueCmp b c ≠ .gt) : optDueCmp a c = .lt := by
  cases a with
  | none =>
    cases b with
    | none => simp [optDueCmp] at hab
    | some db => simp [optDueCmp] at hab
  | some da =>
    cases c with
    | none => rfl
    | some dc =>
      cases b with
      | none => simp [optDueCmp] at hbc
      | some db => exact dateCmp_lt_le da db dc hab hbc

theorem cmp_then_swap {α : Type} {f g : α → α → Ordering}
    (hf : ∀ a b, f b a = (f a b).swap) (hg : ∀ a b, g b a = (g a b).swap) :
    ∀ a b, (f b a).then (g b a) = ((f a b).then (g a b)).swap := by
  intro a b
  rw [hf, hg, ordering_then_swap]

theorem cmp_then_congr {α : Type} {f g : α → α → Ordering}
    (hf : ∀ a b c, f a b = .eq → f a c = f b c)
    (hg : ∀ a b c, g a b = .eq → g a c = g b c) :
    ∀ a b c, (f a b).then (g a b) = .eq →
      (f a c).then (g a c) = (f b c).then (g b c) := by
  intro a b c h
  rw [ordering_then_eq] at h
  rw [hf a b c h.1, hg a b c h.2]

theorem cmp_then_lt_le {α : Type} {f g : α → α → Ordering}
    (hfs : ∀ a b, f b a = (f a b).swap)
    (hfc : ∀ a b c, f a b = .eq → f a c = f b c)
    (hfl : ∀ a b c, f a b = .lt → f b c ≠ .gt → f a c = .lt)
    (hgl : ∀ a b c, g a b = .lt → g b c ≠ .gt → g a c = .lt) :
    ∀ a b c, (f a b).then (g a b) = .lt → (f b c).then (g b c) ≠ .gt →
      (f a c).then (g a c) = .lt := by
  intro a b c hab hbc
  rw [ordering_then_lt] at hab ⊢
  rw [ordering_then_ne_gt] at hbc
  rcases hab with hab | ⟨hab1, hab2⟩
  · rcases hbc with hbc | ⟨hbc1, hbc2⟩
    · left
      exact hfl a b c hab (by rw [hbc]; simp)
    · left
      have h2 : (f a b).swap = (f a c).swap := by
        rw [← hfs a b, ← hfs a c]
        exact hfc b c a hbc1
      rw [← ordering_swap_inj _ _ h2]
      exact hab
  · rcases hbc with hbc | ⟨hbc1, hbc2⟩
    · left
      rw [hfc a b c hab1]
      exact hbc
    · right
      refine ⟨?_, ?_⟩
      · rw [hfc a b c hab1]
        exact hbc1
      · exact hgl a b c hab2 hbc2

theorem natCmp_key_congr {α : Type} (k : α → Nat) (a b c : α)
    (h : natCmp (k a) (k b) = .eq) : natCmp (k a) (k c) = natCmp (k b) (k c) := by
  rw [(natCmp_eq_iff _ _).mp h]

theorem natCmp_key_lt_le {α : Type} (k : α → Nat) (a b c : α)
    (h1 : natCmp (k a) (k b) = .lt) (h2 : natCmp (k b) (k c) ≠ .gt) :
    natCmp (k a) (k c) = .lt := by
  rw [natCmp_lt_iff] at h1 ⊢
  have h3 : ¬ k c < k b := fun hx => h2 ((natCmp_gt_iff _ _).mpr hx)
  omega

theorem natCmp_rev_congr {α : Type} (k : α → Nat) (a b c : α)
    (h : natCmp (k b) (k a) = .eq) : natCmp (k c) (k a) = natCmp (k c) (k b) := by
  rw [(natCmp_eq_iff _ _).mp h]

theorem natCmp_rev_lt_le {α : Type} (k : α → Nat) (a b c : α)
    (h1 : natCmp (k b) (k a) = .lt) (h2 : natCmp (k c) (k b) ≠ .gt) :
    natCmp (k c) (k a) = .lt := by
  rw [natCmp_lt_iff] at h1 ⊢
  have h3 : ¬ k b < k c := fun hx => h2 ((natCmp_gt_iff _ _).mpr hx)
  omega

theorem taskCmp_swap (today : Date) : ∀ a b : Task,
    taskCmp today b a = (taskCmp today a b).swap := by
  have h34 := @cmp_then_swap Task
    (fun x y => natCmp y.priority.rank x.priority.rank)
    (fun x y => listCmp x.title y.title)
    (fun x y => natCmp_swap y.priority.rank x.priority.rank)
    (fun x y => listCmp_swap x.title y.title)
  have h234 := @cmp_then_swap Task
    (fun x y => optDueCmp x.due y.due)
    (fun x y => (natCmp y.priority.rank x.priority.rank).then
      (listCmp x.title y.title))
    (fun x y => optDueCmp_swap x.due y.due) h34
  have h1234 := @cmp_then_swap Task
    (fun x y => natCmp (dueScore today x.due) (dueScore today y.due))
    (fun x y => (optDueCmp x.due y.due).then
      ((natCmp y.priority.rank x.priority.rank).then (listCmp x.title y.title)))
    (fun x y => natCmp_swap (dueScore today x.due) (dueScore today y.due)) h234
  exact h1234

theorem taskCmp_congr (today : Date) : ∀ a b c : Task,
    taskCmp today a b = .eq → taskCmp today a c = taskCmp today b c := by
  have h34 := @cmp_then_congr Task
    (fun x y => natCmp y.priority.rank x.priority.rank)
    (fun x y => listCmp x.title y.title)
    (fun a b c h => natCmp_rev_congr (fun t : Task => t.priority.rank) a b c h)
    (fun a b c h => listCmp_congr a.title b.title h c.title)
  have h234 := @cmp_then_congr Task
    (fun x y => optDueCmp x.due y.due)
    (fun x y => (natCmp y.priority.rank x.priority.rank).then
      (listCmp x.title y.title))
    (fun a b c h => optDueCmp_congr a.due b.due h c.due)
    h34
  have h1234 := @cmp_then_congr Task
    (fun x y => natCmp (dueScore today x.due) (dueScore today y.due))
    (fun x y => (optDueCmp x.due y.due).then
      ((natCmp y.priority.rank x.priority.rank).then (listCmp x.title y.title)))
    (fun a b c h => natCmp_key_congr (fun t : Task => dueScore today t.due) a b c h)
    h234
  exact h1234

theorem taskCmp_lt_le (today : Date) : ∀ a b c : Task,
    taskCmp today a b = .lt → taskCmp today b c ≠ .gt →
    taskCmp today a c = .lt := by
  have h34 := @cmp_then_lt_le Task
    (fun x y => natCmp y.priority.rank x.priority.rank)
    (fun x y => listCmp x.title y.title)
    (fun x y => natCmp_swap y.priority.rank x.priority.rank)
    (fun a b c h => natCmp_rev_congr (fun t : Task => t.priority.rank) a b c h)
    (fun a b c h1 h2 =>
      natCmp_rev_lt_le (fun t : Task => t.priority.rank) a b c h1 h2)
    (fun a b c h1 h2 => listCmp_lt_le a.title b.title c.title h1 h2)
  have h234 := @cmp_then_lt_le Task
    (fun x y => optDueCmp x.due y.due)
    (fun x y => (natCmp y.priority.rank x.priority.rank).then
      (listCmp x.title y.title))
    (fun x y => optDueCmp_swap x.due y.due)
    (fun a b c h => optDueCmp_congr a.due b.due h c.due)
    (fun a b c h1 h2 => optDueCmp_lt_le a.due b.due c.due h1 h2)
    h34
  have h1234 := @cmp_then_lt_le Task
    (fun x y => natCmp (dueScore today x.due) (dueScore today y.due))
    (fun x y => (optDueCmp x.due y.due).then
      ((natCmp y.priority.rank x.priority.rank).then (listCmp x.title y.title)))
    (fun x y => natCmp_swap (dueScore today x.due) (dueScore today y.due))
    (fun a b c h => natCmp_key_congr (fun t : Task => dueScore today t.due) a b c h)
    (fun a b c h1 h2 =>
      natCmp_key_lt_le (fun t : Task => dueScore today t.due) a b c h1 h2)
    h234
  exact h1234

theorem taskLe_total (today : Date) (a b : Task) :
    taskLe today a b ∨ taskLe today b a := by
  unfold taskLe
  cases h : taskCmp today a b with
  | lt => left; simp
  | eq => left; simp
  | gt =>
    right
    rw [taskCmp_swap today a b, h]
    decide

theorem taskLe_trans (today : Date) (a b c : Task) (h1 : taskLe today a b)
    (h2 : taskLe today b c) : taskLe today a c := by
  unfold taskLe at h1 h2 ⊢
  rcases (ordering_ne_gt_iff _).mp h1 with hlt | heq
  · rw [taskCmp_lt_le today a b c hlt h2]
    simp
  · rw [taskCmp_congr today a b c heq]
    exact h2

theorem insertSorted_perm (today : Date) (a : Task) (l : List Task) :
    (insertSorted today a l).Perm (a :: l) := by
  induction l with
  | nil => exact List.Perm.refl _
  | cons b l ih =>
    show (if taskCmp today a b = .lt then a :: b :: l
      else b :: insertSorted today a l).Perm (a :: b :: l)
    by_cases h : taskCmp today a b = .lt
    · rw [if_pos h]
    · rw [if_neg h]
      exact (ih.cons b).trans (List.Perm.swap a b l)

theorem sortTasks_perm (today : Date) (l : List Task) :
    (sortTasks today l).Perm l := by
  induction l with
  | nil => exact List.Perm.refl _
  | cons a l ih =>
    show (insertSorted today a (sortTasks today l)).Perm (a :: l)
    exact (insertSorted_perm today a _).trans (ih.cons a)

theorem insertSorted_sorted (today : Date) (a : Task) (l : List Task)
    (h : l.Pairwise (taskLe today)) :
    (insertSorted today a l).Pairwise (taskLe today) := by
  induction l with
  | nil => simp [insertSorted]
  | cons b l ih =>
    rw [List.pairwise_cons] at h
    obtain ⟨hb, hl⟩ := h
    show (if taskCmp today a b = .lt then a :: b :: l
      else b :: insertSorted today a l).Pairwise (taskLe today)
    by_cases hab : taskCmp today a b = .lt
    · rw [if_pos hab, List.pairwise_cons]
      constructor
      · intro x hx
        have hle : taskLe today a b := by unfold taskLe; rw [hab]; simp
        rcases List.mem_cons.mp hx with rfl | hxl
        · exact hle
        · exact taskLe_trans today a b x hle (hb x hxl)
      · rw [List.pairwise_cons]
        exact ⟨hb, hl⟩
    · rw [if_neg hab, List.pairwise_cons]
      constructor
      · intro x hx
        have hx' : x ∈ a :: l := (insertSorted_perm today a l).mem_iff.mp hx
        rcases List.mem_cons.mp hx' with rfl | hxl
        · unfold taskLe
          rw [taskCmp_swap today x b]
          cases hc : taskCmp today x b with
          | lt => exact absurd hc hab
          | eq => decide
          | gt => decide
        · exact hb x hxl
      · exact ih hl

theorem sortTasks_sorted (today : Date) (l : List Task) :
    (sortTasks today l).Pairwise (taskLe today) := by
  induction l with
  | nil => simp [sortTasks]
  | cons a l ih => exact insertSorted_sorted today a _ ih

theorem optDueCmp_refl (o : Option Date) : optDueCmp o o = .eq := by
  cases o with
  | none => rfl
  | some d =>
    show dateCmp d d = .eq
    unfold dateCmp
    rw [(natCmp_eq_iff d.y d.y).mpr rfl, (natCmp_eq_iff d.m d.m).mpr rfl,
      (natCmp_eq_iff d.d d.d).mpr rfl]
    rfl

/-- C4: when `all_tasks` returns a task list, that list is the merged tasks
of the successful backends sorted by the comparator: a permutation of the
union, pairwise ordered by the (total, transitive) comparator order, where
an overdue task precedes any task with no due date, and tasks with equal
due date and equal priority are ordered by title. -/
theorem allTasks_sort_order (today : Date)
    (results : List (List Char × Except Err (List Task))) (ts : List Task)
    (hok : allTasks today results = .ok ts) :
    ts.Perm (unionTasks results) ∧
    List.Pairwise (taskLe today) ts ∧
    (∀ a b : Task, taskLe today a b ∨ taskLe today b a) ∧
    (∀ a b c : Task, taskLe today a b → taskLe today b c → taskLe today a c) ∧
    (∀ (a b : Task) (d : Date), a.due = some d → dateLt d today = true →
      b.due = none → taskCmp today a b = .lt) ∧
    (∀ a b : Task, a.due = b.due → a.priority = b.priority →
      taskCmp today a b = listCmp a.title b.title) := by
  have hts : ts = sortTasks today (unionTasks results) := by
    unfold allTasks at hok
    cases he : errList results with
    | nil =>
      rw [he] at hok
      exact (Except.ok.inj hok).symm
    | cons p rest =>
      obtain ⟨nn, ee⟩ := p
      rw [he] at hok
      cases hu : unionTasks results with
      | nil =>
        rw [hu] at hok
        simp at hok
      | cons t0 ts0 =>
        rw [hu] at hok
        exact (Except.ok.inj hok).symm
  subst hts
  refine ⟨sortTasks_perm today _, sortTasks_sorted today _, taskLe_total today,
    fun a b c => taskLe_trans today a b c, ?_, ?_⟩
  · intro a b d had hlt hbn
    have h0 : dueScore today a.due = 0 := by
      rw [had]
      simp only [dueScore]
      rw [if_pos hlt]
    have h3 : dueScore today b.due = 3 := by rw [hbn]; rfl
    unfold taskCmp
    rw [ordering_then_lt]
    left
    rw [natCmp_lt_iff, h0, h3]
    omega
  · intro a b hdue hprio
    unfold taskCmp
    rw [hdue, hprio, (natCmp_eq_iff _ _).mpr rfl, optDueCmp_refl,
      (natCmp_eq_iff _ _).mpr rfl]
    rfl

/-- C4, witness: the sort-order theorem applied to one backend returning a
task with no due date before a task due 2025-01-01, aggregated on
2025-01-02: the overdue task is sorted first. -/
theorem allTasks_sort_order_witness :
    (([⟨[], ("a".data), TaskStatus.Pending, Priority.none,
        some ⟨2025, 1, 1⟩, [], none, none, none⟩,
      ⟨[], ("b".data), TaskStatus.Pending, Priority.none,
        none, [], none, none, none⟩] : List Task).Perm
      (unionTasks [(("x".data),
        .ok [⟨[], ("b".data), TaskStatus.Pending, Priority.none,
          none, [], none, none, none⟩,
        ⟨[], ("a".data), TaskStatus.Pending, Priority.none,
          some ⟨2025, 1, 1⟩, [], none, none, none⟩])])) ∧
    List.Pairwise (taskLe ⟨2025, 1, 2⟩)
      [⟨[], ("a".data), TaskStatus.Pending, Priority.none,
        some ⟨2025, 1, 1⟩, [], none, none, none⟩,
      ⟨[], ("b".data), TaskStatus.Pending, Priority.none,
        none, [], none, none, none⟩] ∧
    (∀ a b : Task, taskLe ⟨2025, 1, 2⟩ a b ∨ taskLe ⟨2025, 1, 2⟩ b a) ∧
    (∀ a b c : Task, taskLe ⟨2025, 1, 2⟩ a b → taskLe ⟨2025, 1, 2⟩ b c →
      taskLe ⟨2025, 1, 2⟩ a c) ∧
    (∀ (a b : Task) (d : Date), a.due = some d → dateLt d ⟨2025, 1, 2⟩ = true →
      b.due = none → taskCmp ⟨2025, 1, 2⟩ a b = .lt) ∧
    (∀ a b : Task, a.due = b.due → a.priority = b.priority →
      taskCmp ⟨2025, 1, 2⟩ a b = listCmp a.title b.title) :=
  allTasks_sort_order ⟨2025, 1, 2⟩
    [(("x".data),
      .ok [⟨[], ("b".data), TaskStatus.Pending, Priority.none,
        none, [], none, none, none⟩,
      ⟨[], ("a".data), TaskStatus.Pending, Priority.none,
        some ⟨2025, 1, 1⟩, [], none, none, none⟩])]
    [⟨[], ("a".data), TaskStatus.Pending, Priority.none,
      some ⟨2025, 1, 1⟩, [], none, none, none⟩,
    ⟨[], ("b".data), TaskStatus.Pending, Priority.none,
      none, [], none, none, none⟩]
    (by decide)

/-! ## Lemmas for the format-then-parse round trip -/

theorem joinSp_ne_nil {ws : List (List Char)} (h0 : ws ≠ [])
    (h : ∀ w ∈ ws, w ≠ []) : joinSp ws ≠ [] := by
  cases ws with
  | nil => exact absurd rfl h0
  | cons w rest =>
    cases rest with
    | nil => exact h w (List.mem_cons_self w [])
    | cons r rs =>
      rw [joinSp_cons_of_ne (by simp)]
      simp

theorem joinSp_getLast {ws : List (List Char)} {lw : List Char}
    (h : ws.getLast? = some lw) (hlw : lw ≠ []) :
    (joinSp ws).getLast? = lw.getLast? := by
  induction ws with
  | nil => simp at h
  | cons l ls' ih =>
    cases ls' with
    | nil =>
      simp at h
      subst h
      rfl
    | cons w ws' =>
      have h' : (w :: ws').getLast? = some lw := by
        rwa [List.getLast?_cons_cons] at h
      have hJ := ih h'
      rw [joinSp_cons_of_ne (by simp), List.getLast?_append]
      have hJne : joinSp (w :: ws') ≠ [] := by
        intro hnil
        rw [hnil] at hJ
        cases hgl : lw.getLast? with
        | none => exact hlw (List.getLast?_eq_none_iff.mp hgl)
        | some g => rw [hgl] at hJ; simp at hJ
      rw [getLast?_cons_of_ne hJne, hJ]
      cases hgl : lw.getLast? with
      | none => exact absurd (List.getLast?_eq_none_iff.mp hgl) hlw
      | some g => rfl

theorem getLast?_ws_of_append_join {pre t : List Char}
    (ht : ∃ g, t.getLast? = some g ∧ isWs g = false) :
    ∀ c0, (pre ++ t).getLast? = some c0 → isWs c0 = false := by
  obtain ⟨g, hg, hgws⟩ := ht
  intro c0 hc0
  rw [List.getLast?_append, hg] at hc0
  have hor : (some g).or pre.getLast? = some g := rfl
  rw [hor] at hc0
  injection hc0 with h
  rw [← h]
  exact hgws

theorem joinSp_last_no_ws {ws : List (List Char)} (h0 : ws ≠ [])
    (h : ∀ w ∈ ws, w ≠ [] ∧ ∀ c ∈ w, isWs c = false) :
    ∃ g, (joinSp ws).getLast? = some g ∧ isWs g = false := by
  cases hlw : ws.getLast? with
  | none => exact absurd (List.getLast?_eq_none_iff.mp hlw) h0
  | some lw =>
    have hmem := List.mem_of_mem_getLast? hlw
    obtain ⟨hlwne, hlwws⟩ := h lw hmem
    have hj := joinSp_getLast hlw hlwne
    cases hgl : lw.getLast? with
    | none => exact absurd (List.getLast?_eq_none_iff.mp hgl) hlwne
    | some g =>
      refine ⟨g, by rw [hj, hgl], ?_⟩
      exact hlwws g (List.mem_of_mem_getLast? hgl)

theorem joinSp_trimStart {ws : List (List Char)} (h0 : ws ≠ [])
    (h : ∀ w ∈ ws, w ≠ [] ∧ ∀ c ∈ w, isWs c = false) :
    trimStart (joinSp ws) = joinSp ws := by
  cases ws with
  | nil => exact absurd rfl h0
  | cons w1 rest =>
    obtain ⟨hw1ne, hw1ws⟩ := h w1 (List.mem_cons_self w1 rest)
    obtain ⟨c1, w1', hc⟩ : ∃ c1 w1', w1 = c1 :: w1' := by
      cases w1 with
      | nil => exact absurd rfl hw1ne
      | cons a b => exact ⟨a, b, rfl⟩
    have hc1 : isWs c1 = false := hw1ws c1 (by rw [hc]; simp)
    cases rest with
    | nil =>
      show trimStart w1 = w1
      rw [hc]
      exact trimStart_cons hc1
    | cons r rs =>
      rw [joinSp_cons_of_ne (by simp), hc, List.cons_append]
      exact trimStart_cons hc1

theorem joinSp_nest {tw R : List (List Char)} (h : tw ≠ []) :
    joinSp (joinSp tw :: R) = joinSp (tw ++ R) := by
  cases R with
  | nil => rw [List.append_nil]; rfl
  | cons r rs =>
    rw [joinSp_cons_of_ne (by simp), joinSp_append h (by simp)]

theorem joinSp_glue {A B : List (List Char)} (hA : A ≠ []) :
    joinSp A ++ (if B = [] then [] else ' ' :: joinSp B) = joinSp (A ++ B) := by
  cases B with
  | nil => simp
  | cons b bs => rw [if_neg (by simp), joinSp_append hA (by simp)]

theorem not_meta_plain {w : List Char} (h : isMetadataToken w = false) :
    w.head? ≠ some '#' ∧ (("due:".data).isPrefixOf w) = false := by
  unfold isMetadataToken at h
  simp only [Bool.or_eq_false_iff, decide_eq_false_iff_not] at h
  exact ⟨h.1.1.1.1.2, h.1.1.1.2⟩

theorem fold_plain {tw : List (List Char)}
    (h : ∀ w ∈ tw, w.head? ≠ some '#' ∧ (("due:".data).isPrefixOf w) = false) :
    ∀ acc : WordAcc, tw.foldl wordStep acc
      = ⟨acc.tags, acc.due, acc.titleParts ++ tw⟩ := by
  induction tw with
  | nil => intro acc; simp
  | cons w tw' ih =>
    intro acc
    obtain ⟨hwh, hwd⟩ := h w (List.mem_cons_self w tw')
    rw [List.foldl_cons,
      show wordStep acc w = { acc with titleParts := acc.titleParts ++ [w] } from by
        unfold wordStep
        rw [if_neg hwh, if_neg (by simp [hwd])],
      ih (fun x hx => h x (List.mem_cons_of_mem w hx))]
    simp

theorem fold_tags (tags : List (List Char)) :
    ∀ acc : WordAcc, (tags.map (fun t => '#' :: t)).foldl wordStep acc
      = ⟨acc.tags ++ tags, acc.due, acc.titleParts⟩ := by
  induction tags with
  | nil => intro acc; simp
  | cons tg tags' ih =>
    intro acc
    rw [List.map_cons, List.foldl_cons,
      show wordStep acc ('#' :: tg) = { acc with tags := acc.tags ++ [tg] } from by
        unfold wordStep
        rw [if_pos (by rfl)]
        rfl,
      ih]
    simp

theorem fold_due {dd : Date} (h : validDate dd = true) (acc : WordAcc) :
    wordStep acc (("due:".data) ++ dateToString dd)
      = ⟨acc.tags, some dd, acc.titleParts⟩ := by
  unfold wordStep
  rw [if_neg (by
      rw [show ("due:".data) ++ dateToString dd
        = 'd' :: ("ue:".data ++ dateToString dd) from rfl]
      simp),
    if_pos (isPrefixOf_append_self _ _),
    show (("due:".data) ++ dateToString dd).drop 4 = dateToString dd from by
      rw [show (4 : Nat) = ("due:".data).length from rfl, List.drop_left],
    dateParse_dateToString h]

set_option maxHeartbeats 2000000 in
theorem scanF_succ_of_le :
    ∀ fuel (toks : List (List Char)) (s : ScanAcc), toks.length ≤ fuel →
      scanF (fuel + 1) toks s = scanF fuel toks s := by
  intro fuel
  induction fuel with
  | zero =>
    intro toks s hlen
    have h0 : toks = [] := List.eq_nil_of_length_eq_zero (by omega)
    subst h0
    rfl
  | succ f ih =>
    intro toks s hlen
    cases toks with
    | nil => rfl
    | cons t ts =>
      have hts : ts.length ≤ f := by
        simp only [List.length_cons] at hlen
        omega
      have htail : ts.tail.length ≤ f := by
        rw [List.length_tail]
        omega
      have hdropw : (ts.dropWhile (fun x => !isMetadataToken x)).length ≤ f :=
        le_trans (length_dropWhile_le _ _) hts
      show scanF (f + 1 + 1) (t :: ts) s = scanF (f + 1) (t :: ts) s
      conv_lhs => rw [scanF]
      conv_rhs => rw [scanF]
      by_cases h1 : t = hiTok ∨ t = hiTok2
      · simp only [if_pos h1]; exact ih ts _ hts
      · simp only [if_neg h1]
        by_cases h2 : t = medTok
        · simp only [if_pos h2]; exact ih ts _ hts
        · simp only [if_neg h2]
          by_cases h3 : t = lowTok ∨ t = lowTok2
          · simp only [if_pos h3]; exact ih ts _ hts
          · simp only [if_neg h3]
            by_cases h4 : (t = dueTok ∨ t = dueTok2 ∨ t = dueTok3) ∧ (nextDate ts).isSome = true
            · simp only [if_pos h4]; exact ih ts.tail _ htail
            · simp only [if_neg h4]
              by_cases h5 : t = doneTok ∧ (nextDate ts).isSome = true
              · simp only [if_pos h5]; exact ih ts.tail _ htail
              · simp only [if_neg h5]
                by_cases h6 : t = createdTok ∧ (nextDate ts).isSome = true
                · simp only [if_pos h6]; exact ih ts.tail _ htail
                · simp only [if_neg h6]
                  by_cases h7 : t ∈ skipToks
                  · simp only [if_pos h7]; exact ih ts.tail _ htail
                  · simp only [if_neg h7]
                    by_cases h8 : t = recTok
                    · simp only [if_pos h8]; exact ih _ _ hdropw
                    · simp only [if_neg h8]
                      by_cases h9 : t = ("(p1)".data)
                      · simp only [if_pos h9]; exact ih ts _ hts
                      · simp only [if_neg h9]
                        by_cases h10 : t = ("(p2)".data)
                        · simp only [if_pos h10]; exact ih ts _ hts
                        · simp only [if_neg h10]
                          by_cases h11 : t = ("(p3)".data)
                          · simp only [if_pos h11]; exact ih ts _ hts
                          · simp only [if_neg h11]
                            by_cases h12 : t.head? = some '#'
                            · simp only [if_pos h12]; exact ih ts _ hts
                            · simp only [if_neg h12]
                              by_cases h13 : (("due:".data).isPrefixOf t) = true ∧ (dateParse (t.drop 4)).isSome = true
                              · simp only [if_pos h13]; exact ih ts _ hts
                              · simp only [if_neg h13]; exact ih ts _ hts

theorem scanF_eq_scan :
    ∀ fuel (toks : List (List Char)) (s : ScanAcc), toks.length ≤ fuel →
      scanF fuel toks s = scan toks s := by
  intro fuel
  induction fuel with
  | zero =>
    intro toks s h
    have h0 : toks = [] := List.eq_nil_of_length_eq_zero (by omega)
    subst h0
    rfl
  | succ f ih =>
    intro toks s h
    rcases Nat.lt_or_ge f toks.length with hlt | hge
    · have heq : toks.length = f + 1 := by omega
      show scanF (f + 1) toks s = scanF toks.length toks s
      rw [heq]
    · rw [scanF_succ_of_le f toks s hge]
      exact ih toks s hge

theorem scan_cons_plain {w : List Char} (hw : isMetadataToken w = false)
    (ts : List (List Char)) (s : ScanAcc) :
    scan (w :: ts) s = scan ts { s with titleParts := s.titleParts ++ [w] } := by
  unfold isMetadataToken at hw
  simp only [Bool.or_eq_false_iff, decide_eq_false_iff_not] at hw
  show scanF (w :: ts).length (w :: ts) s = _
  simp only [List.length_cons]
  conv_lhs => rw [scanF]
  rw [if_neg (by
      intro hcon
      rcases hcon with hcon | hcon
      · exact hw.1.1.1.1.1.1.1.1.1.1.1.1.1.2 hcon
      · exact hw.1.1.1.1.1.1.1.1.1.1.1.1.2 hcon),
    if_neg hw.1.1.1.1.1.1.1.1.1.1.1.2,
    if_neg (by
      intro hcon
      rcases hcon with hcon | hcon
      · exact hw.1.1.1.1.1.1.1.1.1.1.2 hcon
      · exact hw.1.1.1.1.1.1.1.1.1.2 hcon),
    if_neg (by
      intro hcon
      rcases hcon.1 with h | h | h
      · exact hw.1.1.1.1.1.1.1.1.1.1.1.1.1.1.1.1.1.1.1.1 h
      · exact hw.1.1.1.1.1.1.1.1.1.1.1.1.1.1.1.1.1.1.1.2 h
      · exact hw.1.1.1.1.1.1.1.1.1.1.1.1.1.1.1.1.1.1.2 h),
    if_neg (fun hcon => hw.1.1.1.1.1.1.1.1.1.1.1.1.1.1.1.1.1.2 hcon.1),
    if_neg (fun hcon => hw.1.1.1.1.1.1.1.1.1.1.1.1.1.1.1.1.2 hcon.1),
    if_neg (by
      intro hcon
      unfold skipToks at hcon
      simp only [List.mem_cons, List.not_mem_nil, or_false] at hcon
      rcases hcon with h | h | h | h | h
      · exact hw.1.1.1.1.1.1.1.1.1.1.1.1.1.1.1.2 h
      · exact hw.1.1.1.1.1.1.1.1.1.1.1.1.1.1.2 h
      · exact hw.1.1.1.1.1.1.1.2 h
      · exact hw.1.1.1.1.1.1.2 h
      · exact hw.1.1.1.1.1.2 h),
    if_neg hw.1.1.1.1.1.1.1.1.2,
    if_neg hw.1.1.2,
    if_neg hw.1.2,
    if_neg hw.2,
    if_neg hw.1.1.1.1.2,
    if_neg (by
      intro hcon
      simp [hw.1.1.1.2] at hcon)]
  exact scanF_eq_scan ts.length ts _ le_rfl

theorem cons_ne_of_head {c : Char} {tg : List Char} {w : List Char}
    (hw : w.head? ≠ some c) : c :: tg ≠ w :=
  fun h => hw (h ▸ rfl)

theorem scan_cons_hi (ts : List (List Char)) (s : ScanAcc) :
    scan (hiTok :: ts) s = scan ts { s with priority := .high } := by
  show scanF (hiTok :: ts).length (hiTok :: ts) s = _
  simp only [List.length_cons]
  conv_lhs => rw [scanF]
  rw [if_pos (Or.inl rfl)]
  rfl

theorem scan_cons_med (ts : List (List Char)) (s : ScanAcc) :
    scan (medTok :: ts) s = scan ts { s with priority := .medium } := by
  show scanF (medTok :: ts).length (medTok :: ts) s = _
  simp only [List.length_cons]
  conv_lhs => rw [scanF]
  rw [if_neg (by decide), if_pos rfl]
  rfl

theorem scan_cons_low (ts : List (List Char)) (s : ScanAcc) :
    scan (lowTok :: ts) s = scan ts { s with priority := .low } := by
  show scanF (lowTok :: ts).length (lowTok :: ts) s = _
  simp only [List.length_cons]
  conv_lhs => rw [scanF]
  rw [if_neg (by decide), if_neg (by decide), if_pos (Or.inl rfl)]
  rfl

theorem scan_cons_due {dd : Date} (h : validDate dd = true)
    (ts : List (List Char)) (s : ScanAcc) :
    scan (dueTok :: dateToString dd :: ts) s
      = scan ts { s with due := some dd } := by
  have hnd : nextDate (dateToString dd :: ts) = some dd := by
    show dateParse (dateToString dd) = some dd
    exact dateParse_dateToString h
  show scanF (dueTok :: dateToString dd :: ts).length _ s = _
  simp only [List.length_cons]
  conv_lhs => rw [scanF]
  rw [if_neg (by decide), if_neg (by decide), if_neg (by decide),
    if_pos ⟨Or.inl rfl, by rw [hnd]; rfl⟩,
    show (dateToString dd :: ts).tail = ts from rfl, hnd]
  exact scanF_eq_scan (ts.length + 1) ts _ (by omega)

theorem scan_cons_tag {tg : List Char} (htg : tg ≠ [])
    (ts : List (List Char)) (s : ScanAcc) :
    scan (('#' :: tg) :: ts) s = scan ts { s with tags := s.tags ++ [tg] } := by
  show scanF (('#' :: tg) :: ts).length _ s = _
  simp only [List.length_cons]
  conv_lhs => rw [scanF]
  rw [if_neg (fun hcon => hcon.elim (cons_ne_of_head (by decide))
        (cons_ne_of_head (by decide))),
    if_neg (cons_ne_of_head (by decide)),
    if_neg (fun hcon => hcon.elim (cons_ne_of_head (by decide))
        (cons_ne_of_head (by decide))),
    if_neg (fun hcon => hcon.1.elim (cons_ne_of_head (by decide))
        (fun h2 => h2.elim (cons_ne_of_head (by decide))
          (cons_ne_of_head (by decide)))),
    if_neg (fun hcon => cons_ne_of_head (by decide) hcon.1),
    if_neg (fun hcon => cons_ne_of_head (by decide) hcon.1),
    if_neg (by
      intro hcon
      unfold skipToks at hcon
      simp only [List.mem_cons, List.not_mem_nil, or_false] at hcon
      rcases hcon with h | h | h | h | h <;>
        exact cons_ne_of_head (by decide) h),
    if_neg (cons_ne_of_head (by decide)),
    if_neg (cons_ne_of_head (by decide)),
    if_neg (cons_ne_of_head (by decide)),
    if_neg (cons_ne_of_head (by decide)),
    if_pos (show ('#' :: tg).head? = some '#' from rfl),
    show ('#' :: tg).drop 1 = tg from rfl,
    if_neg htg]
  rfl

theorem scan_plain_prefix {tw : List (List Char)}
    (h : ∀ w ∈ tw, isMetadataToken w = false) :
    ∀ (ts : List (List Char)) (s : ScanAcc),
      scan (tw ++ ts) s = scan ts { s with titleParts := s.titleParts ++ tw } := by
  induction tw with
  | nil =>
    intro ts s
    simp
  | cons w tw' ih =>
    intro ts s
    rw [List.cons_append,
      scan_cons_plain (h w (List.mem_cons_self w tw')) (tw' ++ ts) s,
      ih (fun x hx => h x (List.mem_cons_of_mem w hx)) ts]
    simp

theorem scan_tags {tags : List (List Char)} (h : ∀ tg ∈ tags, tg ≠ []) :
    ∀ s : ScanAcc, scan (tags.map (fun t => '#' :: t)) s
      = { s with tags := s.tags ++ tags } := by
  induction tags with
  | nil =>
    intro s
    show s = _
    simp
  | cons tg tags' ih =>
    intro s
    rw [List.map_cons, scan_cons_tag (h tg (List.mem_cons_self tg tags')),
      ih (fun x hx => h x (List.mem_cons_of_mem tg hx))]
    simp

theorem tags_flat_join (tags : List (List Char)) :
    ((tags.map (fun t => sp ++ '#' :: t)).flatten)
      = if tags.map (fun t => '#' :: t) = [] then []
        else ' ' :: joinSp (tags.map (fun t => '#' :: t)) := by
  induction tags with
  | nil => rfl
  | cons tg tags' ih =>
    rw [List.map_cons, List.flatten_cons, ih]
    cases tags' with
    | nil => simp [sp, joinSp]
    | cons t2 ts2 =>
      rw [if_neg (show ¬ (List.map (fun t => '#' :: t) (t2 :: ts2)) = [] by simp),
        if_neg (show ¬ (List.map (fun t => '#' :: t) (tg :: t2 :: ts2)) = [] by simp),
        List.map_cons]
      simp only [List.map_cons]
      rw [joinSp_cons_of_ne
        (show (('#' :: t2) :: List.map (fun t => '#' :: t) ts2) ≠ [] by simp)]
      simp [sp]

theorem parseCheckboxLine_pending (REST : List Char) :
    parseCheckboxLine (("- [ ] ".data) ++ REST)
      = (if trimStart REST = [] then none
         else
           let s := scan (splitWs (trimStart REST)) scanInit
           let title := joinSp s.titleParts
           if title = [] then none
           else some ⟨title, TaskStatus.Pending, s.priority, s.due,
             s.completedAt, s.createdAt, s.tags⟩) := rfl

theorem parseCheckboxLine_done (REST : List Char) :
    parseCheckboxLine (("- [x] ".data) ++ REST)
      = (if trimStart REST = [] then none
         else
           let s := scan (splitWs (trimStart REST)) scanInit
           let title := joinSp s.titleParts
           if title = [] then none
           else some ⟨title, TaskStatus.Done, s.priority, s.due,
             s.completedAt, s.createdAt, s.tags⟩) := rfl

theorem parseCheckboxLine_of_scan (status : TaskStatus) (REST : List Char)
    (toks : List (List Char)) (acc : ScanAcc)
    (htrim : trimStart REST = REST) (hne : REST ≠ [])
    (hsplit : splitWs REST = toks)
    (hscan : scan toks scanInit = acc)
    (htitle : joinSp acc.titleParts ≠ []) :
    parseCheckboxLine ((match status with
      | TaskStatus.Pending => "- [ ] ".data
      | TaskStatus.Done => "- [x] ".data) ++ REST)
      = some ⟨joinSp acc.titleParts, status, acc.priority, acc.due,
          acc.completedAt, acc.createdAt, acc.tags⟩ := by
  cases status with
  | Pending =>
    rw [show ((match TaskStatus.Pending with
        | TaskStatus.Pending => "- [ ] ".data
        | TaskStatus.Done => "- [x] ".data) : List Char) = "- [ ] ".data from rfl,
      parseCheckboxLine_pending, htrim, if_neg hne]
    dsimp only
    rw [hsplit, hscan, if_neg htitle]
  | Done =>
    rw [show ((match TaskStatus.Done with
        | TaskStatus.Pending => "- [ ] ".data
        | TaskStatus.Done => "- [x] ".data) : List Char) = "- [x] ".data from rfl,
      parseCheckboxLine_done, htrim, if_neg hne]
    dsimp only
    rw [hsplit, hscan, if_neg htitle]

/-- Helper for C5: `parseLine` on a priority marker followed by today's
date and a space-joined word list whose fold is known yields the pending
task described by that fold. -/
theorem parseLine_pending_of_fold (n : Nat) (today : Date) (priority : Priority)
    (W tw tags : List (List Char)) (due : Option Date)
    (htoday : validDate today = true)
    (hW0 : W ≠ [])
    (hwords : ∀ w ∈ W, w ≠ [] ∧ ∀ c ∈ w, isWs c = false)
    (hfold : List.foldl wordStep ⟨[], none, []⟩ W = ⟨tags, due, tw⟩)
    (htitle_ne : joinSp tw ≠ []) :
    parseLine n (prioMark priority ++ (dateToString today ++ ' ' :: joinSp W))
      = some { id := ("local:".data) ++ natStr n, title := joinSp tw,
               status := TaskStatus.Pending, priority := priority, due := due,
               tags := tags, sourceLine := some n, createdAt := some today,
               completedAt := none } := by
  have htJ := joinSp_trimStart hW0 hwords
  have hlastJ := joinSp_last_no_ws hW0 hwords
  have hpd : parseDatePrefix (dateToString today ++ ' ' :: joinSp W)
      = some (today, joinSp W) := by
    rw [ parseDatePrefix_of_prefix (dateParse_dateToString htoday),
      trimStart_cons_space, htJ]
  have hsw := splitWs_joinSp hwords
  obtain ⟨c0, cs0, hds, hdig⟩ := dateToString_head today
  have hc0ws : isWs c0 = false := isWs_of_digit hdig
  have htsD : trimStart (dateToString today ++ ' ' :: joinSp W)
      = dateToString today ++ ' ' :: joinSp W := by
    rw [hds, List.cons_append]
    exact trimStart_cons hc0ws
  have hxpb : (("x ".data).isPrefixOf (dateToString today ++ ' ' :: joinSp W)) = false := by
    rw [hds, List.cons_append]
    exact isPrefixOf_cons_false (Ne.symm (isDigit_ne hdig (by decide)))
  have hp1 : (("(p1)".data).isPrefixOf (dateToString today ++ ' ' :: joinSp W)) = false := by
    rw [hds, List.cons_append]
    exact isPrefixOf_cons_false (Ne.symm (isDigit_ne hdig (by decide)))
  have hp2 : (("(p2)".data).isPrefixOf (dateToString today ++ ' ' :: joinSp W)) = false := by
    rw [hds, List.cons_append]
    exact isPrefixOf_cons_false (Ne.symm (isDigit_ne hdig (by decide)))
  have hp3 : (("(p3)".data).isPrefixOf (dateToString today ++ ' ' :: joinSp W)) = false := by
    rw [hds, List.cons_append]
    exact isPrefixOf_cons_false (Ne.symm (isDigit_ne hdig (by decide)))
  cases priority with
  | none =>
    have hln : prioMark .none ++ (dateToString today ++ ' ' :: joinSp W)
        = dateToString today ++ ' ' :: joinSp W := by
      rw [show (prioMark .none : List Char) = [] from rfl]
      simp
    rw [hln]
    have htrim : trim (dateToString today ++ ' ' :: joinSp W)
        = dateToString today ++ ' ' :: joinSp W := by
      apply trim_eq_self
      · intro c1 hc1
        rw [hds, List.cons_append, List.head?_cons, Option.some.injEq] at hc1
        rw [← hc1]
        exact hc0ws
      · intro c1 hc1
        rw [show dateToString today ++ ' ' :: joinSp W
          = (dateToString today ++ [' ']) ++ joinSp W from by simp] at hc1
        exact getLast?_ws_of_append_join hlastJ c1 hc1
    unfold parseLine
    rw [htrim]
    rw [if_neg (by
      rw [hds, List.cons_append]
      simp only [List.head?_cons, Option.some.injEq]
      push_neg
      exact ⟨by simp, (isDigit_ne hdig (by decide)).symm ∘ Eq.symm⟩)]
    simp only [hxpb, Bool.false_eq_true, if_false, htsD, hp1, hp2, hp3]
    simp [hpd, hsw, hfold, htitle_ne]
  | low =>
    have hln : prioMark .low ++ (dateToString today ++ ' ' :: joinSp W)
        = '(' :: 'p' :: '3' :: ')' :: ' ' :: (dateToString today ++ ' ' :: joinSp W) := by
      rw [show (prioMark .low : List Char) = ['(', 'p', '3', ')', ' '] from rfl]
      simp
    rw [hln]
    have htrim : trim ('(' :: 'p' :: '3' :: ')' :: ' ' :: (dateToString today ++ ' ' :: joinSp W))
        = '(' :: 'p' :: '3' :: ')' :: ' ' :: (dateToString today ++ ' ' :: joinSp W) := by
      apply trim_eq_self
      · intro c1 hc1
        simp only [List.head?_cons, Option.some.injEq] at hc1
        rw [← hc1]; rfl
      · intro c1 hc1
        rw [show ('(' :: 'p' :: '3' :: ')' :: ' ' :: (dateToString today ++ ' ' :: joinSp W))
          = ('(' :: 'p' :: '3' :: ')' :: ' ' :: (dateToString today ++ [' '])) ++ joinSp W
          from by simp] at hc1
        exact getLast?_ws_of_append_join hlastJ c1 hc1
    unfold parseLine
    rw [htrim]
    rw [if_neg (by simp)]
    simp only [show (("x ".data).isPrefixOf
        ('(' :: 'p' :: '3' :: ')' :: ' ' :: (dateToString today ++ ' ' :: joinSp W))) = false
        from by simp [List.isPrefixOf], Bool.false_eq_true, if_false]
    simp only [show trimStart ('(' :: 'p' :: '3' :: ')' :: ' ' :: (dateToString today ++ ' ' :: joinSp W))
        = '(' :: 'p' :: '3' :: ')' :: ' ' :: (dateToString today ++ ' ' :: joinSp W)
        from trimStart_cons rfl]
    simp only [show (("(p3)".data).isPrefixOf
        ('(' :: 'p' :: '3' :: ')' :: ' ' :: (dateToString today ++ ' ' :: joinSp W))) = true
        from by simp [List.isPrefixOf], if_true, List.drop_succ_cons, List.drop_zero,
      trimStart_cons_space, htsD]
    simp [List.isPrefixOf, hpd, hsw, hfold, htitle_ne]
  | medium =>
    have hln : prioMark .medium ++ (dateToString today ++ ' ' :: joinSp W)
        = '(' :: 'p' :: '2' :: ')' :: ' ' :: (dateToString today ++ ' ' :: joinSp W) := by
      rw [show (prioMark .medium : List Char) = ['(', 'p', '2', ')', ' '] from rfl]
      simp
    rw [hln]
    have htrim : trim ('(' :: 'p' :: '2' :: ')' :: ' ' :: (dateToString today ++ ' ' :: joinSp W))
        = '(' :: 'p' :: '2' :: ')' :: ' ' :: (dateToString today ++ ' ' :: joinSp W) := by
      apply trim_eq_self
      · intro c1 hc1
        simp only [List.head?_cons, Option.some.injEq] at hc1
        rw [← hc1]; rfl
      · intro c1 hc1
        rw [show ('(' :: 'p' :: '2' :: ')' :: ' ' :: (dateToString today ++ ' ' :: joinSp W))
          = ('(' :: 'p' :: '2' :: ')' :: ' ' :: (dateToString today ++ [' '])) ++ joinSp W
          from by simp] at hc1
        exact getLast?_ws_of_append_join hlastJ c1 hc1
    unfold parseLine
    rw [htrim]
    rw [if_neg (by simp)]
    simp only [show (("x ".data).isPrefixOf
        ('(' :: 'p' :: '2' :: ')' :: ' ' :: (dateToString today ++ ' ' :: joinSp W))) = false
        from by simp [List.isPrefixOf], Bool.false_eq_true, if_false]
    simp only [show trimStart ('(' :: 'p' :: '2' :: ')' :: ' ' :: (dateToString today ++ ' ' :: joinSp W))
        = '(' :: 'p' :: '2' :: ')' :: ' ' :: (dateToString today ++ ' ' :: joinSp W)
        from trimStart_cons rfl]
    simp only [show (("(p2)".data).isPrefixOf
        ('(' :: 'p' :: '2' :: ')' :: ' ' :: (dateToString today ++ ' ' :: joinSp W))) = true
        from by simp [List.isPrefixOf], if_true, List.drop_succ_cons, List.drop_zero,
      trimStart_cons_space, htsD]
    simp [List.isPrefixOf, hpd, hsw, hfold, htitle_ne]
  | high =>
    have hln : prioMark .high ++ (dateToString today ++ ' ' :: joinSp W)
        = '(' :: 'p' :: '1' :: ')' :: ' ' :: (dateToString today ++ ' ' :: joinSp W) := by
      rw [show (prioMark .high : List Char) = ['(', 'p', '1', ')', ' '] from rfl]
      simp
    rw [hln]
    have htrim : trim ('(' :: 'p' :: '1' :: ')' :: ' ' :: (dateToString today ++ ' ' :: joinSp W))
        = '(' :: 'p' :: '1' :: ')' :: ' ' :: (dateToString today ++ ' ' :: joinSp W) := by
      apply trim_eq_self
      · intro c1 hc1
        simp only [List.head?_cons, Option.some.injEq] at hc1
        rw [← hc1]; rfl
      · intro c1 hc1
        rw [show ('(' :: 'p' :: '1' :: ')' :: ' ' :: (dateToString today ++ ' ' :: joinSp W))
          = ('(' :: 'p' :: '1' :: ')' :: ' ' :: (dateToString today ++ [' '])) ++ joinSp W
          from by simp] at hc1
        exact getLast?_ws_of_append_join hlastJ c1 hc1
    unfold parseLine
    rw [htrim]
    rw [if_neg (by simp)]
    simp only [show (("x ".data).isPrefixOf
        ('(' :: 'p' :: '1' :: ')' :: ' ' :: (dateToString today ++ ' ' :: joinSp W))) = false
        from by simp [List.isPrefixOf], Bool.false_eq_true, if_false]
    simp only [show trimStart ('(' :: 'p' :: '1' :: ')' :: ' ' :: (dateToString today ++ ' ' :: joinSp W))
        = '(' :: 'p' :: '1' :: ')' :: ' ' :: (dateToString today ++ ' ' :: joinSp W)
        from trimStart_cons rfl]
    simp only [show (("(p1)".data).isPrefixOf
        ('(' :: 'p' :: '1' :: ')' :: ' ' :: (dateToString today ++ ' ' :: joinSp W))) = true
        from by simp [List.isPrefixOf], if_true, List.drop_succ_cons, List.drop_zero,
      trimStart_cons_space, htsD]
    simp [List.isPrefixOf, hpd, hsw, hfold, htitle_ne]

/-- Helper for C5: `parseCheckboxLine` recovers title, status, priority,
due date and tags from `obsFormatLine` output when the title words are
plain (nonempty, whitespace-free, not metadata tokens) and the tags are
nonempty and whitespace-free. -/
theorem parseCheckboxLine_obsFormat (status : TaskStatus) (priority : Priority)
    (due : Option Date) (tw tags : List (List Char))
    (htw0 : tw ≠ [])
    (htw : ∀ w ∈ tw, w ≠ [] ∧ (∀ c ∈ w, isWs c = false) ∧ isMetadataToken w = false)
    (htags : ∀ tg ∈ tags, tg ≠ [] ∧ ∀ c ∈ tg, isWs c = false)
    (hdue : ∀ dd, due = some dd → validDate dd = true) :
    parseCheckboxLine (obsFormatLine status (joinSp tw) priority due tags)
      = some ⟨joinSp tw, status, priority, due, none, none, tags⟩ := by
  have htagne : ∀ tg ∈ tags, tg ≠ [] := fun tg h => (htags tg h).1
  have hmeta : ∀ w ∈ tw, isMetadataToken w = false := fun w hw => (htw w hw).2.2
  have htww : ∀ w ∈ tw, w ≠ [] ∧ ∀ c ∈ w, isWs c = false :=
    fun w hw => ⟨(htw w hw).1, (htw w hw).2.1⟩
  have htagw : ∀ w ∈ tags.map (fun t => '#' :: t), w ≠ [] ∧ ∀ c ∈ w, isWs c = false := by
    intro w hw
    rcases List.mem_map.mp hw with ⟨tg, htg, rfl⟩
    obtain ⟨h1, h2⟩ := htags tg htg
    refine ⟨by simp, ?_⟩
    intro c hc
    rcases List.mem_cons.mp hc with rfl | hc2
    · rfl
    · exact h2 c hc2
  have htitle_ne : joinSp tw ≠ [] := joinSp_ne_nil htw0 (fun w hw => (htw w hw).1)
  have hTF := tags_flat_join tags
  cases due with
  | none =>
    cases priority with
    | none =>
      have hW0 : (tw ++ tags.map (fun t => '#' :: t)) ≠ [] := by
        intro h
        rcases List.append_eq_nil.mp h with ⟨h1, _⟩
        exact htw0 h1
      have hwords2 : ∀ w ∈ tw ++ tags.map (fun t => '#' :: t),
          w ≠ [] ∧ ∀ c ∈ w, isWs c = false := by
        intro w hw
        rcases List.mem_append.mp hw with h | h
        · exact htww w h
        · exact htagw w h
      have hline : obsFormatLine status (joinSp tw) Priority.none (none : Option Date) tags
          = (match status with
              | TaskStatus.Pending => "- [ ] ".data
              | TaskStatus.Done => "- [x] ".data)
            ++ joinSp (tw ++ tags.map (fun t => '#' :: t)) := by
        show ((((match status with
              | TaskStatus.Pending => "- [ ] ".data
              | TaskStatus.Done => "- [x] ".data) ++ joinSp tw)
            ++ []) ++ []) ++ (tags.map (fun t => sp ++ '#' :: t)).flatten = _
        rw [hTF, ← joinSp_glue htw0]
        simp [List.append_assoc]
      have hscan : scan (tw ++ tags.map (fun t => '#' :: t)) scanInit
          = ⟨tw, Priority.none, (none : Option Date), none, none, tags⟩ := by
        rw [ scan_plain_prefix hmeta]
        rw [show ({ scanInit with titleParts := scanInit.titleParts ++ tw } : ScanAcc)
            = ⟨tw, Priority.none, none, none, none, []⟩ from by simp [scanInit]]
        rw [scan_tags htagne]
        rfl
      have htrim2 := joinSp_trimStart hW0 hwords2
      have hne2 : joinSp (tw ++ tags.map (fun t => '#' :: t)) ≠ [] :=
        joinSp_ne_nil hW0 (fun w hw => (hwords2 w hw).1)
      have hsplit := splitWs_joinSp hwords2
      rw [hline]
      exact parseCheckboxLine_of_scan status
        (joinSp (tw ++ tags.map (fun t => '#' :: t)))
        (tw ++ tags.map (fun t => '#' :: t))
        ⟨tw, Priority.none, (none : Option Date), none, none, tags⟩ htrim2 hne2 hsplit hscan htitle_ne
    | low =>
      have hmemmid : ∀ w ∈ ([lowTok] : List (List Char)),
          w ≠ [] ∧ ∀ c ∈ w, isWs c = false := by
        intro w hw
        simp at hw
        subst hw
        exact ⟨by decide, by decide⟩
      have hW0 : ((tw ++ [lowTok]) ++ tags.map (fun t => '#' :: t)) ≠ [] := by
        intro h
        rcases List.append_eq_nil.mp h with ⟨h1, _⟩
        rcases List.append_eq_nil.mp h1 with ⟨h2, _⟩
        exact htw0 h2
      have hwords2 : ∀ w ∈ (tw ++ [lowTok]) ++ tags.map (fun t => '#' :: t),
          w ≠ [] ∧ ∀ c ∈ w, isWs c = false := by
        intro w hw
        rcases List.mem_append.mp hw with h | h
        · rcases List.mem_append.mp h with h2 | h2
          · exact htww w h2
          · exact hmemmid w h2
        · exact htagw w h
      have hmid : (joinSp tw ++ sp ++ lowTok) ++ ([] : List Char) = joinSp (tw ++ [lowTok]) := by
        rw [joinSp_append htw0 (by simp)]
        simp [sp, joinSp, List.append_assoc]
      have hline : obsFormatLine status (joinSp tw) Priority.low (none : Option Date) tags
          = (match status with
              | TaskStatus.Pending => "- [ ] ".data
              | TaskStatus.Done => "- [x] ".data)
            ++ joinSp ((tw ++ [lowTok]) ++ tags.map (fun t => '#' :: t)) := by
        show ((((match status with
              | TaskStatus.Pending => "- [ ] ".data
              | TaskStatus.Done => "- [x] ".data) ++ joinSp tw)
            ++ (sp ++ lowTok)) ++ (([] : List Char))) ++ (tags.map (fun t => sp ++ '#' :: t)).flatten = _
        rw [hTF, ← joinSp_glue (show (tw ++ [lowTok]) ≠ [] from by
          intro h
          exact htw0 (List.append_eq_nil.mp h).1), ← hmid]
        simp [List.append_assoc]
      have hscan : scan ((tw ++ [lowTok]) ++ tags.map (fun t => '#' :: t)) scanInit
          = ⟨tw, Priority.low, (none : Option Date), none, none, tags⟩ := by
        rw [show (tw ++ [lowTok]) ++ tags.map (fun t => '#' :: t)
            = tw ++ (lowTok :: tags.map (fun t => '#' :: t)) from by simp]
        rw [ scan_plain_prefix hmeta]
        rw [show ({ scanInit with titleParts := scanInit.titleParts ++ tw } : ScanAcc)
            = ⟨tw, Priority.none, none, none, none, []⟩ from by simp [scanInit]]
        rw [scan_cons_low]
  
        rw [scan_tags htagne]
        rfl
      have htrim2 := joinSp_trimStart hW0 hwords2
      have hne2 : joinSp ((tw ++ [lowTok]) ++ tags.map (fun t => '#' :: t)) ≠ [] :=
        joinSp_ne_nil hW0 (fun w hw => (hwords2 w hw).1)
      have hsplit := splitWs_joinSp hwords2
      rw [hline]
      exact parseCheckboxLine_of_scan status
        (joinSp ((tw ++ [lowTok]) ++ tags.map (fun t => '#' :: t)))
        ((tw ++ [lowTok]) ++ tags.map (fun t => '#' :: t))
        ⟨tw, Priority.low, (none : Option Date), none, none, tags⟩ htrim2 hne2 hsplit hscan htitle_ne
    | medium =>
      have hmemmid : ∀ w ∈ ([medTok] : List (List Char)),
          w ≠ [] ∧ ∀ c ∈ w, isWs c = false := by
        intro w hw
        simp at hw
        subst hw
        exact ⟨by decide, by decide⟩
      have hW0 : ((tw ++ [medTok]) ++ tags.map (fun t => '#' :: t)) ≠ [] := by
        intro h
        rcases List.append_eq_nil.mp h with ⟨h1, _⟩
        rcases List.append_eq_nil.mp h1 with ⟨h2, _⟩
        exact htw0 h2
      have hwords2 : ∀ w ∈ (tw ++ [medTok]) ++ tags.map (fun t => '#' :: t),
          w ≠ [] ∧ ∀ c ∈ w, isWs c = false := by
        intro w hw
        rcases List.mem_append.mp hw with h | h
        · rcases List.mem_append.mp h with h2 | h2
          · exact htww w h2
          · exact hmemmid w h2
        · exact htagw w h
      have hmid : (joinSp tw ++ sp ++ medTok) ++ ([] : List Char) = joinSp (tw ++ [medTok]) := by
        rw [joinSp_append htw0 (by simp)]
        simp [sp, joinSp, List.append_assoc]
      have hline : obsFormatLine status (joinSp tw) Priority.medium (none : Option Date) tags
          = (match status with
              | TaskStatus.Pending => "- [ ] ".data
              | TaskStatus.Done => "- [x] ".data)
            ++ joinSp ((tw ++ [medTok]) ++ tags.map (fun t => '#' :: t)) := by
        show ((((match status with
              | TaskStatus.Pending => "- [ ] ".data
              | TaskStatus.Done => "- [x] ".data) ++ joinSp tw)
            ++ (sp ++ medTok)) ++ (([] : List Char))) ++ (tags.map (fun t => sp ++ '#' :: t)).flatten = _
        rw [hTF, ← joinSp_glue (show (tw ++ [medTok]) ≠ [] from by
          intro h
          exact htw0 (List.append_eq_nil.mp h).1), ← hmid]
        simp [List.append_assoc]
      have hscan : scan ((tw ++ [medTok]) ++ tags.map (fun t => '#' :: t)) scanInit
          = ⟨tw, Priority.medium, (none : Option Date), none, none, tags⟩ := by
        rw [show (tw ++ [medTok]) ++ tags.map (fun t => '#' :: t)
            = tw ++ (medTok :: tags.map (fun t => '#' :: t)) from by simp]
        rw [ scan_plain_prefix hmeta]
        rw [show ({ scanInit with titleParts := scanInit.titleParts ++ tw } : ScanAcc)
            = ⟨tw, Priority.none, none, none, none, []⟩ from by simp [scanInit]]
        rw [scan_cons_med]
  
        rw [scan_tags htagne]
        rfl
      have htrim2 := joinSp_trimStart hW0 hwords2
      have hne2 : joinSp ((tw ++ [medTok]) ++ tags.map (fun t => '#' :: t)) ≠ [] :=
        joinSp_ne_nil hW0 (fun w hw => (hwords2 w hw).1)
      have hsplit := splitWs_joinSp hwords2
      rw [hline]
      exact parseCheckboxLine_of_scan status
        (joinSp ((tw ++ [medTok]) ++ tags.map (fun t => '#' :: t)))
        ((tw ++ [medTok]) ++ tags.map (fun t => '#' :: t))
        ⟨tw, Priority.medium, (none : Option Date), none, none, tags⟩ htrim2 hne2 hsplit hscan htitle_ne
    | high =>
      have hmemmid : ∀ w ∈ ([hiTok] : List (List Char)),
          w ≠ [] ∧ ∀ c ∈ w, isWs c = false := by
        intro w hw
        simp at hw
        subst hw
        exact ⟨by decide, by decide⟩
      have hW0 : ((tw ++ [hiTok]) ++ tags.map (fun t => '#' :: t)) ≠ [] := by
        intro h
        rcases List.append_eq_nil.mp h with ⟨h1, _⟩
        rcases List.append_eq_nil.mp h1 with ⟨h2, _⟩
        exact htw0 h2
      have hwords2 : ∀ w ∈ (tw ++ [hiTok]) ++ tags.map (fun t => '#' :: t),
          w ≠ [] ∧ ∀ c ∈ w, isWs c = false := by
        intro w hw
        rcases List.mem_append.mp hw with h | h
        · rcases List.mem_append.mp h with h2 | h2
          · exact htww w h2
          · exact hmemmid w h2
        · exact htagw w h
      have hmid : (joinSp tw ++ sp ++ hiTok) ++ ([] : List Char) = joinSp (tw ++ [hiTok]) := by
        rw [joinSp_append htw0 (by simp)]
        simp [sp, joinSp, List.append_assoc]
      have hline : obsFormatLine status (joinSp tw) Priority.high (none : Option Date) tags
          = (match status with
              | TaskStatus.Pending => "- [ ] ".data
              | TaskStatus.Done => "- [x] ".data)
            ++ joinSp ((tw ++ [hiTok]) ++ tags.map (fun t => '#' :: t)) := by
        show ((((match status with
              | TaskStatus.Pending => "- [ ] ".data
              | TaskStatus.Done => "- [x] ".data) ++ joinSp tw)
            ++ (sp ++ hiTok)) ++ (([] : List Char))) ++ (tags.map (fun t => sp ++ '#' :: t)).flatten = _
        rw [hTF, ← joinSp_glue (show (tw ++ [hiTok]) ≠ [] from by
          intro h
          exact htw0 (List.append_eq_nil.mp h).1), ← hmid]
        simp [List.append_assoc]
      have hscan : scan ((tw ++ [hiTok]) ++ tags.map (fun t => '#' :: t)) scanInit
          = ⟨tw, Priority.high, (none : Option Date), none, none, tags⟩ := by
        rw [show (tw ++ [hiTok]) ++ tags.map (fun t => '#' :: t)
            = tw ++ (hiTok :: tags.map (fun t => '#' :: t)) from by simp]
        rw [ scan_plain_prefix hmeta]
        rw [show ({ scanInit with titleParts := scanInit.titleParts ++ tw } : ScanAcc)
            = ⟨tw, Priority.none, none, none, none, []⟩ from by simp [scanInit]]
        rw [scan_cons_hi]
  
        rw [scan_tags htagne]
        rfl
      have htrim2 := joinSp_trimStart hW0 hwords2
      have hne2 : joinSp ((tw ++ [hiTok]) ++ tags.map (fun t => '#' :: t)) ≠ [] :=
        joinSp_ne_nil hW0 (fun w hw => (hwords2 w hw).1)
      have hsplit := splitWs_joinSp hwords2
      rw [hline]
      exact parseCheckboxLine_of_scan status
        (joinSp ((tw ++ [hiTok]) ++ tags.map (fun t => '#' :: t)))
        ((tw ++ [hiTok]) ++ tags.map (fun t => '#' :: t))
        ⟨tw, Priority.high, (none : Option Date), none, none, tags⟩ htrim2 hne2 hsplit hscan htitle_ne
  | some dd =>
    have hdne : dateToString dd ≠ [] := by
      obtain ⟨c, cs, h, _⟩ := dateToString_head dd
      rw [h]
      simp
    cases priority with
    | none =>
      have hmemmid : ∀ w ∈ ([dueTok, dateToString dd] : List (List Char)),
          w ≠ [] ∧ ∀ c ∈ w, isWs c = false := by
        intro w hw
        simp at hw
        rcases hw with rfl | rfl
        · exact ⟨by decide, by decide⟩
        · exact ⟨hdne, fun c hc => date_chars_not_ws (dateToString_mem hc)⟩
      have hW0 : ((tw ++ [dueTok, dateToString dd]) ++ tags.map (fun t => '#' :: t)) ≠ [] := by
        intro h
        rcases List.append_eq_nil.mp h with ⟨h1, _⟩
        rcases List.append_eq_nil.mp h1 with ⟨h2, _⟩
        exact htw0 h2
      have hwords2 : ∀ w ∈ (tw ++ [dueTok, dateToString dd]) ++ tags.map (fun t => '#' :: t),
          w ≠ [] ∧ ∀ c ∈ w, isWs c = false := by
        intro w hw
        rcases List.mem_append.mp hw with h | h
        · rcases List.mem_append.mp h with h2 | h2
          · exact htww w h2
          · exact hmemmid w h2
        · exact htagw w h
      have hmid : (joinSp tw ++ ([] : List Char)) ++ sp ++ dueTok ++ sp ++ dateToString dd = joinSp (tw ++ [dueTok, dateToString dd]) := by
        rw [joinSp_append htw0 (by simp)]
        simp [sp, joinSp, List.append_assoc]
      have hline : obsFormatLine status (joinSp tw) Priority.none (some dd) tags
          = (match status with
              | TaskStatus.Pending => "- [ ] ".data
              | TaskStatus.Done => "- [x] ".data)
            ++ joinSp ((tw ++ [dueTok, dateToString dd]) ++ tags.map (fun t => '#' :: t)) := by
        show ((((match status with
              | TaskStatus.Pending => "- [ ] ".data
              | TaskStatus.Done => "- [x] ".data) ++ joinSp tw)
            ++ (([] : List Char))) ++ (sp ++ dueTok ++ sp ++ dateToString dd)) ++ (tags.map (fun t => sp ++ '#' :: t)).flatten = _
        rw [hTF, ← joinSp_glue (show (tw ++ [dueTok, dateToString dd]) ≠ [] from by
          intro h
          exact htw0 (List.append_eq_nil.mp h).1), ← hmid]
        simp [List.append_assoc]
      have hscan : scan ((tw ++ [dueTok, dateToString dd]) ++ tags.map (fun t => '#' :: t)) scanInit
          = ⟨tw, Priority.none, (some dd), none, none, tags⟩ := by
        rw [show (tw ++ [dueTok, dateToString dd]) ++ tags.map (fun t => '#' :: t)
            = tw ++ (dueTok :: dateToString dd :: tags.map (fun t => '#' :: t)) from by simp]
        rw [ scan_plain_prefix hmeta]
        rw [show ({ scanInit with titleParts := scanInit.titleParts ++ tw } : ScanAcc)
            = ⟨tw, Priority.none, none, none, none, []⟩ from by simp [scanInit]]
        rw [scan_cons_due (hdue dd rfl)]
  
        rw [scan_tags htagne]
        rfl
      have htrim2 := joinSp_trimStart hW0 hwords2
      have hne2 : joinSp ((tw ++ [dueTok, dateToString dd]) ++ tags.map (fun t => '#' :: t)) ≠ [] :=
        joinSp_ne_nil hW0 (fun w hw => (hwords2 w hw).1)
      have hsplit := splitWs_joinSp hwords2
      rw [hline]
      exact parseCheckboxLine_of_scan status
        (joinSp ((tw ++ [dueTok, dateToString dd]) ++ tags.map (fun t => '#' :: t)))
        ((tw ++ [dueTok, dateToString dd]) ++ tags.map (fun t => '#' :: t))
        ⟨tw, Priority.none, (some dd), none, none, tags⟩ htrim2 hne2 hsplit hscan htitle_ne
    | low =>
      have hmemmid : ∀ w ∈ ([lowTok, dueTok, dateToString dd] : List (List Char)),
          w ≠ [] ∧ ∀ c ∈ w, isWs c = false := by
        intro w hw
        simp at hw
        rcases hw with rfl | rfl | rfl
        · exact ⟨by decide, by decide⟩
        · exact ⟨by decide, by decide⟩
        · exact ⟨hdne, fun c hc => date_chars_not_ws (dateToString_mem hc)⟩
      have hW0 : ((tw ++ [lowTok, dueTok, dateToString dd]) ++ tags.map (fun t => '#' :: t)) ≠ [] := by
        intro h
        rcases List.append_eq_nil.mp h with ⟨h1, _⟩
        rcases List.append_eq_nil.mp h1 with ⟨h2, _⟩
        exact htw0 h2
      have hwords2 : ∀ w ∈ (tw ++ [lowTok, dueTok, dateToString dd]) ++ tags.map (fun t => '#' :: t),
          w ≠ [] ∧ ∀ c ∈ w, isWs c = false := by
        intro w hw
        rcases List.mem_append.mp hw with h | h
        · rcases List.mem_append.mp h with h2 | h2
          · exact htww w h2
          · exact hmemmid w h2
        · exact htagw w h
      have hmid : (joinSp tw ++ sp ++ lowTok) ++ sp ++ dueTok ++ sp ++ dateToString dd = joinSp (tw ++ [lowTok, dueTok, dateToString dd]) := by
        rw [joinSp_append htw0 (by simp)]
        simp [sp, joinSp, List.append_assoc]
      have hline : obsFormatLine status (joinSp tw) Priority.low (some dd) tags
          = (match status with
              | TaskStatus.Pending => "- [ ] ".data
              | TaskStatus.Done => "- [x] ".data)
            ++ joinSp ((tw ++ [lowTok, dueTok, dateToString dd]) ++ tags.map (fun t => '#' :: t)) := by
        show ((((match status with
              | TaskStatus.Pending => "- [ ] ".data
              | TaskStatus.Done => "- [x] ".data) ++ joinSp tw)
            ++ (sp ++ lowTok)) ++ (sp ++ dueTok ++ sp ++ dateToString dd)) ++ (tags.map (fun t => sp ++ '#' :: t)).flatten = _
        rw [hTF, ← joinSp_glue (show (tw ++ [lowTok, dueTok, dateToString dd]) ≠ [] from by
          intro h
          exact htw0 (List.append_eq_nil.mp h).1), ← hmid]
        simp [List.append_assoc]
      have hscan : scan ((tw ++ [lowTok, dueTok, dateToString dd]) ++ tags.map (fun t => '#' :: t)) scanInit
          = ⟨tw, Priority.low, (some dd), none, none, tags⟩ := by
        rw [show (tw ++ [lowTok, dueTok, dateToString dd]) ++ tags.map (fun t => '#' :: t)
            = tw ++ (lowTok :: dueTok :: dateToString dd :: tags.map (fun t => '#' :: t)) from by simp]
        rw [ scan_plain_prefix hmeta]
        rw [show ({ scanInit with titleParts := scanInit.titleParts ++ tw } : ScanAcc)
            = ⟨tw, Priority.none, none, none, none, []⟩ from by simp [scanInit]]
        rw [scan_cons_low]
        rw [scan_cons_due (hdue dd rfl)]
  
        rw [scan_tags htagne]
        rfl
      have htrim2 := joinSp_trimStart hW0 hwords2
      have hne2 : joinSp ((tw ++ [lowTok, dueTok, dateToString dd]) ++ tags.map (fun t => '#' :: t)) ≠ [] :=
        joinSp_ne_nil hW0 (fun w hw => (hwords2 w hw).1)
      have hsplit := splitWs_joinSp hwords2
      rw [hline]
      exact parseCheckboxLine_of_scan status
        (joinSp ((tw ++ [lowTok, dueTok, dateToString dd]) ++ tags.map (fun t => '#' :: t)))
        ((tw ++ [lowTok, dueTok, dateToString dd]) ++ tags.map (fun t => '#' :: t))
        ⟨tw, Priority.low, (some dd), none, none, tags⟩ htrim2 hne2 hsplit hscan htitle_ne
    | medium =>
      have hmemmid : ∀ w ∈ ([medTok, dueTok, dateToString dd] : List (List Char)),
          w ≠ [] ∧ ∀ c ∈ w, isWs c = false := by
        intro w hw
        simp at hw
        rcases hw with rfl | rfl | rfl
        · exact ⟨by decide, by decide⟩
        · exact ⟨by decide, by decide⟩
        · exact ⟨hdne, fun c hc => date_chars_not_ws (dateToString_mem hc)⟩
      have hW0 : ((tw ++ [medTok, dueTok, dateToString dd]) ++ tags.map (fun t => '#' :: t)) ≠ [] := by
        intro h
        rcases List.append_eq_nil.mp h with ⟨h1, _⟩
        rcases List.append_eq_nil.mp h1 with ⟨h2, _⟩
        exact htw0 h2
      have hwords2 : ∀ w ∈ (tw ++ [medTok, dueTok, dateToString dd]) ++ tags.map (fun t => '#' :: t),
          w ≠ [] ∧ ∀ c ∈ w, isWs c = false := by
        intro w hw
        rcases List.mem_append.mp hw with h | h
        · rcases List.mem_append.mp h with h2 | h2
          · exact htww w h2
          · exact hmemmid w h2
        · exact htagw w h
      have hmid : (joinSp tw ++ sp ++ medTok) ++ sp ++ dueTok ++ sp ++ dateToString dd = joinSp (tw ++ [medTok, dueTok, dateToString dd]) := by
        rw [joinSp_append htw0 (by simp)]
        simp [sp, joinSp, List.append_assoc]
      have hline : obsFormatLine status (joinSp tw) Priority.medium (some dd) tags
          = (match status with
              | TaskStatus.Pending => "- [ ] ".data
              | TaskStatus.Done => "- [x] ".data)
            ++ joinSp ((tw ++ [medTok, dueTok, dateToString dd]) ++ tags.map (fun t => '#' :: t)) := by
        show ((((match status with
              | TaskStatus.Pending => "- [ ] ".data
              | TaskStatus.Done => "- [x] ".data) ++ joinSp tw)
            ++ (sp ++ medTok)) ++ (sp ++ dueTok ++ sp ++ dateToString dd)) ++ (tags.map (fun t => sp ++ '#' :: t)).flatten = _
        rw [hTF, ← joinSp_glue (show (tw ++ [medTok, dueTok, dateToString dd]) ≠ [] from by
          intro h
          exact htw0 (List.append_eq_nil.mp h).1), ← hmid]
        simp [List.append_assoc]
      have hscan : scan ((tw ++ [medTok, dueTok, dateToString dd]) ++ tags.map (fun t => '#' :: t)) scanInit
          = ⟨tw, Priority.medium, (some dd), none, none, tags⟩ := by
        rw [show (tw ++ [medTok, dueTok, dateToString dd]) ++ tags.map (fun t => '#' :: t)
            = tw ++ (medTok :: dueTok :: dateToString dd :: tags.map (fun t => '#' :: t)) from by simp]
        rw [ scan_plain_prefix hmeta]
        rw [show ({ scanInit with titleParts := scanInit.titleParts ++ tw } : ScanAcc)
            = ⟨tw, Priority.none, none, none, none, []⟩ from by simp [scanInit]]
        rw [scan_cons_med]
        rw [scan_cons_due (hdue dd rfl)]
  
        rw [scan_tags htagne]
        rfl
      have htrim2 := joinSp_trimStart hW0 hwords2
      have hne2 : joinSp ((tw ++ [medTok, dueTok, dateToString dd]) ++ tags.map (fun t => '#' :: t)) ≠ [] :=
        joinSp_ne_nil hW0 (fun w hw => (hwords2 w hw).1)
      have hsplit := splitWs_joinSp hwords2
      rw [hline]
      exact parseCheckboxLine_of_scan status
        (joinSp ((tw ++ [medTok, dueTok, dateToString dd]) ++ tags.map (fun t => '#' :: t)))
        ((tw ++ [medTok, dueTok, dateToString dd]) ++ tags.map (fun t => '#' :: t))
        ⟨tw, Priority.medium, (some dd), none, none, tags⟩ htrim2 hne2 hsplit hscan htitle_ne
    | high =>
      have hmemmid : ∀ w ∈ ([hiTok, dueTok, dateToString dd] : List (List Char)),
          w ≠ [] ∧ ∀ c ∈ w, isWs c = false := by
        intro w hw
        simp at hw
        rcases hw with rfl | rfl | rfl
        · exact ⟨by decide, by decide⟩
        · exact ⟨by decide, by decide⟩
        · exact ⟨hdne, fun c hc => date_chars_not_ws (dateToString_mem hc)⟩
      have hW0 : ((tw ++ [hiTok, dueTok, dateToString dd]) ++ tags.map (fun t => '#' :: t)) ≠ [] := by
        intro h
        rcases List.append_eq_nil.mp h with ⟨h1, _⟩
        rcases List.append_eq_nil.mp h1 with ⟨h2, _⟩
        exact htw0 h2
      have hwords2 : ∀ w ∈ (tw ++ [hiTok, dueTok, dateToString dd]) ++ tags.map (fun t => '#' :: t),
          w ≠ [] ∧ ∀ c ∈ w, isWs c = false := by
        intro w hw
        rcases List.mem_append.mp hw with h | h
        · rcases List.mem_append.mp h with h2 | h2
          · exact htww w h2
          · exact hmemmid w h2
        · exact htagw w h
      have hmid : (joinSp tw ++ sp ++ hiTok) ++ sp ++ dueTok ++ sp ++ dateToString dd = joinSp (tw ++ [hiTok, dueTok, dateToString dd]) := by
        rw [joinSp_append htw0 (by simp)]
        simp [sp, joinSp, List.append_assoc]
      have hline : obsFormatLine status (joinSp tw) Priority.high (some dd) tags
          = (match status with
              | TaskStatus.Pending => "- [ ] ".data
              | TaskStatus.Done => "- [x] ".data)
            ++ joinSp ((tw ++ [hiTok, dueTok, dateToString dd]) ++ tags.map (fun t => '#' :: t)) := by
        show ((((match status with
              | TaskStatus.Pending => "- [ ] ".data
              | TaskStatus.Done => "- [x] ".data) ++ joinSp tw)
            ++ (sp ++ hiTok)) ++ (sp ++ dueTok ++ sp ++ dateToString dd)) ++ (tags.map (fun t => sp ++ '#' :: t)).flatten = _
        rw [hTF, ← joinSp_glue (show (tw ++ [hiTok, dueTok, dateToString dd]) ≠ [] from by
          intro h
          exact htw0 (List.append_eq_nil.mp h).1), ← hmid]
        simp [List.append_assoc]
      have hscan : scan ((tw ++ [hiTok, dueTok, dateToString dd]) ++ tags.map (fun t => '#' :: t)) scanInit
          = ⟨tw, Priority.high, (some dd), none, none, tags⟩ := by
        rw [show (tw ++ [hiTok, dueTok, dateToString dd]) ++ tags.map (fun t => '#' :: t)
            = tw ++ (hiTok :: dueTok :: dateToString dd :: tags.map (fun t => '#' :: t)) from by simp]
        rw [ scan_plain_prefix hmeta]
        rw [show ({ scanInit with titleParts := scanInit.titleParts ++ tw } : ScanAcc)
            = ⟨tw, Priority.none, none, none, none, []⟩ from by simp [scanInit]]
        rw [scan_cons_hi]
        rw [scan_cons_due (hdue dd rfl)]
  
        rw [scan_tags htagne]
        rfl
      have htrim2 := joinSp_trimStart hW0 hwords2
      have hne2 : joinSp ((tw ++ [hiTok, dueTok, dateToString dd]) ++ tags.map (fun t => '#' :: t)) ≠ [] :=
        joinSp_ne_nil hW0 (fun w hw => (hwords2 w hw).1)
      have hsplit := splitWs_joinSp hwords2
      rw [hline]
      exact parseCheckboxLine_of_scan status
        (joinSp ((tw ++ [hiTok, dueTok, dateToString dd]) ++ tags.map (fun t => '#' :: t)))
        ((tw ++ [hiTok, dueTok, dateToString dd]) ++ tags.map (fun t => '#' :: t))
        ⟨tw, Priority.high, (some dd), none, none, tags⟩ htrim2 hne2 hsplit hscan htitle_ne

/-- C5, amended: formatting a task and re-parsing it reproduces the
title, priority, due date and tags in both codecs — the flat-file codec
(`localCreateLine` then `parseLine`, which always yields a `Pending` task
whose `createdAt` is the stamped creation date) and the obsidian codec
(`obsFormatLine` then `parseCheckboxLine`, which also preserves the
checkbox status) — provided the title is a space-joining of plain words
(each nonempty, whitespace-free, and not a metadata token), every tag is
nonempty and whitespace-free, and the dates are valid. The claim's
unconditional round-trip statement is false (see the counterexample). -/
theorem format_parse_roundtrip (n : Nat) (today : Date) (priority : Priority)
    (due : Option Date) (tw tags : List (List Char)) (status : TaskStatus)
    (htoday : validDate today = true)
    (htw0 : tw ≠ [])
    (htw : ∀ w ∈ tw, w ≠ [] ∧ (∀ c ∈ w, isWs c = false) ∧ isMetadataToken w = false)
    (htags : ∀ tg ∈ tags, tg ≠ [] ∧ ∀ c ∈ tg, isWs c = false)
    (hdue : ∀ dd, due = some dd → validDate dd = true) :
    parseLine n (localCreateLine today (joinSp tw) priority due tags)
      = some { id := ("local:".data) ++ natStr n, title := joinSp tw,
               status := TaskStatus.Pending, priority := priority, due := due,
               tags := tags, sourceLine := some n, createdAt := some today,
               completedAt := none } ∧
    parseCheckboxLine (obsFormatLine status (joinSp tw) priority due tags)
      = some ⟨joinSp tw, status, priority, due, none, none, tags⟩ := by
  refine ⟨?_, parseCheckboxLine_obsFormat status priority due tw tags htw0 htw htags hdue⟩
  have htagw : ∀ w ∈ tags.map (fun t => '#' :: t), w ≠ [] ∧ ∀ c ∈ w, isWs c = false := by
    intro w hw
    rcases List.mem_map.mp hw with ⟨tg, htg, rfl⟩
    obtain ⟨h1, h2⟩ := htags tg htg
    refine ⟨by simp, ?_⟩
    intro c hc
    rcases List.mem_cons.mp hc with rfl | hc2
    · rfl
    · exact h2 c hc2
  have htww : ∀ w ∈ tw, w ≠ [] ∧ ∀ c ∈ w, isWs c = false :=
    fun w hw => ⟨(htw w hw).1, (htw w hw).2.1⟩
  have htitle_ne : joinSp tw ≠ [] := joinSp_ne_nil htw0 (fun w hw => (htw w hw).1)
  have hplain : ∀ w ∈ tw, w.head? ≠ some '#' ∧ (("due:".data).isPrefixOf w) = false :=
    fun w hw => not_meta_plain (htw w hw).2.2
  cases due with
  | none =>
    have hdueww : ∀ w ∈ (([] : List (List Char)) : List (List Char)), w ≠ [] ∧ ∀ c ∈ w, isWs c = false := by
      intro w hw
      simp at hw
    have hwords : ∀ w ∈ tw ++ (tags.map (fun t => '#' :: t) ++ ([] : List (List Char))),
        w ≠ [] ∧ ∀ c ∈ w, isWs c = false := by
      intro w hw
      rcases List.mem_append.mp hw with h | h
      · exact htww w h
      · rcases List.mem_append.mp h with h2 | h2
        · exact htagw w h2
        · exact hdueww w h2
    have hws0 : (tw ++ (tags.map (fun t => '#' :: t) ++ ([] : List (List Char)))) ≠ [] := by
      intro h
      rw [List.append_eq_nil] at h
      exact htw0 h.1
    have hfold : List.foldl wordStep ⟨[], none, []⟩
        (tw ++ (tags.map (fun t => '#' :: t) ++ ([] : List (List Char)))) = ⟨tags, none, tw⟩ := by
      rw [List.foldl_append, List.foldl_append, fold_plain hplain, fold_tags]
      simp
    have hlnflat : localCreateLine today (joinSp tw) priority none tags
        = prioMark priority ++ (dateToString today ++ ' ' ::
            joinSp (tw ++ (tags.map (fun t => '#' :: t) ++ ([] : List (List Char))))) := by
      cases priority with
      | none =>
        show joinSp ([] ++ [dateToString today] ++ [joinSp tw]
          ++ tags.map (fun t => '#' :: t) ++ ([] : List (List Char))) = _
        rw [show ([] ++ [dateToString today] ++ [joinSp tw]
          ++ tags.map (fun t => '#' :: t) ++ ([] : List (List Char)))
          = dateToString today :: (joinSp tw :: (tags.map (fun t => '#' :: t)
          ++ ([] : List (List Char)))) from by simp]
        rw [joinSp_cons_of_ne (by simp), joinSp_nest htw0]
        rfl
      | low =>
        show joinSp (["(p3)".data] ++ [dateToString today] ++ [joinSp tw]
          ++ tags.map (fun t => '#' :: t) ++ ([] : List (List Char))) = _
        rw [show (["(p3)".data] ++ [dateToString today] ++ [joinSp tw]
          ++ tags.map (fun t => '#' :: t) ++ ([] : List (List Char)))
          = ("(p3)".data) :: (dateToString today :: (joinSp tw :: (tags.map (fun t => '#' :: t)
          ++ ([] : List (List Char))))) from by simp]
        rw [joinSp_cons_of_ne (by simp), joinSp_cons_of_ne (by simp), joinSp_nest htw0]
        rfl
      | medium =>
        show joinSp (["(p2)".data] ++ [dateToString today] ++ [joinSp tw]
          ++ tags.map (fun t => '#' :: t) ++ ([] : List (List Char))) = _
        rw [show (["(p2)".data] ++ [dateToString today] ++ [joinSp tw]
          ++ tags.map (fun t => '#' :: t) ++ ([] : List (List Char)))
          = ("(p2)".data) :: (dateToString today :: (joinSp tw :: (tags.map (fun t => '#' :: t)
          ++ ([] : List (List Char))))) from by simp]
        rw [joinSp_cons_of_ne (by simp), joinSp_cons_of_ne (by simp), joinSp_nest htw0]
        rfl
      | high =>
        show joinSp (["(p1)".data] ++ [dateToString today] ++ [joinSp tw]
          ++ tags.map (fun t => '#' :: t) ++ ([] : List (List Char))) = _
        rw [show (["(p1)".data] ++ [dateToString today] ++ [joinSp tw]
          ++ tags.map (fun t => '#' :: t) ++ ([] : List (List Char)))
          = ("(p1)".data) :: (dateToString today :: (joinSp tw :: (tags.map (fun t => '#' :: t)
          ++ ([] : List (List Char))))) from by simp]
        rw [joinSp_cons_of_ne (by simp), joinSp_cons_of_ne (by simp), joinSp_nest htw0]
        rfl
    rw [hlnflat]
    exact parseLine_pending_of_fold n today priority
      (tw ++ (tags.map (fun t => '#' :: t) ++ ([] : List (List Char)))) tw tags none
      htoday hws0 hwords hfold htitle_ne
  | some dd =>
    have hvdd : validDate dd = true := hdue dd rfl
    have hdueww : ∀ w ∈ ([("due:".data) ++ dateToString dd] : List (List Char)), w ≠ [] ∧ ∀ c ∈ w, isWs c = false := by
      intro w hw
      simp at hw
      subst hw
      refine ⟨by simp, ?_⟩
      intro c hc
      simp at hc
      rcases hc with rfl | rfl | rfl | rfl | h
      · rfl
      · rfl
      · rfl
      · rfl
      · exact date_chars_not_ws (dateToString_mem h)
    have hwords : ∀ w ∈ tw ++ (tags.map (fun t => '#' :: t) ++ [("due:".data) ++ dateToString dd]),
        w ≠ [] ∧ ∀ c ∈ w, isWs c = false := by
      intro w hw
      rcases List.mem_append.mp hw with h | h
      · exact htww w h
      · rcases List.mem_append.mp h with h2 | h2
        · exact htagw w h2
        · exact hdueww w h2
    have hws0 : (tw ++ (tags.map (fun t => '#' :: t) ++ [("due:".data) ++ dateToString dd])) ≠ [] := by
      intro h
      rw [List.append_eq_nil] at h
      exact htw0 h.1
    have hfold : List.foldl wordStep ⟨[], none, []⟩
        (tw ++ (tags.map (fun t => '#' :: t) ++ [("due:".data) ++ dateToString dd])) = ⟨tags, (some dd), tw⟩ := by
      rw [List.foldl_append, List.foldl_append, fold_plain hplain, fold_tags]
      simp only [List.foldl_cons, List.foldl_nil]
      rw [fold_due hvdd]
      simp
    have hlnflat : localCreateLine today (joinSp tw) priority (some dd) tags
        = prioMark priority ++ (dateToString today ++ ' ' ::
            joinSp (tw ++ (tags.map (fun t => '#' :: t) ++ [("due:".data) ++ dateToString dd]))) := by
      cases priority with
      | none =>
        show joinSp ([] ++ [dateToString today] ++ [joinSp tw]
          ++ tags.map (fun t => '#' :: t) ++ [("due:".data) ++ dateToString dd]) = _
        rw [show ([] ++ [dateToString today] ++ [joinSp tw]
          ++ tags.map (fun t => '#' :: t) ++ [("due:".data) ++ dateToString dd])
          = dateToString today :: (joinSp tw :: (tags.map (fun t => '#' :: t)
          ++ [("due:".data) ++ dateToString dd])) from by simp]
        rw [joinSp_cons_of_ne (by simp), joinSp_nest htw0]
        rfl
      | low =>
        show joinSp (["(p3)".data] ++ [dateToString today] ++ [joinSp tw]
          ++ tags.map (fun t => '#' :: t) ++ [("due:".data) ++ dateToString dd]) = _
        rw [show (["(p3)".data] ++ [dateToString today] ++ [joinSp tw]
          ++ tags.map (fun t => '#' :: t) ++ [("due:".data) ++ dateToString dd])
          = ("(p3)".data) :: (dateToString today :: (joinSp tw :: (tags.map (fun t => '#' :: t)
          ++ [("due:".data) ++ dateToString dd]))) from by simp]
        rw [joinSp_cons_of_ne (by simp), joinSp_cons_of_ne (by simp), joinSp_nest htw0]
        rfl
      | medium =>
        show joinSp (["(p2)".data] ++ [dateToString today] ++ [joinSp tw]
          ++ tags.map (fun t => '#' :: t) ++ [("due:".data) ++ dateToString dd]) = _
        rw [show (["(p2)".data] ++ [dateToString today] ++ [joinSp tw]
          ++ tags.map (fun t => '#' :: t) ++ [("due:".data) ++ dateToString dd])
          = ("(p2)".data) :: (dateToString today :: (joinSp tw :: (tags.map (fun t => '#' :: t)
          ++ [("due:".data) ++ dateToString dd]))) from by simp]
        rw [joinSp_cons_of_ne (by simp), joinSp_cons_of_ne (by simp), joinSp_nest htw0]
        rfl
      | high =>
        show joinSp (["(p1)".data] ++ [dateToString today] ++ [joinSp tw]
          ++ tags.map (fun t => '#' :: t) ++ [("due:".data) ++ dateToString dd]) = _
        rw [show (["(p1)".data] ++ [dateToString today] ++ [joinSp tw]
          ++ tags.map (fun t => '#' :: t) ++ [("due:".data) ++ dateToString dd])
          = ("(p1)".data) :: (dateToString today :: (joinSp tw :: (tags.map (fun t => '#' :: t)
          ++ [("due:".data) ++ dateToString dd]))) from by simp]
        rw [joinSp_cons_of_ne (by simp), joinSp_cons_of_ne (by simp), joinSp_nest htw0]
        rfl
    rw [hlnflat]
    exact parseLine_pending_of_fold n today priority
      (tw ++ (tags.map (fun t => '#' :: t) ++ [("due:".data) ++ dateToString dd])) tw tags (some dd)
      htoday hws0 hwords hfold htitle_ne

/-- Witness for `format_parse_roundtrip` at concrete inputs. -/
theorem format_parse_roundtrip_witness :
    validDate ⟨2025, 3, 1⟩ = true ∧
    (parseLine 1 (localCreateLine ⟨2025, 3, 1⟩ (joinSp [("Pay".data)]) Priority.high
        (some ⟨2025, 3, 2⟩) [("work".data)])
      = some { id := ("local:".data) ++ natStr 1, title := joinSp [("Pay".data)],
               status := TaskStatus.Pending, priority := Priority.high,
               due := some ⟨2025, 3, 2⟩, tags := [("work".data)], sourceLine := some 1,
               createdAt := some ⟨2025, 3, 1⟩, completedAt := none } ∧
     parseCheckboxLine (obsFormatLine TaskStatus.Pending (joinSp [("Pay".data)]) Priority.high
        (some ⟨2025, 3, 2⟩) [("work".data)])
      = some ⟨joinSp [("Pay".data)], TaskStatus.Pending, Priority.high,
          some ⟨2025, 3, 2⟩, none, none, [("work".data)]⟩) :=
  ⟨by decide,
   format_parse_roundtrip 1 ⟨2025, 3, 1⟩ Priority.high (some ⟨2025, 3, 2⟩)
     [("Pay".data)] [("work".data)] TaskStatus.Pending (by decide) (by decide)
     (by decide) (by decide)
     (by
       intro dd h
       rw [← Option.some.inj h]
       decide)⟩

end Tasuki
